import Mathlib

/-!
Shallow embedding of the sudoku_gem library (grid.cpp, validator.cpp,
sudoku.cpp) together with proofs that settle the specification claims.

Machine-integer conventions: the C++ code manipulates bitmasks of type
std::uint_fast64_t (64 bits on the targeted platform) but builds them from
the expression (1 << k) whose left operand 1 has type int (32 bits wide).
On the x86-64 targets this library is built for, a 32-bit shift uses only
the low five bits of the count and converting the resulting int to a
64-bit unsigned integer sign-extends it.  The helpers below reproduce that
arithmetic exactly on Nat, viewing an unsigned 64-bit value as a Nat below
2 ^ 64.
-/

namespace SudokuGem

/-- pat64 a is the 64-bit unsigned view of the C++ expression (1 << (a - 1))
where a is a 32-bit int: the shift count is reduced mod 32 and the 32-bit
result is sign-extended when converted to a 64-bit unsigned integer
(count 31 yields the int value INT_MIN, whose 64-bit image is
2 ^ 64 - 2 ^ 31). -/
def pat64 (a : Int) : Nat :=
  let k := ((a - 1).emod 32).toNat
  if k = 31 then 2 ^ 64 - 2 ^ 31 else 2 ^ k

/-- validMask64 n is the 64-bit unsigned view of the C++ expression
((1 << n) - 1) computed in 32-bit int arithmetic (shift count reduced mod
32, two's-complement subtraction); the result is never negative as an int,
so no sign extension occurs. -/
def validMask64 (n : Nat) : Nat := 2 ^ (n % 32) - 1

/-- not64 m is the C++ bitwise complement of a 64-bit unsigned value. -/
def not64 (m : Nat) : Nat := m ^^^ (2 ^ 64 - 1)

/-- Grid is the board state of grid.cpp: a square matrix of int cells of
side n.  The C++ boost::multi_array storage matrix[y][x] is embedded as the
function mat with mat x y = matrix[y][x]; coordinates outside the square
are never read by the library code (see Grid.get below). -/
structure Grid where
  n : Nat
  mat : Nat → Nat → Int

/-- Grid.get embeds Grid::get, the unchecked in-range access
matrix[y][x] used by the validator and the search (all of whose accesses
are within bounds).  The bounds-asserted contract form is Grid.getChk. -/
def Grid.get (g : Grid) (x y : Nat) : Int := g.mat x y

/-- Grid.set embeds Grid::set: matrix[y][x] = i, as a pointwise update. -/
def Grid.set (g : Grid) (x y : Nat) (i : Int) : Grid :=
  { g with mat := fun x0 y0 => if x0 = x ∧ y0 = y then i else g.mat x0 y0 }

/-- GridErr is the failure of a bounds-asserted grid access: boost's
multi_array asserts 0 ≤ index < extent on every access. -/
inductive GridErr where
  | outOfRange
deriving DecidableEq

/-- Grid.getChk is Grid::get with the boost::multi_array bounds assertion
made explicit: accessing matrix[y][x] fails when x or y is outside [0, n). -/
def Grid.getChk (g : Grid) (x y : Nat) : Except GridErr Int :=
  if x < g.n ∧ y < g.n then .ok (g.mat x y) else .error .outOfRange

/-- Grid.setChk is Grid::set with the boost::multi_array bounds assertion
made explicit; the stored value i is not validated in any way. -/
def Grid.setChk (g : Grid) (x y : Nat) (i : Int) : Except GridErr Grid :=
  if x < g.n ∧ y < g.n then .ok (g.set x y i) else .error .outOfRange

/-- Grid.reset embeds Grid::reset: boost::multi_array resize keeps the
overlapping sub-array and value-initialises (to 0) any newly created
cells. -/
def Grid.reset (g : Grid) (n : Nat) : Grid :=
  { n := n,
    mat := fun x y => if x < g.n ∧ y < g.n ∧ x < n ∧ y < n then g.mat x y else 0 }

/-- sqrtAux k n is the largest j ≤ k with j * j ≤ n, by downward scan; it
is a structurally recursive computation of the integer square root (the
kernel cannot evaluate Nat.sqrt, see nRoot_eq_sqrt). -/
def sqrtAux : Nat → Nat → Nat
  | 0, _ => 0
  | k + 1, n => if (k + 1) * (k + 1) ≤ n then k + 1 else sqrtAux k n

/-- nRoot n models the C++ expression std::size_t(sqrt(n) + 0.5) used for
the block side (and std::size_t(sqrt(n)) in the parser); on every size
n ≤ 64 the double computation is exact enough that both equal the integer
square root. -/
def nRoot (n : Nat) : Nat := sqrtAux n n

/-- rowCells n y lists the coordinates scanned by the row loops of
validator.cpp: (x, y) for x = 0, 1, ..., n - 1. -/
def rowCells (n y : Nat) : List (Nat × Nat) :=
  (List.range n).map (fun x => (x, y))

/-- colCells n x lists the coordinates scanned by the column loops of
validator.cpp: (x, y) for y = 0, 1, ..., n - 1. -/
def colCells (n x : Nat) : List (Nat × Nat) :=
  (List.range n).map (fun y => (x, y))

/-- blockCells n x y lists the coordinates scanned by the block loops of
validator.cpp, outer loop on y_off and inner loop on x_off, each ranging
over [0, nRoot n). -/
def blockCells (n x y : Nat) : List (Nat × Nat) :=
  (List.range (nRoot n)).flatMap
    (fun yo => (List.range (nRoot n)).map (fun xo => (x + xo, y + yo)))

/-- goodCells embeds the shared body of Validator::is_good_row,
is_good_column and is_good_block: walk the cells in loop order, reject an
undetermined cell or a cell whose pattern bit is already in the
accumulated mask, and at the end require the mask to equal the full
valid_mask. -/
def goodCells (g : Grid) : List (Nat × Nat) → Nat → Bool
  | [], mask => mask == validMask64 g.n
  | (x, y) :: rest, mask =>
    let a := g.get x y
    if a = -1 then false
    else if mask &&& pat64 a ≠ 0 then false
    else goodCells g rest (mask ||| pat64 a)

/-- isGoodRow embeds Validator::is_good_row. -/
def isGoodRow (g : Grid) (y : Nat) : Bool := goodCells g (rowCells g.n y) 0

/-- isGoodColumn embeds Validator::is_good_column. -/
def isGoodColumn (g : Grid) (x : Nat) : Bool := goodCells g (colCells g.n x) 0

/-- isGoodBlock embeds Validator::is_good_block. -/
def isGoodBlock (g : Grid) (x y : Nat) : Bool := goodCells g (blockCells g.n x y) 0

/-- isGoodBoard embeds Validator::is_good_board: all rows, then all
columns, then all blocks (outer loop on the block x index). -/
def isGoodBoard (g : Grid) : Bool :=
  ((List.range g.n).all (fun y => isGoodRow g y)) &&
  ((List.range g.n).all (fun x => isGoodColumn g x)) &&
  ((List.range (nRoot g.n)).all (fun bx =>
    (List.range (nRoot g.n)).all (fun byy =>
      isGoodBlock g (bx * nRoot g.n) (byy * nRoot g.n))))

/-- usedColors embeds the shared body of Validator::row_colors,
column_colors and block_colors: or together the patterns of the determined
cells in loop order. -/
def usedColors (g : Grid) : List (Nat × Nat) → Nat → Nat
  | [], mask => mask
  | (x, y) :: rest, mask =>
    let a := g.get x y
    if a = -1 then usedColors g rest mask
    else usedColors g rest (mask ||| pat64 a)

/-- rowColors embeds Validator::row_colors. -/
def rowColors (g : Grid) (y : Nat) : Nat := usedColors g (rowCells g.n y) 0

/-- columnColors embeds Validator::column_colors. -/
def columnColors (g : Grid) (x : Nat) : Nat := usedColors g (colCells g.n x) 0

/-- blockColors embeds Validator::block_colors. -/
def blockColors (g : Grid) (x y : Nat) : Nat := usedColors g (blockCells g.n x y) 0

/-- goodColors embeds Validator::good_colors: the complement of the union
of the row, column and block occupancy masks, cut down by
the (int-typed) expression (1 << n) - 1. -/
def goodColors (g : Grid) (x y : Nat) : Nat :=
  let nr := nRoot g.n
  not64 (rowColors g y ||| columnColors g x |||
      blockColors g ((x / nr) * nr) ((y / nr) * nr)) &&& validMask64 g.n

/-- goodPartialCells embeds the shared body of
Validator::is_good_partial_row, is_good_partial_column and
is_good_partial_block: skip undetermined cells, reject a repeated pattern
bit, accept when the scan completes. -/
def goodPartialCells (g : Grid) : List (Nat × Nat) → Nat → Bool
  | [], _ => true
  | (x, y) :: rest, mask =>
    let a := g.get x y
    if a = -1 then goodPartialCells g rest mask
    else if mask &&& pat64 a ≠ 0 then false
    else goodPartialCells g rest (mask ||| pat64 a)

/-- isGoodPartialRow embeds Validator::is_good_partial_row. -/
def isGoodPartialRow (g : Grid) (y : Nat) : Bool :=
  goodPartialCells g (rowCells g.n y) 0

/-- isGoodPartialColumn embeds Validator::is_good_partial_column. -/
def isGoodPartialColumn (g : Grid) (x : Nat) : Bool :=
  goodPartialCells g (colCells g.n x) 0

/-- isGoodPartialBlock embeds Validator::is_good_partial_block. -/
def isGoodPartialBlock (g : Grid) (x y : Nat) : Bool :=
  goodPartialCells g (blockCells g.n x y) 0

/-- isGoodPartialBoard embeds Validator::is_good_partial_board: all rows,
then all columns, then all blocks (outer loop on the block x index). -/
def isGoodPartialBoard (g : Grid) : Bool :=
  ((List.range g.n).all (fun y => isGoodPartialRow g y)) &&
  ((List.range g.n).all (fun x => isGoodPartialColumn g x)) &&
  ((List.range (nRoot g.n)).all (fun bx =>
    (List.range (nRoot g.n)).all (fun byy =>
      isGoodPartialBlock g (bx * nRoot g.n) (byy * nRoot g.n))))

/-- findInRowAux embeds the inner loop of Sudoku::find_unknown with the
remaining iteration count (g.n - x) made an explicit structural
argument: scan k more cells of row y starting at column x. -/
def findInRowAux (g : Grid) (y : Nat) : Nat → Nat → Option Nat
  | 0, _ => none
  | k + 1, x => if g.get x y = -1 then some x else findInRowAux g y k (x + 1)

/-- findInRow is the inner loop of Sudoku::find_unknown: scan row y from
column x (while x < n) for the first undetermined cell. -/
def findInRow (g : Grid) (y x : Nat) : Option Nat :=
  findInRowAux g y (g.n - x) x

/-- findRowsAux embeds the outer loop of Sudoku::find_unknown with the
remaining row count (g.n - y) made an explicit structural argument; the
row of the starting coordinate is scanned from cx, every later row from 0
(the C++ loop resets cur_x after its first iteration). -/
def findRowsAux (g : Grid) : Nat → Nat → Nat → Option (Nat × Nat)
  | 0, _, _ => none
  | k + 1, cx, y =>
    match findInRow g y cx with
    | some x => some (x, y)
    | none => findRowsAux g k 0 (y + 1)

/-- findUnknown embeds Sudoku::find_unknown, returning the coordinates of
the first undetermined cell at or after (cx, cy) in row-major order, if
any. -/
def findUnknown (g : Grid) (cx cy : Nat) : Option (Nat × Nat) :=
  findRowsAux g (g.n - cy) cx cy

/-- valueList n is the sequence of candidate values tried by the search
loops, for (int i = 1; i <= n; i++). -/
def valueList (n : Nat) : List Int := (List.range n).map (fun j => Int.ofNat (j + 1))

/-- unknownCells g lists the undetermined cells of g in row-major order;
its length bounds the recursion depth of the searches, which is how the
C++ recursion (structural on the board) is given fuel below. -/
def unknownCells (g : Grid) : List (Nat × Nat) :=
  (List.range g.n).flatMap
    (fun y => ((List.range g.n).filter (fun x => g.get x y = -1)).map (fun x => (x, y)))

/-- unknownCount g is the number of undetermined cells of g. -/
def unknownCount (g : Grid) : Nat := (unknownCells g).length

/-- colorTry embeds the candidate loop of Sudoku::color_node.  The C++
loop owns a single clone new_grid of the caller's board, keeps writing
the trial value into it and passes it by reference to the recursive call;
the embedding threads that grid through the iterations (next returns the
final value of the reference argument together with the bool result).
Returns the successful grid, or none when the loop falls through. -/
def colorTry (next : Grid → Bool × Grid) (colors : Nat) (ux uy : Nat) :
    Grid → List Int → Option Grid
  | _, [] => none
  | ng, i :: rest =>
    if colors &&& pat64 i ≠ 0 then
      let r := next (ng.set ux uy i)
      if r.1 then some r.2
      else colorTry next colors ux uy r.2 rest
    else colorTry next colors ux uy ng rest

/-- colorNodeF embeds Sudoku::color_node, with an explicit fuel argument
standing for the C++ recursion (each recursive call is made on a board
with one more determined cell, so fuel unknownCount g + 1 reproduces the
C++ behaviour exactly; see colorNode).  The pair returned is (result,
final value of the by-reference argument cur_grid): the C++ code assigns
cur_grid = new_grid only on the success path and otherwise leaves it
untouched. -/
def colorNodeF : Nat → Grid → Nat → Nat → Bool × Grid
  | 0, g, _, _ => (false, g)
  | fuel + 1, g, cx, cy =>
    match findUnknown g cx cy with
    | some (ux, uy) =>
      match colorTry (fun h => colorNodeF fuel h ux uy)
          (goodColors g ux uy) ux uy g (valueList g.n) with
      | some g1 => (true, g1)
      | none => (false, g)
    | none => (isGoodBoard g, g)

/-- colorNode is the top-level call color_node(grid) made by
Sudoku::solve_colorability_style (cur_x and cur_y default to 0), with
fuel sufficient for the whole search. -/
def colorNode (g : Grid) : Bool × Grid :=
  colorNodeF (unknownCount g + 1) g 0 0

/-- bruteTry embeds the value loop of Sudoku::bruteforce_node, which
tries every value in [1, n] with no candidate-mask test; the clone
new_grid is threaded through the iterations exactly as in colorTry. -/
def bruteTry (next : Grid → Bool × Grid) (ux uy : Nat) :
    Grid → List Int → Option Grid
  | _, [] => none
  | ng, i :: rest =>
    let r := next (ng.set ux uy i)
    if r.1 then some r.2
    else bruteTry next ux uy r.2 rest

/-- bruteNodeF embeds Sudoku::bruteforce_node with explicit fuel, in the
same way as colorNodeF. -/
def bruteNodeF : Nat → Grid → Nat → Nat → Bool × Grid
  | 0, g, _, _ => (false, g)
  | fuel + 1, g, cx, cy =>
    match findUnknown g cx cy with
    | some (ux, uy) =>
      match bruteTry (fun h => bruteNodeF fuel h ux uy) ux uy g (valueList g.n) with
      | some g1 => (true, g1)
      | none => (false, g)
    | none => (isGoodBoard g, g)

/-- bruteNode is the top-level call bruteforce_node(grid) made by
Sudoku::solve_bruteforce_style. -/
def bruteNode (g : Grid) : Bool × Grid :=
  bruteNodeF (unknownCount g + 1) g 0 0

/-- deciderTry embeds the candidate loop of Sudoku::singular_decider:
case 2 from the recursive call returns 2 from the whole function at once,
case 1 sets the local found_one flag and keeps going, and case 0 keeps
going; the clone new_grid is threaded exactly as in colorTry. -/
def deciderTry (next : Grid → Bool → Int × Grid) (colors : Nat) (ux uy : Nat) :
    Grid → Bool → List Int → Int
  | _, found, [] => if found then 1 else 0
  | ng, found, i :: rest =>
    if colors &&& pat64 i ≠ 0 then
      let r := next (ng.set ux uy i) found
      if r.1 = 2 then 2
      else if r.1 = 1 then deciderTry next colors ux uy r.2 true rest
      else deciderTry next colors ux uy r.2 found rest
    else deciderTry next colors ux uy ng found rest

/-- deciderF embeds Sudoku::singular_decider with explicit fuel.  The
function receives cur_grid by reference but never assigns to it (only the
clone new_grid is written), so every return site pairs the result code
with the unchanged cur_grid. -/
def deciderF : Nat → Grid → Bool → Nat → Nat → Int × Grid
  | 0, g, _, _, _ => (0, g)
  | fuel + 1, g, found, cx, cy =>
    match findUnknown g cx cy with
    | some (ux, uy) =>
      (deciderTry (fun h f => deciderF fuel h f ux uy)
          (goodColors g ux uy) ux uy g found (valueList g.n), g)
    | none => ((if isGoodBoard g then (if found then 2 else 1) else 0), g)

/-- decider is the top-level call singular_decider(grid) made by
Sudoku::singular (found_one defaults to false, cur_x and cur_y to 0). -/
def decider (g : Grid) : Int × Grid :=
  deciderF (unknownCount g + 1) g false 0 0

/-- isSpaceCh models the C locale isspace used by std::stoi / strtol. -/
def isSpaceCh (c : Char) : Bool :=
  c = ' ' ∨ c = '\t' ∨ c = '\n' ∨ c = '\x0b' ∨ c = '\x0c' ∨ c = '\r'

/-- decDigit gives the value of a decimal digit character, if it is one. -/
def decDigit (c : Char) : Option Nat :=
  if '0' ≤ c ∧ c ≤ '9' then some (c.toNat - '0'.toNat) else none

/-- digitRun consumes the maximal decimal-digit run at the head of the
list, accumulating its value; the Bool records whether at least one digit
was seen (std::stoi parses a numeric prefix and ignores what follows). -/
def digitRun (acc : Nat) (seen : Bool) : List Char → Nat × Bool
  | [] => (acc, seen)
  | c :: rest =>
    match decDigit c with
    | some d => digitRun (acc * 10 + d) true rest
    | none => (acc, seen)

/-- StoiErr lists the two exceptions std::stoi can raise. -/
inductive StoiErr where
  | invalidArgument
  | outOfRange
deriving DecidableEq

/-- stoiCore models std::stoi on a token: skip leading whitespace, accept
an optional sign, convert the maximal digit prefix (trailing characters
are ignored); no digits raises invalid_argument and a value outside the
32-bit int range raises out_of_range. -/
def stoiCore : List Char → Except StoiErr Int
  | [] => .error .invalidArgument
  | c :: rest =>
    if isSpaceCh c then stoiCore rest
    else
      let p : Int × List Char :=
        if c = '-' then (-1, rest)
        else if c = '+' then (1, rest)
        else (1, c :: rest)
      let r := digitRun 0 false p.2
      if r.2 = false then .error .invalidArgument
      else
        let value : Int := p.1 * r.1
        if value < -(2 ^ 31) ∨ value > 2 ^ 31 - 1 then .error .outOfRange
        else .ok value

/-- natToCharsAux renders a natural number in decimal with an explicit
recursion bound (any bound at least the digit count gives the same
answer; natToChars supplies one). -/
def natToCharsAux : Nat → Nat → List Char
  | 0, _ => []
  | fuel + 1, n =>
    if n < 10 then [Char.ofNat (n + '0'.toNat)]
    else natToCharsAux fuel (n / 10) ++ [Char.ofNat (n % 10 + '0'.toNat)]

/-- natToChars renders a natural number in decimal, as operator<< does. -/
def natToChars (n : Nat) : List Char := natToCharsAux (n + 1) n

/-- intToChars renders an int in decimal as C++ operator<< on int does. -/
def intToChars (i : Int) : List Char :=
  if i < 0 then '-' :: natToChars (-i).toNat else natToChars i.toNat

/-- getline models std::getline: consume up to the first newline (which is
discarded); at end of input the extracted line is empty (the C++ caller
never checks the stream state, it just uses the line). -/
def getline : List Char → List Char × List Char
  | [] => ([], [])
  | c :: rest =>
    if c = '\n' then ([], rest)
    else
      let r := getline rest
      (c :: r.1, r.2)

/-- splitSp models boost::split with is_any_of seperator set consisting of
the space character: the line is cut at every space, so the result always
has one more token than there are spaces (tokens may be empty). -/
def splitSp : List Char → List (List Char)
  | [] => [[]]
  | c :: rest =>
    let r := splitSp rest
    if c = ' ' then [] :: r
    else
      match r with
      | t :: ts => (c :: t) :: ts
      | [] => [[c]]

/-- replaceAllNeg1 models boost::replace_all(str, from, to) for the fixed
arguments used by Sudoku::to_s: every occurrence of the two-character
pattern minus-one is replaced by a question mark, scanning left to
right. -/
def replaceAllNeg1 : List Char → List Char
  | '-' :: '1' :: rest => '?' :: replaceAllNeg1 rest
  | c :: rest => c :: replaceAllNeg1 rest
  | [] => []

/-- rowToChars renders one row of Grid::to_s: cells separated by single
spaces. -/
def rowToChars (g : Grid) (y : Nat) : List Char :=
  List.intercalate [' '] ((List.range g.n).map (fun x => intToChars (g.get x y)))

/-- Grid.toS embeds Grid::to_s: rows separated by newlines (std::endl
written before every row but the first), no trailing newline. -/
def Grid.toS (g : Grid) : List Char :=
  List.intercalate ['\n'] ((List.range g.n).map (fun y => rowToChars g y))

/-- CxxExn is an exception escaping the load path: Sudoku::insert_row
catches only std::invalid_argument, so the std::out_of_range that
std::stoi raises on an overflowing literal propagates to the caller. -/
inductive CxxExn where
  | stdOutOfRange
deriving DecidableEq

/-- insertRowAux embeds the loop of Sudoku::insert_row over x < grid.n():
an integer token must lie in [1, n] and is stored as is, a lone question
mark stores the sentinel -1, anything else fails the parse; n is
grid.n(), which Grid::set never changes. -/
def insertRowAux (tokens : List (List Char)) (y n : Nat) :
    Nat → Grid → Nat → Except CxxExn (Bool × Grid)
  | 0, g, _ => .ok (true, g)
  | k + 1, g, x =>
    let token := tokens.getD x []
    match stoiCore token with
    | .ok value =>
      if value < 1 ∨ value > (n : Int) then .ok (false, g)
      else insertRowAux tokens y n k (g.set x y value) (x + 1)
    | .error .invalidArgument =>
      if token = ['?'] then insertRowAux tokens y n k (g.set x y (-1)) (x + 1)
      else .ok (false, g)
    | .error .outOfRange => .error .stdOutOfRange

/-- insertRow embeds Sudoku::insert_row, whose loop runs for
x = 0, ..., n - 1 with n = grid.n() (Grid::set never changes n, so the
iteration count n is fixed up front). -/
def insertRow (tokens : List (List Char)) (y : Nat) (g : Grid) :
    Except CxxExn (Bool × Grid) :=
  insertRowAux tokens y g.n g.n g 0

/-- parseRows embeds the second loop of Sudoku::parse_puzzle: for each
y in [1, n), read a line, split it, require exactly n tokens and insert
the row. -/
def parseRowsAux (n : Nat) : Nat → List Char → Grid → Nat →
    Except CxxExn (Bool × Grid)
  | 0, _, g, _ => .ok (true, g)
  | k + 1, stream, g, y =>
    let L := getline stream
    let tokens := splitSp L.1
    if tokens.length ≠ n then .ok (false, g)
    else
      match insertRowAux tokens y n n g 0 with
      | .error e => .error e
      | .ok (false, g1) => .ok (false, g1)
      | .ok (true, g1) => parseRowsAux n k L.2 g1 (y + 1)

/-- parseRows runs the loop for y = 1, ..., n - 1 (n - 1 iterations). -/
def parseRows (n : Nat) (stream : List Char) (g : Grid) (y : Nat) :
    Except CxxExn (Bool × Grid) :=
  parseRowsAux n (n - y) stream g y

/-- parsePuzzle embeds Sudoku::parse_puzzle: infer n from the token count
of the first line, reject an empty first line, a side that is not a
perfect square (the float guard sqrt with both rounding checks reduces to
Nat.sqrt for the exact double square roots involved), or n > 64; then
resize the grid and insert the n rows. -/
def parsePuzzle (g : Grid) (input : List Char) : Except CxxExn (Bool × Grid) :=
  let L := getline input
  let tokens := splitSp L.1
  let n := tokens.length
  if n = 0 ∨ L.1 = [] then .ok (false, g)
  else
    let nsq := nRoot n
    if nsq * nsq ≠ n ∧ (nsq + 1) * (nsq + 1) ≠ n then .ok (false, g)
    else if n > 64 then .ok (false, g)
    else
      match insertRowAux tokens 0 n n (g.reset n) 0 with
      | .error e => .error e
      | .ok (false, g2) => .ok (false, g2)
      | .ok (true, g2) => parseRows n L.2 g2 1

/-- SudokuState is the state of a Sudoku object: the stored grid and the
status_ok flag. -/
structure SudokuState where
  grid : Grid
  statusOk : Bool

/-- initSudoku is the Sudoku() constructor: an empty 0-side grid and
status_ok = false. -/
def initSudoku : SudokuState :=
  { grid := { n := 0, mat := fun _ _ => 0 }, statusOk := false }

/-- validate embeds Sudoku::validate. -/
def validate (g : Grid) : Bool := isGoodPartialBoard g

/-- readPuzzleFromString embeds Sudoku::read_puzzle_from_string: parse,
then run the partial-validity check; only when both succeed is status_ok
set (on failure the flag keeps its previous value and the partially
written grid stays in place but is not exposed as ready). -/
def readPuzzleFromString (s : SudokuState) (input : List Char) :
    Except CxxExn (Bool × SudokuState) :=
  match parsePuzzle s.grid input with
  | .error e => .error e
  | .ok (true, g1) =>
    if validate g1 then .ok (true, { grid := g1, statusOk := true })
    else .ok (false, { grid := g1, statusOk := s.statusOk })
  | .ok (false, g1) => .ok (false, { grid := g1, statusOk := s.statusOk })

/-- readPuzzleFromFile embeds Sudoku::read_puzzle_from_file, which runs
the same parse-then-validate sequence on the stream contents. -/
def readPuzzleFromFile (s : SudokuState) (input : List Char) :
    Except CxxExn (Bool × SudokuState) :=
  match parsePuzzle s.grid input with
  | .error e => .error e
  | .ok (true, g1) =>
    if validate g1 then .ok (true, { grid := g1, statusOk := true })
    else .ok (false, { grid := g1, statusOk := s.statusOk })
  | .ok (false, g1) => .ok (false, { grid := g1, statusOk := s.statusOk })

/-- SudokuErr is the std::logic_error thrown by the operations that
require a successfully loaded board. -/
inductive SudokuErr where
  | logicError
deriving DecidableEq

/-- sudokuToS embeds Sudoku::to_s: render the grid and replace every
occurrence of the substring minus-one with a question mark. -/
def sudokuToS (s : SudokuState) : List Char := replaceAllNeg1 s.grid.toS

/-- renderCell is the proof-side text of one cell of the final rendered
board: the undetermined sentinel prints as minus-one and is then replaced
by a question mark, a determined value prints in decimal. -/
def renderCell (g : Grid) (x y : Nat) : List Char :=
  if g.get x y = -1 then ['?'] else natToChars (g.get x y).toNat

/-- renderRow is the proof-side text of one row of the final rendered
board: cells separated by single spaces. -/
def renderRow (g : Grid) (y : Nat) : List Char :=
  List.intercalate [' '] ((List.range g.n).map (fun x => renderCell g x y))

/-- renderGrid is the proof-side text of the final rendered board: rows
separated by newlines. -/
def renderGrid (g : Grid) : List Char :=
  List.intercalate ['\n'] ((List.range g.n).map (fun y => renderRow g y))

/-- rowsFrom is the rendered text of the k rows starting at row y: the
part of the input stream still unread when the parser reaches row y. -/
def rowsFrom (g : Grid) (y k : Nat) : List Char :=
  List.intercalate ['\n'] ((List.range k).map (fun j => renderRow g (y + j)))

/-- sudokuPrint embeds Sudoku::print: a not-ready object makes it throw
std::logic_error before producing any output; otherwise the rendered
board followed by std::endl is written. -/
def sudokuPrint (s : SudokuState) : Except SudokuErr (List Char) :=
  if s.statusOk = false then .error .logicError
  else .ok (sudokuToS s ++ ['\n'])

/-- solveColorabilityStyle embeds Sudoku::solve_colorability_style: throw
std::logic_error when not ready, otherwise run color_node on the stored
grid (whose final by-reference value becomes the stored grid). -/
def solveColorabilityStyle (s : SudokuState) : Except SudokuErr SudokuState :=
  if s.statusOk = false then .error .logicError
  else .ok { s with grid := (colorNode s.grid).2 }

/-- solveBruteforceStyle embeds Sudoku::solve_bruteforce_style. -/
def solveBruteforceStyle (s : SudokuState) : Except SudokuErr SudokuState :=
  if s.statusOk = false then .error .logicError
  else .ok { s with grid := (bruteNode s.grid).2 }

/-- singular embeds Sudoku::singular: throw std::logic_error when not
ready; a board failing the partial-validity check is reported non-singular
with no search at all; otherwise the puzzle is singular exactly when the
top-level decider call returns 1. -/
def singular (s : SudokuState) : Except SudokuErr (Bool × SudokuState) :=
  if s.statusOk = false then .error .logicError
  else if validate s.grid then
    let r := decider s.grid
    .ok (r.1 == 1, { s with grid := r.2 })
  else .ok (false, s)

/-- good embeds Sudoku::good. -/
def good (s : SudokuState) : Bool := s.statusOk

/-- bad embeds Sudoku::bad. -/
def bad (s : SudokuState) : Bool := !good s

/-- solsF is the proof-side enumeration of the boards accepted by the
leaves of the decider's search tree, in traversal order: at an interior
node, the concatenation over the candidate values of the sub-enumerations;
at a leaf, the board itself when it passes the full-board check. -/
def solsF : Nat → Grid → Nat → Nat → List Grid
  | 0, _, _, _ => []
  | fuel + 1, g, cx, cy =>
    match findUnknown g cx cy with
    | some (ux, uy) =>
      ((valueList g.n).filter
        (fun i => goodColors g ux uy &&& pat64 i ≠ 0)).flatMap
        (fun i => solsF fuel (g.set ux uy i) ux uy)
    | none => if isGoodBoard g then [g] else []

/-- deciderCode found c is the value singular_decider reports at an
interior node whose inherited flag is found and whose subtree contains c
accepted leaves: an inherited completion makes any further one
multiple, and with no inherited completion the count is capped at 2. -/
def deciderCode (found : Bool) (c : Nat) : Int :=
  if found then (if c = 0 then 1 else 2)
  else if c = 0 then 0 else if c = 1 then 1 else 2

/-- DeciderSpec found c r says the code r is a correct report for a
search-tree node entered with inherited flag found over a subtree holding
c accepted leaves.  With an inherited completion and an empty subtree the
code is 0 at a leaf but 1 at an interior node; callers treat the two
identically, so both are allowed. -/
def DeciderSpec (found : Bool) (c : Nat) (r : Int) : Prop :=
  if found then (if c = 0 then r = 0 ∨ r = 1 else r = 2)
  else r = deciderCode false c

/-- WfCells g says every in-range cell of g holds the undetermined
sentinel -1 or a value in [1, n]: the data-model invariant every loaded
board satisfies. -/
def WfCells (g : Grid) : Prop :=
  ∀ x < g.n, ∀ y < g.n,
    g.get x y = -1 ∨ (1 ≤ g.get x y ∧ g.get x y ≤ (g.n : Int))

/-- CellsInRange b says every in-range cell of b holds a value in
[1, n] (in particular none is undetermined). -/
def CellsInRange (b : Grid) : Prop :=
  ∀ x < b.n, ∀ y < b.n, 1 ≤ b.get x y ∧ b.get x y ≤ (b.n : Int)

/-- ExtendsTo g b says b has the side of g and agrees with g on every
determined cell of g. -/
def ExtendsTo (g b : Grid) : Prop :=
  b.n = g.n ∧
  ∀ x < g.n, ∀ y < g.n, g.get x y ≠ -1 → b.get x y = g.get x y

/-- CompletionOf g b says b is one assignment of values in [1, n] to the
undetermined cells of g, the determined cells kept: a completion of the
puzzle g in the sense of the spec. -/
def CompletionOf (g b : Grid) : Prop := ExtendsTo g b ∧ CellsInRange b

/-- SameBoard g b says b has the side of g and cell-for-cell equal
contents on the whole square. -/
def SameBoard (g b : Grid) : Prop :=
  b.n = g.n ∧ ∀ x < g.n, ∀ y < g.n, b.get x y = g.get x y

/-- occCount counts the occurrences of the value v among the listed
cells of g. -/
def occCount (g : Grid) (cells : List (Nat × Nat)) (v : Int) : Nat :=
  cells.countP (fun p => g.get p.1 p.2 == v)

/-- specFullValid is the specification notion of full validity, stated
from the spec text: every row, every column and every block contains each
value in [1, N] exactly once. -/
def specFullValid (g : Grid) : Bool :=
  ((List.range g.n).all fun y => (List.range g.n).all fun m =>
    occCount g (rowCells g.n y) ((m : Int) + 1) == 1) &&
  ((List.range g.n).all fun x => (List.range g.n).all fun m =>
    occCount g (colCells g.n x) ((m : Int) + 1) == 1) &&
  ((List.range (nRoot g.n)).all fun bx => (List.range (nRoot g.n)).all fun byy =>
    (List.range g.n).all fun m =>
      occCount g (blockCells g.n (bx * nRoot g.n) (byy * nRoot g.n)) ((m : Int) + 1) == 1)

/-- DupInCells g cells says two distinct positions of the cell list hold
the same determined value: a repeated value in the scanned unit. -/
def DupInCells (g : Grid) (cells : List (Nat × Nat)) : Prop :=
  ∃ l1 p l2 q l3, cells = l1 ++ p :: l2 ++ q :: l3 ∧
    g.get p.1 p.2 ≠ -1 ∧ g.get p.1 p.2 = g.get q.1 q.2

/-- HasDuplicate g says some determined value repeats inside one row,
column or block of g: the spec's partial-validity violation. -/
def HasDuplicate (g : Grid) : Prop :=
  (∃ y < g.n, DupInCells g (rowCells g.n y)) ∨
  (∃ x < g.n, DupInCells g (colCells g.n x)) ∨
  (∃ bx < nRoot g.n, ∃ byy < nRoot g.n,
    DupInCells g (blockCells g.n (bx * nRoot g.n) (byy * nRoot g.n)))

/-- DeterminedAll g says no in-range cell of g is undetermined. -/
def DeterminedAll (g : Grid) : Prop :=
  ∀ x < g.n, ∀ y < g.n, g.get x y ≠ -1

/-- AgreesExcept g ng ux uy says ng is g with at most the cell (ux, uy)
rewritten: the shape of the clone new_grid threaded through a search
loop. -/
def AgreesExcept (g ng : Grid) (ux uy : Nat) : Prop :=
  ng.n = g.n ∧ ∀ x y, ¬(x = ux ∧ y = uy) → ng.mat x y = g.mat x y

/-- UniqueCompletion g says exactly one assignment of values in [1, n] to
the undetermined cells of g yields a board accepted by the full-validity
check (uniqueness up to cell-for-cell equality of boards). -/
def UniqueCompletion (g : Grid) : Prop :=
  ∃ b, CompletionOf g b ∧ isGoodBoard b = true ∧
    ∀ b2, CompletionOf g b2 → isGoodBoard b2 = true → SameBoard b b2

/-- lowBitCount mask counts the set bits of mask among positions 0..31;
every pattern a 32-bit int shift can produce sets at least one of these,
which is what makes rows longer than 32 always rejected. -/
def lowBitCount (mask : Nat) : Nat :=
  ((List.range 32).filter (fun i => mask.testBit i)).length

/-- DetBefore g x0 y0 says every cell strictly before (x0, y0) in
row-major order is determined; the searches maintain this invariant for
their resume coordinates. -/
def DetBefore (g : Grid) (x0 y0 : Nat) : Prop :=
  ∀ x < g.n, ∀ y < g.n, (y < y0 ∨ (y = y0 ∧ x < x0)) → g.get x y ≠ -1

/-- emptyGrid64 is the 64-by-64 board with every cell undetermined (the
board loaded from 64 lines of 64 question marks). -/
def emptyGrid64 : Grid := { n := 64, mat := fun _ _ => -1 }

/-- g36val x y is a valid 36-by-36 solution pattern,
((y mod 6) * 6 + y / 6 + x) mod 36 + 1. -/
def g36val (x y : Nat) : Int := ((((y % 6) * 6 + y / 6 + x) % 36 : Nat) : Int) + 1

/-- g36full is the fully determined 36-by-36 board filled with g36val. -/
def g36full : Grid := { n := 36, mat := fun x y => g36val x y }

/-- g36hole is g36full with cell (0, 0) undetermined: a loadable
36-by-36 board whose unique completion puts 1 back at (0, 0). -/
def g36hole : Grid :=
  { n := 36, mat := fun x y => if x = 0 ∧ y = 0 then -1 else g36val x y }

/-- g4val x y is a valid 4-by-4 solution pattern,
((y mod 2) * 2 + y / 2 + x) mod 4 + 1. -/
def g4val (x y : Nat) : Int := ((((y % 2) * 2 + y / 2 + x) % 4 : Nat) : Int) + 1

/-- g4full is the fully determined valid 4-by-4 board filled with
g4val. -/
def g4full : Grid := { n := 4, mat := fun x y => g4val x y }

/-- g4hole is g4full with cell (0, 0) undetermined. -/
def g4hole : Grid :=
  { n := 4, mat := fun x y => if x = 0 ∧ y = 0 then -1 else g4val x y }

/-- g4dup is a 4-by-4 board whose first row repeats the value 1 in its
two determined cells; the other cells are undetermined. -/
def g4dup : Grid :=
  { n := 4, mat := fun x y => if y = 0 ∧ x < 2 then 1 else -1 }

/-- dup4Input is the text of g4dup: first row 1 1 ? ?, then three rows of
question marks. -/
def dup4Input : List Char :=
  ['1', ' ', '1', ' ', '?', ' ', '?', '\n',
   '?', ' ', '?', ' ', '?', ' ', '?', '\n',
   '?', ' ', '?', ' ', '?', ' ', '?', '\n',
   '?', ' ', '?', ' ', '?', ' ', '?']

/-- val4Input is the text of a partially determined valid 4-by-4 board
(g4hole written row by row). -/
def val4Input : List Char :=
  ['?', ' ', '2', ' ', '3', ' ', '4', '\n',
   '3', ' ', '4', ' ', '1', ' ', '2', '\n',
   '2', ' ', '3', ' ', '4', ' ', '1', '\n',
   '4', ' ', '1', ' ', '2', ' ', '3']

/-- parsedGrid names the grid produced by a successful parse of the given
input (and the unchanged grid otherwise), so that concrete instances of
load-path statements can be written down in closed form. -/
def parsedGrid (s : SudokuState) (input : List Char) : Grid :=
  match parsePuzzle s.grid input with
  | .ok r => r.2
  | .error _ => s.grid

/-! Unfolding equations for the fuel-indexed search functions. -/

theorem colorNodeF_succ (f : Nat) (g : Grid) (cx cy : Nat) :
    colorNodeF (f + 1) g cx cy =
      match findUnknown g cx cy with
      | some (ux, uy) =>
        match colorTry (fun h => colorNodeF f h ux uy)
            (goodColors g ux uy) ux uy g (valueList g.n) with
        | some g1 => (true, g1)
        | none => (false, g)
      | none => (isGoodBoard g, g) := rfl

theorem bruteNodeF_succ (f : Nat) (g : Grid) (cx cy : Nat) :
    bruteNodeF (f + 1) g cx cy =
      match findUnknown g cx cy with
      | some (ux, uy) =>
        match bruteTry (fun h => bruteNodeF f h ux uy) ux uy g (valueList g.n) with
        | some g1 => (true, g1)
        | none => (false, g)
      | none => (isGoodBoard g, g) := rfl

theorem deciderF_succ (f : Nat) (g : Grid) (found : Bool) (cx cy : Nat) :
    deciderF (f + 1) g found cx cy =
      match findUnknown g cx cy with
      | some (ux, uy) =>
        (deciderTry (fun h fl => deciderF f h fl ux uy)
            (goodColors g ux uy) ux uy g found (valueList g.n), g)
      | none => ((if isGoodBoard g then (if found then 2 else 1) else 0), g) := rfl

/-! Frame lemmas: a failing search call leaves its by-reference grid
argument untouched, and the decider never writes to it at all. -/

theorem colorNodeF_fail_frame (fuel : Nat) (g : Grid) (cx cy : Nat)
    (h : (colorNodeF fuel g cx cy).1 = false) :
    (colorNodeF fuel g cx cy).2 = g := by
  cases fuel with
  | zero => rfl
  | succ f =>
    rw [colorNodeF_succ] at h ⊢
    cases hf : findUnknown g cx cy with
    | none => simp only [hf]
    | some p =>
      obtain ⟨ux, uy⟩ := p
      simp only [hf] at h ⊢
      cases ht : colorTry (fun h => colorNodeF f h ux uy)
          (goodColors g ux uy) ux uy g (valueList g.n) with
      | none => simp only [ht]
      | some g1 => simp only [ht] at h; exact absurd h (by simp)

theorem bruteNodeF_fail_frame (fuel : Nat) (g : Grid) (cx cy : Nat)
    (h : (bruteNodeF fuel g cx cy).1 = false) :
    (bruteNodeF fuel g cx cy).2 = g := by
  cases fuel with
  | zero => rfl
  | succ f =>
    rw [bruteNodeF_succ] at h ⊢
    cases hf : findUnknown g cx cy with
    | none => simp only [hf]
    | some p =>
      obtain ⟨ux, uy⟩ := p
      simp only [hf] at h ⊢
      cases ht : bruteTry (fun h => bruteNodeF f h ux uy) ux uy g (valueList g.n) with
      | none => simp only [ht]
      | some g1 => simp only [ht] at h; exact absurd h (by simp)

theorem deciderF_frame (fuel : Nat) (g : Grid) (found : Bool) (cx cy : Nat) :
    (deciderF fuel g found cx cy).2 = g := by
  cases fuel with
  | zero => rfl
  | succ f =>
    rw [deciderF_succ]
    cases hf : findUnknown g cx cy with
    | none => simp only [hf]
    | some p => obtain ⟨ux, uy⟩ := p; simp only [hf]

/-- C10: the singularity check never mutates the stored board.  On every
ready object, whatever the decider outcome (zero, one or multiple
completions), singular returns the state it was given: only the local
clones created inside singular_decider are ever written, and the
by-reference board parameter is never assigned. -/
theorem C10_singular_never_mutates (s : SudokuState) (b : Bool) (s2 : SudokuState)
    (hok : s.statusOk = true) (h : singular s = .ok (b, s2)) :
    s2 = s ∧ ∀ x y, s2.grid.get x y = s.grid.get x y := by
  obtain ⟨g0, ok0⟩ := s
  have hok0 : ok0 = true := hok
  subst hok0
  have hs2 : s2 = ({ grid := g0, statusOk := true } : SudokuState) := by
    unfold singular at h
    rw [if_neg (by simp : ¬ (true = false))] at h
    cases hv : validate g0 with
    | false =>
      rw [hv] at h
      simp only [Bool.false_eq_true, if_false, Except.ok.injEq, Prod.mk.injEq] at h
      exact h.2.symm
    | true =>
      rw [hv] at h
      simp only [if_true, Except.ok.injEq, Prod.mk.injEq] at h
      have hframe : (decider g0).2 = g0 := deciderF_frame _ _ _ _ _
      have h2 := h.2
      rw [hframe] at h2
      exact h2.symm
  exact ⟨hs2, by rw [hs2]; exact fun x y => rfl⟩

/-- C10 witness: running singular on a concrete ready 4-by-4 board
returns the very same state. -/
theorem C10_witness :
    (({ grid := g4hole, statusOk := true } : SudokuState) =
      { grid := g4hole, statusOk := true }) ∧
    (∀ x y, (({ grid := g4hole, statusOk := true } : SudokuState)).grid.get x y =
      g4hole.get x y) :=
  C10_singular_never_mutates { grid := g4hole, statusOk := true } true
    { grid := g4hole, statusOk := true } rfl (by
      unfold singular
      rw [if_neg (by simp : ¬ (true = false)), if_pos (by decide : validate g4hole = true)]
      have h1 : (decider g4hole).1 = 1 := by decide
      have h2 : (decider g4hole).2 = g4hole := deciderF_frame _ _ _ _ _
      show Except.ok ((decider g4hole).1 == 1,
        ({ grid := (decider g4hole).2, statusOk := true } : SudokuState)) = _
      rw [h1, h2]
      rfl)

/-- C7: invoking print, either solver, or the singularity check on an
object that was never successfully loaded fails at once with the
std::logic_error, before any output is produced or any state is
changed (the error carries no new state). -/
theorem C7_not_ready_logic_error (s : SudokuState) (h : s.statusOk = false) :
    sudokuPrint s = .error .logicError ∧
    solveColorabilityStyle s = .error .logicError ∧
    solveBruteforceStyle s = .error .logicError ∧
    singular s = .error .logicError := by
  unfold sudokuPrint solveColorabilityStyle solveBruteforceStyle singular
  rw [h]
  simp

/-- C7 witness: the freshly constructed Sudoku object is not ready and
all four operations fail on it with the logic error. -/
theorem C7_witness :
    initSudoku.statusOk = false ∧
    (sudokuPrint initSudoku = .error .logicError ∧
     solveColorabilityStyle initSudoku = .error .logicError ∧
     solveBruteforceStyle initSudoku = .error .logicError ∧
     singular initSudoku = .error .logicError) :=
  ⟨rfl, C7_not_ready_logic_error initSudoku rfl⟩

/-- C9: the bounds-asserted cell access fails with the out-of-range
error exactly when x ≥ n or y ≥ n and otherwise yields the stored value;
set has the same range contract, stores the given int unaltered with no
domain validation, and leaves the side length alone. -/
theorem C9_get_set_contract (g : Grid) (x y : Nat) (v : Int) :
    (g.getChk x y = .error .outOfRange ↔ (g.n ≤ x ∨ g.n ≤ y)) ∧
    ((x < g.n ∧ y < g.n) → g.getChk x y = .ok (g.get x y)) ∧
    (g.setChk x y v = .error .outOfRange ↔ (g.n ≤ x ∨ g.n ≤ y)) ∧
    ((x < g.n ∧ y < g.n) → g.setChk x y v = .ok (g.set x y v)) ∧
    (g.set x y v).get x y = v ∧ (g.set x y v).n = g.n := by
  unfold Grid.getChk Grid.setChk
  by_cases hxy : x < g.n ∧ y < g.n
  · rw [if_pos hxy, if_pos hxy]
    refine ⟨by constructor <;> intro hc <;> [cases hc; omega], fun _ => rfl,
      by constructor <;> intro hc <;> [cases hc; omega], fun _ => rfl, ?_, rfl⟩
    show (if x = x ∧ y = y then v else g.mat x y) = v
    simp
  · rw [if_neg hxy, if_neg hxy]
    refine ⟨by constructor <;> intro hc <;> [omega; rfl], fun hc => absurd hc hxy,
      by constructor <;> intro hc <;> [omega; rfl], fun hc => absurd hc hxy, ?_, rfl⟩
    show (if x = x ∧ y = y then v else g.mat x y) = v
    simp

/-- C9 witness: concrete in-range and out-of-range accesses on a 4-by-4
board behave as the contract states. -/
theorem C9_witness :
    g4full.getChk 1 2 = .ok (g4full.get 1 2) ∧
    g4full.getChk 9 2 = .error .outOfRange ∧
    (g4full.set 1 2 99).get 1 2 = 99 :=
  ⟨(C9_get_set_contract g4full 1 2 99).2.1 (by decide),
   (C9_get_set_contract g4full 9 2 99).1.mpr (by decide),
   (C9_get_set_contract g4full 1 2 99).2.2.2.2.1⟩

/-! Bit-level helper lemmas. -/

theorem pat64_ne_zero (a : Int) : pat64 a ≠ 0 := by
  show (if ((a - 1).emod 32).toNat = 31 then 2 ^ 64 - 2 ^ 31
    else 2 ^ ((a - 1).emod 32).toNat) ≠ 0
  split
  · have h31 : (2 : Nat) ^ 31 < 2 ^ 64 := Nat.pow_lt_pow_right (by norm_num) (by norm_num)
    omega
  · exact (Nat.two_pow_pos _).ne'

theorem exists_common_of_land_ne_zero {m p : Nat} (h : m &&& p ≠ 0) :
    ∃ i, m.testBit i = true ∧ p.testBit i = true := by
  obtain ⟨i, hi⟩ := Nat.ne_zero_implies_bit_true h
  rw [Nat.testBit_and] at hi
  exact ⟨i, by simpa using hi⟩

theorem land_ne_zero_of_common {m p : Nat} (i : Nat) (hm : m.testBit i = true)
    (hp : p.testBit i = true) : m &&& p ≠ 0 := by
  intro h
  have h2 := congrArg (fun t => t.testBit i) h
  simp [Nat.testBit_and, hm, hp] at h2

theorem lor_keeps_hit {mask p q : Nat} (h : mask &&& p ≠ 0) :
    (mask ||| q) &&& p ≠ 0 := by
  obtain ⟨i, hm, hp⟩ := exists_common_of_land_ne_zero h
  exact land_ne_zero_of_common i (by simp [Nat.testBit_or, hm]) hp

theorem lor_self_hit (mask p : Nat) (hp : p ≠ 0) : (mask ||| p) &&& p ≠ 0 := by
  obtain ⟨i, hi⟩ := Nat.ne_zero_implies_bit_true hp
  exact land_ne_zero_of_common i (by simp [Nat.testBit_or, hi]) hi

/-! Partial-validity rejects repeated determined values. -/

theorem goodPartialCells_false_of_hit (g : Grid) :
    ∀ (cells : List (Nat × Nat)) (mask : Nat),
      (∃ p ∈ cells, g.get p.1 p.2 ≠ -1 ∧ mask &&& pat64 (g.get p.1 p.2) ≠ 0) →
      goodPartialCells g cells mask = false := by
  intro cells
  induction cells with
  | nil => intro mask h; obtain ⟨p, hp, _⟩ := h; cases hp
  | cons c rest ih =>
    intro mask h
    obtain ⟨p, hp, hdet, hhit⟩ := h
    obtain ⟨cx, cy⟩ := c
    show goodPartialCells g ((cx, cy) :: rest) mask = false
    simp only [goodPartialCells]
    by_cases hc : g.get cx cy = -1
    · rw [if_pos hc]
      rcases List.mem_cons.mp hp with hpc | hpr
      · exact absurd (hpc ▸ hc) hdet
      · exact ih mask ⟨p, hpr, hdet, hhit⟩
    · rw [if_neg hc]
      by_cases hm : mask &&& pat64 (g.get cx cy) ≠ 0
      · rw [if_pos hm]
      · rw [if_neg hm]
        rcases List.mem_cons.mp hp with hpc | hpr
        · rw [hpc] at hhit; exact absurd hhit hm
        · exact ih _ ⟨p, hpr, hdet, lor_keeps_hit hhit⟩

theorem goodPartialCells_false_of_dup (g : Grid) (p q : Nat × Nat)
    (hdet : g.get p.1 p.2 ≠ -1) (heq : g.get p.1 p.2 = g.get q.1 q.2) :
    ∀ (l1 l2 l3 : List (Nat × Nat)) (mask : Nat),
      goodPartialCells g (l1 ++ p :: l2 ++ q :: l3) mask = false := by
  intro l1
  induction l1 with
  | nil =>
    intro l2 l3 mask
    obtain ⟨px, py⟩ := p
    show goodPartialCells g ((px, py) :: (l2 ++ q :: l3)) mask = false
    simp only [goodPartialCells]
    rw [if_neg hdet]
    by_cases hm : mask &&& pat64 (g.get px py) ≠ 0
    · rw [if_pos hm]
    · rw [if_neg hm]
      refine goodPartialCells_false_of_hit g _ _ ⟨q, ?_, ?_, ?_⟩
      · exact List.mem_append_right _ (List.mem_cons_self _ _)
      · exact fun hq => hdet (heq.trans hq)
      · rw [← heq]; exact lor_self_hit mask _ (pat64_ne_zero _)
  | cons c l1' ih =>
    intro l2 l3 mask
    obtain ⟨cx, cy⟩ := c
    show goodPartialCells g ((cx, cy) :: (l1' ++ p :: l2 ++ q :: l3)) mask = false
    simp only [goodPartialCells]
    by_cases hc : g.get cx cy = -1
    · rw [if_pos hc]; exact ih l2 l3 mask
    · rw [if_neg hc]
      by_cases hm : mask &&& pat64 (g.get cx cy) ≠ 0
      · rw [if_pos hm]
      · rw [if_neg hm]; exact ih l2 l3 _

theorem isGoodPartialBoard_false_of_dup (g : Grid) (h : HasDuplicate g) :
    isGoodPartialBoard g = false := by
  unfold isGoodPartialBoard
  rcases h with ⟨y, hy, l1, p, l2, q, l3, hcells, hdet, heq⟩ |
    ⟨x, hx, l1, p, l2, q, l3, hcells, hdet, heq⟩ |
    ⟨bx, hbx, byy, hbyy, l1, p, l2, q, l3, hcells, hdet, heq⟩
  · have hrow : isGoodPartialRow g y = false := by
      unfold isGoodPartialRow
      rw [hcells]
      exact goodPartialCells_false_of_dup g p q hdet heq l1 l2 l3 0
    have hall : (List.range g.n).all (fun y => isGoodPartialRow g y) = false :=
      List.all_eq_false.mpr ⟨y, List.mem_range.mpr hy, by simp [hrow]⟩
    simp [hall]
  · have hcol : isGoodPartialColumn g x = false := by
      unfold isGoodPartialColumn
      rw [hcells]
      exact goodPartialCells_false_of_dup g p q hdet heq l1 l2 l3 0
    have hall : (List.range g.n).all (fun x => isGoodPartialColumn g x) = false :=
      List.all_eq_false.mpr ⟨x, List.mem_range.mpr hx, by simp [hcol]⟩
    simp [hall]
  · have hblk : isGoodPartialBlock g (bx * nRoot g.n) (byy * nRoot g.n) = false := by
      unfold isGoodPartialBlock
      rw [hcells]
      exact goodPartialCells_false_of_dup g p q hdet heq l1 l2 l3 0
    have hall : (List.range (nRoot g.n)).all (fun bx =>
        (List.range (nRoot g.n)).all (fun byy =>
          isGoodPartialBlock g (bx * nRoot g.n) (byy * nRoot g.n))) = false := by
      refine List.all_eq_false.mpr ⟨bx, List.mem_range.mpr hbx, ?_⟩
      have hinner : (List.range (nRoot g.n)).all (fun byy =>
          isGoodPartialBlock g (bx * nRoot g.n) (byy * nRoot g.n)) = false :=
        List.all_eq_false.mpr ⟨byy, List.mem_range.mpr hbyy, by simp [hblk]⟩
      simp [hinner]
    simp [hall]

/-- C8: a board with a repeated determined value in some row, column or
block fails the partial-validity check, hence (first part) a parse that
produces such a board is rejected by the load path with a false return
and an unchanged ready flag, and (second part) the singularity check on a
ready object holding such a board answers false immediately, returning
the state untouched, the decider never invoked. -/
theorem C8_duplicate_rejected :
    (∀ (s : SudokuState) (input : List Char) (g : Grid),
      parsePuzzle s.grid input = .ok (true, g) → HasDuplicate g →
      readPuzzleFromString s input =
        .ok (false, { grid := g, statusOk := s.statusOk })) ∧
    (∀ s : SudokuState, s.statusOk = true → HasDuplicate s.grid →
      singular s = .ok (false, s)) := by
  constructor
  · intro s input g hp hd
    unfold readPuzzleFromString
    rw [hp]
    have hv : validate g = false := isGoodPartialBoard_false_of_dup g hd
    simp [hv]
  · intro s hok hd
    unfold singular
    rw [hok]
    have hv : validate s.grid = false := isGoodPartialBoard_false_of_dup s.grid hd
    simp [hv]

/-- C8 witness: the concrete dup4Input board (first row 1 1 ? ?) is
parsed, found to repeat the value 1 in row 0, rejected by the load, and
reported non-singular. -/
theorem C8_witness :
    readPuzzleFromString initSudoku dup4Input =
      .ok (false, { grid := parsedGrid initSudoku dup4Input,
                    statusOk := initSudoku.statusOk }) ∧
    singular { grid := g4dup, statusOk := true } =
      .ok (false, { grid := g4dup, statusOk := true }) := by
  have hd : HasDuplicate (parsedGrid initSudoku dup4Input) := by
    refine Or.inl ⟨0, by decide, [], (0, 0), [], (1, 0), [(2, 0), (3, 0)], ?_, ?_, ?_⟩
    · decide
    · decide
    · decide
  have hd4 : HasDuplicate g4dup := by
    refine Or.inl ⟨0, by decide, [], (0, 0), [], (1, 0), [(2, 0), (3, 0)], ?_, ?_, ?_⟩
    · decide
    · decide
    · decide
  exact ⟨C8_duplicate_rejected.1 initSudoku dup4Input
      (parsedGrid initSudoku dup4Input) rfl hd,
    C8_duplicate_rejected.2 { grid := g4dup, statusOk := true } rfl hd4⟩

/-- C2 failing-input evaluation: on the loadable all-unknown 64-by-64
board no value occurs in any determined cell of row 0, column 0 or the
top-left block, so the claim requires a mask with all bits below N = 64
set; the code instead returns the zero mask at (0, 0) — bit 0 in
particular is clear although value 1 occurs nowhere — because the
int-typed expression (1 << n) - 1 collapses to 0 at n = 64. -/
theorem C2_good_colors_n64_zero :
    goodColors emptyGrid64 0 0 = 0 ∧
    (goodColors emptyGrid64 0 0).testBit 0 = false ∧
    (∀ x, ∀ y, emptyGrid64.get x y = -1) ∧
    validMask64 64 = 0 := by
  refine ⟨by decide, by decide, fun x y => rfl, by decide⟩

/-- C5 failing-input evaluation: the input consisting of the single token
1x violates the grammar (the token is neither a question mark nor a
decimal integer in [1, N]), yet the load succeeds and the object becomes
ready: std::stoi parses the numeric prefix of the token and silently
ignores the trailing characters.  Second divergence: a numeric token that
overflows int makes std::stoi raise std::out_of_range, which insert_row
does not catch, so the load raises an exception instead of returning
false. -/
theorem C5_malformed_accepted :
    (readPuzzleFromString initSudoku ['1', 'x'] =
      .ok (true, { grid := parsedGrid initSudoku ['1', 'x'], statusOk := true }) ∧
     good { grid := parsedGrid initSudoku ['1', 'x'], statusOk := true } = true ∧
     (parsedGrid initSudoku ['1', 'x']).get 0 0 = 1 ∧
     (parsedGrid initSudoku ['1', 'x']).n = 1) ∧
    readPuzzleFromString initSudoku
      ['9', '9', '9', '9', '9', '9', '9', '9', '9', '9', '9'] =
      .error .stdOutOfRange := by
  exact ⟨⟨rfl, rfl, by decide, by decide⟩, rfl⟩

/-! Grid update lemmas. -/

theorem Grid.eq_of {g1 g2 : Grid} (hn : g1.n = g2.n)
    (hmat : ∀ x y, g1.mat x y = g2.mat x y) : g1 = g2 := by
  cases g1
  cases g2
  simp only [Grid.mk.injEq]
  exact ⟨hn, funext fun x => funext fun y => hmat x y⟩

theorem get_set_same (g : Grid) (x y : Nat) (v : Int) :
    (g.set x y v).get x y = v := by
  simp [Grid.set, Grid.get]

theorem get_set_other (g : Grid) (x y x2 y2 : Nat) (v : Int)
    (h : ¬(x2 = x ∧ y2 = y)) : (g.set x y v).get x2 y2 = g.get x2 y2 := by
  show (if x2 = x ∧ y2 = y then v else g.mat x2 y2) = g.get x2 y2
  rw [if_neg h]
  rfl

theorem agreesExcept_refl (g : Grid) (ux uy : Nat) : AgreesExcept g g ux uy :=
  ⟨rfl, fun _ _ _ => rfl⟩

theorem agreesExcept_set (g ng : Grid) (ux uy : Nat) (i : Int)
    (h : AgreesExcept g ng ux uy) : AgreesExcept g (ng.set ux uy i) ux uy := by
  refine ⟨h.1, fun x y hxy => ?_⟩
  show (if x = ux ∧ y = uy then i else ng.mat x y) = g.mat x y
  rw [if_neg hxy]
  exact h.2 x y hxy

theorem agreesExcept_set_eq (g ng : Grid) (ux uy : Nat) (i : Int)
    (h : AgreesExcept g ng ux uy) : ng.set ux uy i = g.set ux uy i := by
  refine Grid.eq_of h.1 fun x y => ?_
  show (if x = ux ∧ y = uy then i else ng.mat x y) =
    (if x = ux ∧ y = uy then i else g.mat x y)
  by_cases hxy : x = ux ∧ y = uy
  · rw [if_pos hxy, if_pos hxy]
  · rw [if_neg hxy, if_neg hxy]
    exact h.2 x y hxy

/-! Characterisation of find_unknown. -/

theorem findInRowAux_some (g : Grid) (y : Nat) :
    ∀ (k x x0 : Nat), findInRowAux g y k x = some x0 →
      x ≤ x0 ∧ x0 < x + k ∧ g.get x0 y = -1 ∧
      ∀ x2, x ≤ x2 → x2 < x0 → g.get x2 y ≠ -1 := by
  intro k
  induction k with
  | zero => intro x x0 h; cases h
  | succ k2 ih =>
    intro x x0 h
    simp only [findInRowAux] at h
    by_cases hc : g.get x y = -1
    · rw [if_pos hc] at h
      have hx : x = x0 := by injection h
      subst hx
      exact ⟨Nat.le_refl x, by omega, hc, fun x2 h1 h2 => by omega⟩
    · rw [if_neg hc] at h
      obtain ⟨h1, h2, h3, h4⟩ := ih (x + 1) x0 h
      refine ⟨by omega, by omega, h3, fun x2 hx2a hx2b => ?_⟩
      by_cases hx2 : x2 = x
      · subst hx2; exact hc
      · exact h4 x2 (by omega) hx2b

theorem findInRowAux_none (g : Grid) (y : Nat) :
    ∀ (k x : Nat), findInRowAux g y k x = none →
      ∀ x2, x ≤ x2 → x2 < x + k → g.get x2 y ≠ -1 := by
  intro k
  induction k with
  | zero => intro x h x2 h1 h2; omega
  | succ k2 ih =>
    intro x h x2 h1 h2
    simp only [findInRowAux] at h
    by_cases hc : g.get x y = -1
    · rw [if_pos hc] at h; cases h
    · rw [if_neg hc] at h
      by_cases hx2 : x2 = x
      · subst hx2; exact hc
      · exact ih (x + 1) h x2 (by omega) (by omega)

theorem findRowsAux_some_inv (g : Grid) :
    ∀ (k cx y : Nat), y + k ≤ g.n → DetBefore g cx y →
      ∀ ux uy, findRowsAux g k cx y = some (ux, uy) →
      g.get ux uy = -1 ∧ ux < g.n ∧ uy < g.n ∧ DetBefore g ux uy := by
  intro k
  induction k with
  | zero => intro cx y _ _ ux uy h; cases h
  | succ k2 ih =>
    intro cx y hk hb ux uy h
    simp only [findRowsAux] at h
    unfold findInRow at h
    cases hr : findInRowAux g y (g.n - cx) cx with
    | some x0 =>
      rw [hr] at h
      simp only [Option.some.injEq, Prod.mk.injEq] at h
      obtain ⟨hx0, hyuy⟩ := h
      subst hx0
      subst hyuy
      obtain ⟨ha, hb2, hc, hd⟩ := findInRowAux_some g y (g.n - cx) cx x0 hr
      have hcxle : cx ≤ g.n := by
        by_contra hgt
        have hz : g.n - cx = 0 := by omega
        rw [hz] at hr
        cases hr
      refine ⟨hc, by omega, by omega, ?_⟩
      intro x2 hx2 y2 hy2 hbefore
      rcases hbefore with hlt | ⟨heq, hxlt⟩
      · exact hb x2 hx2 y2 hy2 (Or.inl hlt)
      · subst heq
        by_cases hcx : x2 < cx
        · exact hb x2 hx2 y2 hy2 (Or.inr ⟨rfl, hcx⟩)
        · exact hd x2 (by omega) hxlt
    | none =>
      rw [hr] at h
      have hrowdet : ∀ x2, x2 < g.n → g.get x2 y ≠ -1 := by
        intro x2 hx2
        by_cases hcx : x2 < cx
        · exact hb x2 hx2 y (by omega) (Or.inr ⟨rfl, hcx⟩)
        · exact findInRowAux_none g y (g.n - cx) cx hr x2 (by omega) (by omega)
      have hb2 : DetBefore g 0 (y + 1) := by
        intro x2 hx2 y2 hy2 hbefore
        rcases hbefore with hlt | ⟨heq, hxlt⟩
        · by_cases hy2y : y2 = y
          · subst hy2y; exact hrowdet x2 hx2
          · exact hb x2 hx2 y2 hy2 (Or.inl (by omega))
        · omega
      exact ih 0 (y + 1) (by omega) hb2 ux uy h

theorem findRowsAux_none_inv (g : Grid) :
    ∀ (k cx y : Nat), g.n ≤ y + k → DetBefore g cx y →
      findRowsAux g k cx y = none → DeterminedAll g := by
  intro k
  induction k with
  | zero =>
    intro cx y hk hb _ x hx y2 hy2
    exact hb x hx y2 hy2 (Or.inl (by omega))
  | succ k2 ih =>
    intro cx y hk hb h
    simp only [findRowsAux] at h
    unfold findInRow at h
    cases hr : findInRowAux g y (g.n - cx) cx with
    | some x0 => rw [hr] at h; cases h
    | none =>
      rw [hr] at h
      have hrowdet : y < g.n → ∀ x2, x2 < g.n → g.get x2 y ≠ -1 := by
        intro hy x2 hx2
        by_cases hcx : x2 < cx
        · exact hb x2 hx2 y hy (Or.inr ⟨rfl, hcx⟩)
        · exact findInRowAux_none g y (g.n - cx) cx hr x2 (by omega) (by omega)
      have hb2 : DetBefore g 0 (y + 1) := by
        intro x2 hx2 y2 hy2 hbefore
        rcases hbefore with hlt | ⟨heq, hxlt⟩
        · by_cases hy2y : y2 = y
          · subst hy2y; exact hrowdet hy2 x2 hx2
          · exact hb x2 hx2 y2 hy2 (Or.inl (by omega))
        · omega
      exact ih 0 (y + 1) (by omega) hb2 h

theorem findUnknown_some_spec (g : Grid) (cx cy ux uy : Nat)
    (hb : DetBefore g cx cy) (h : findUnknown g cx cy = some (ux, uy)) :
    g.get ux uy = -1 ∧ ux < g.n ∧ uy < g.n ∧ DetBefore g ux uy := by
  by_cases hcy : cy ≤ g.n
  · exact findRowsAux_some_inv g (g.n - cy) cx cy (by omega) hb ux uy h
  · exfalso
    have hk : g.n - cy = 0 := by omega
    unfold findUnknown at h
    rw [hk] at h
    cases h

theorem findUnknown_none_spec (g : Grid) (cx cy : Nat)
    (hb : DetBefore g cx cy) (h : findUnknown g cx cy = none) :
    DeterminedAll g :=
  findRowsAux_none_inv g (g.n - cy) cx cy (by omega) hb h

theorem findUnknown_some_unknown (g : Grid) (cx cy ux uy : Nat)
    (h : findUnknown g cx cy = some (ux, uy)) :
    g.get ux uy = -1 ∧ ux < g.n ∧ uy < g.n := by
  have haux : ∀ (k cxa ya : Nat), ya + k ≤ g.n →
      ∀ uxa uya, findRowsAux g k cxa ya = some (uxa, uya) →
      g.get uxa uya = -1 ∧ uxa < g.n ∧ uya < g.n := by
    intro k
    induction k with
    | zero => intro cxa ya _ uxa uya hh; cases hh
    | succ k2 ih =>
      intro cxa ya hk uxa uya hh
      simp only [findRowsAux] at hh
      unfold findInRow at hh
      cases hr : findInRowAux g ya (g.n - cxa) cxa with
      | some x0 =>
        rw [hr] at hh
        simp only [Option.some.injEq, Prod.mk.injEq] at hh
        obtain ⟨hx0, hyuy⟩ := hh
        subst hx0
        subst hyuy
        obtain ⟨ha, hbb, hc, hd⟩ := findInRowAux_some g ya (g.n - cxa) cxa x0 hr
        have hcxle : cxa ≤ g.n := by
          by_contra hgt
          have hz : g.n - cxa = 0 := by omega
          rw [hz] at hr
          cases hr
        exact ⟨hc, by omega, by omega⟩
      | none =>
        rw [hr] at hh
        exact ih 0 (ya + 1) (by omega) uxa uya hh
  by_cases hcy : cy ≤ g.n
  · exact haux (g.n - cy) cx cy (by omega) ux uy h
  · exfalso
    have hk : g.n - cy = 0 := by omega
    unfold findUnknown at h
    rw [hk] at h
    cases h

/-! Lemmas about the candidate value list and the unknown-cell count. -/

theorem mem_valueList {n : Nat} {v : Int} : v ∈ valueList n ↔ 1 ≤ v ∧ v ≤ (n : Int) := by
  rw [valueList]
  constructor
  · intro hv
    obtain ⟨j, hj, he⟩ := List.mem_map.mp hv
    have hjn : j < n := List.mem_range.mp hj
    rw [Int.ofNat_eq_coe] at he
    omega
  · rintro ⟨h1, h2⟩
    apply List.mem_map.mpr
    refine ⟨(v - 1).toNat, List.mem_range.mpr (by omega), ?_⟩
    rw [Int.ofNat_eq_coe]
    omega

theorem sum_map_lt {α : Type} (l : List α) (f h : α → Nat)
    (hle : ∀ a ∈ l, f a ≤ h a) (a0 : α) (ha0 : a0 ∈ l) (hlt : f a0 < h a0) :
    (l.map f).sum < (l.map h).sum := by
  induction l with
  | nil => cases ha0
  | cons c rest ih =>
    simp only [List.map_cons, List.sum_cons]
    rcases List.mem_cons.mp ha0 with rfl | hmem
    · have hrest : (rest.map f).sum ≤ (rest.map h).sum := by
        apply List.sum_le_sum
        intro b hb
        exact hle b (List.mem_cons_of_mem _ hb)
      omega
    · have hc : f c ≤ h c := hle c (List.mem_cons_self _ _)
      have := ih (fun a ha => hle a (List.mem_cons_of_mem _ ha)) hmem
      omega

theorem filter_length_lt {l : List Nat} (p q : Nat → Bool) (a : Nat)
    (hnd : l.Nodup) (ha : a ∈ l) (hpa : p a = true) (hqa : q a = false)
    (hotherwise : ∀ x ∈ l, x ≠ a → q x = p x) :
    (l.filter q).length < (l.filter p).length := by
  obtain ⟨s, t, rfl⟩ := List.append_of_mem ha
  have hnotin : a ∉ s ∧ a ∉ t := by
    rw [List.nodup_append] at hnd
    constructor
    · intro hmem
      exact hnd.2.2 hmem (List.mem_cons_self _ _)
    · have h2 := hnd.2.1
      rw [List.nodup_cons] at h2
      exact fun hmem => h2.1 hmem
  have hs : s.filter q = s.filter p := by
    apply List.filter_congr
    intro x hx
    exact hotherwise x (List.mem_append_left _ hx) (fun he => hnotin.1 (he ▸ hx))
  have ht : t.filter q = t.filter p := by
    apply List.filter_congr
    intro x hx
    exact hotherwise x (List.mem_append_right _ (List.mem_cons_of_mem _ hx))
      (fun he => hnotin.2 (he ▸ hx))
  simp only [List.filter_append, List.length_append, List.filter_cons, hpa, hqa]
  rw [hs, ht]
  simp

theorem unknownCount_set_lt (g : Grid) (ux uy : Nat) (hx : ux < g.n)
    (hy : uy < g.n) (hu : g.get ux uy = -1) (v : Int) (hv : v ≠ -1) :
    unknownCount (g.set ux uy v) < unknownCount g := by
  unfold unknownCount unknownCells
  have hn : (g.set ux uy v).n = g.n := rfl
  rw [hn]
  rw [List.length_flatMap, List.length_flatMap]
  refine sum_map_lt (List.range g.n) _ _ ?_ uy (List.mem_range.mpr hy) ?_
  · intro y _
    simp only [Function.comp_apply, List.length_map]
    by_cases hyy : y = uy
    · subst hyy
      have hlt2 := filter_length_lt (fun x => decide (g.get x y = -1))
        (fun x => decide ((g.set ux y v).get x y = -1)) ux
        (List.nodup_range _) (List.mem_range.mpr hx)
        (by simp [hu]) (by simp [get_set_same, hv])
        (fun x _ hne => by
          simp only [decide_eq_decide]
          rw [get_set_other g ux y x y v (by tauto)])
      exact Nat.le_of_lt hlt2
    · have heq : (List.range g.n).filter (fun x => decide ((g.set ux uy v).get x y = -1)) =
          (List.range g.n).filter (fun x => decide (g.get x y = -1)) := by
        apply List.filter_congr
        intro x _
        simp only [decide_eq_decide]
        rw [get_set_other g ux uy x y v (by tauto)]
      rw [heq]
  · simp only [Function.comp_apply, List.length_map]
    exact filter_length_lt (fun x => decide (g.get x uy = -1))
      (fun x => decide ((g.set ux uy v).get x uy = -1)) ux
      (List.nodup_range _) (List.mem_range.mpr hx)
      (by simp [hu]) (by simp [get_set_same, hv])
      (fun x _ hne => by
        simp only [decide_eq_decide]
        rw [get_set_other g ux uy x uy v (by tauto)])

/-! Elimination lemmas for the candidate-value loops.  The clone new_grid
threaded through a loop differs from the node's board g at most at the
cell being coloured, so every recursive call acts on g.set ux uy i. -/

theorem bruteTry_none_elim (next : Grid → Bool × Grid)
    (hframe : ∀ h2, (next h2).1 = false → (next h2).2 = h2)
    (g : Grid) (ux uy : Nat) :
    ∀ (vals : List Int) (ng : Grid), AgreesExcept g ng ux uy →
      bruteTry next ux uy ng vals = none →
      ∀ i ∈ vals, (next (g.set ux uy i)).1 = false := by
  intro vals
  induction vals with
  | nil => intro ng _ _ i hi; cases hi
  | cons c rest ih =>
    intro ng hag h i hi
    simp only [bruteTry] at h
    have hset : ng.set ux uy c = g.set ux uy c := agreesExcept_set_eq g ng ux uy c hag
    cases hb : (next (ng.set ux uy c)).1 with
    | true => rw [hb] at h; simp at h
    | false =>
      rw [hb] at h
      simp only [if_false, Bool.false_eq_true] at h
      have hr2 : (next (ng.set ux uy c)).2 = ng.set ux uy c := hframe _ hb
      rw [hr2] at h
      rcases List.mem_cons.mp hi with rfl | hir
      · rw [← hset]; exact hb
      · exact ih (ng.set ux uy c) (agreesExcept_set g ng ux uy c hag) h i hir

theorem bruteTry_some_elim (next : Grid → Bool × Grid)
    (hframe : ∀ h2, (next h2).1 = false → (next h2).2 = h2)
    (g : Grid) (ux uy : Nat) :
    ∀ (vals : List Int) (ng : Grid) (g2 : Grid), AgreesExcept g ng ux uy →
      bruteTry next ux uy ng vals = some g2 →
      ∃ i ∈ vals, next (g.set ux uy i) = (true, g2) := by
  intro vals
  induction vals with
  | nil => intro ng g2 _ h; cases h
  | cons c rest ih =>
    intro ng g2 hag h
    simp only [bruteTry] at h
    have hset : ng.set ux uy c = g.set ux uy c := agreesExcept_set_eq g ng ux uy c hag
    cases hb : (next (ng.set ux uy c)).1 with
    | true =>
      rw [hb] at h
      simp only [if_true, Option.some.injEq] at h
      refine ⟨c, List.mem_cons_self _ _, ?_⟩
      rw [← hset, ← h]
      exact Prod.ext_iff.mpr ⟨hb, rfl⟩
    | false =>
      rw [hb] at h
      simp only [if_false, Bool.false_eq_true] at h
      have hr2 : (next (ng.set ux uy c)).2 = ng.set ux uy c := hframe _ hb
      rw [hr2] at h
      obtain ⟨i, hir, hnext⟩ := ih (ng.set ux uy c) g2 (agreesExcept_set g ng ux uy c hag) h
      exact ⟨i, List.mem_cons_of_mem _ hir, hnext⟩

theorem colorTry_none_elim (next : Grid → Bool × Grid)
    (hframe : ∀ h2, (next h2).1 = false → (next h2).2 = h2)
    (colors : Nat) (g : Grid) (ux uy : Nat) :
    ∀ (vals : List Int) (ng : Grid), AgreesExcept g ng ux uy →
      colorTry next colors ux uy ng vals = none →
      ∀ i ∈ vals, colors &&& pat64 i ≠ 0 → (next (g.set ux uy i)).1 = false := by
  intro vals
  induction vals with
  | nil => intro ng _ _ i hi; cases hi
  | cons c rest ih =>
    intro ng hag h i hi hcand
    simp only [colorTry] at h
    by_cases hc : colors &&& pat64 c ≠ 0
    · rw [if_pos hc] at h
      have hset : ng.set ux uy c = g.set ux uy c := agreesExcept_set_eq g ng ux uy c hag
      cases hb : (next (ng.set ux uy c)).1 with
      | true => rw [hb] at h; simp at h
      | false =>
        rw [hb] at h
        simp only [if_false, Bool.false_eq_true] at h
        have hr2 : (next (ng.set ux uy c)).2 = ng.set ux uy c := hframe _ hb
        rw [hr2] at h
        rcases List.mem_cons.mp hi with rfl | hir
        · rw [← hset]; exact hb
        · exact ih (ng.set ux uy c) (agreesExcept_set g ng ux uy c hag) h i hir hcand
    · rw [if_neg hc] at h
      rcases List.mem_cons.mp hi with rfl | hir
      · exact absurd hcand hc
      · exact ih ng hag h i hir hcand

theorem colorTry_some_elim (next : Grid → Bool × Grid)
    (hframe : ∀ h2, (next h2).1 = false → (next h2).2 = h2)
    (colors : Nat) (g : Grid) (ux uy : Nat) :
    ∀ (vals : List Int) (ng : Grid) (g2 : Grid), AgreesExcept g ng ux uy →
      colorTry next colors ux uy ng vals = some g2 →
      ∃ i ∈ vals, colors &&& pat64 i ≠ 0 ∧ next (g.set ux uy i) = (true, g2) := by
  intro vals
  induction vals with
  | nil => intro ng g2 _ h; cases h
  | cons c rest ih =>
    intro ng g2 hag h
    simp only [colorTry] at h
    by_cases hc : colors &&& pat64 c ≠ 0
    · rw [if_pos hc] at h
      have hset : ng.set ux uy c = g.set ux uy c := agreesExcept_set_eq g ng ux uy c hag
      cases hb : (next (ng.set ux uy c)).1 with
      | true =>
        rw [hb] at h
        simp only [if_true, Option.some.injEq] at h
        refine ⟨c, List.mem_cons_self _ _, hc, ?_⟩
        rw [← hset, ← h]
        exact Prod.ext_iff.mpr ⟨hb, rfl⟩
      | false =>
        rw [hb] at h
        simp only [if_false, Bool.false_eq_true] at h
        have hr2 : (next (ng.set ux uy c)).2 = ng.set ux uy c := hframe _ hb
        rw [hr2] at h
        obtain ⟨i, hir, hcand, hnext⟩ :=
          ih (ng.set ux uy c) g2 (agreesExcept_set g ng ux uy c hag) h
        exact ⟨i, List.mem_cons_of_mem _ hir, hcand, hnext⟩
    · rw [if_neg hc] at h
      obtain ⟨i, hir, hcand, hnext⟩ := ih ng g2 hag h
      exact ⟨i, List.mem_cons_of_mem _ hir, hcand, hnext⟩

/-! Structural facts about the full-validity scan. -/

theorem goodCells_determined (g : Grid) :
    ∀ (cells : List (Nat × Nat)) (mask : Nat), goodCells g cells mask = true →
      ∀ p ∈ cells, g.get p.1 p.2 ≠ -1 := by
  intro cells
  induction cells with
  | nil => intro mask _ p hp; cases hp
  | cons c rest ih =>
    intro mask h p hp
    obtain ⟨cx, cy⟩ := c
    simp only [goodCells] at h
    by_cases hc : g.get cx cy = -1
    · rw [if_pos hc] at h; cases h
    · rw [if_neg hc] at h
      by_cases hm : mask &&& pat64 (g.get cx cy) ≠ 0
      · rw [if_pos hm] at h; cases h
      · rw [if_neg hm] at h
        rcases List.mem_cons.mp hp with rfl | hpr
        · exact hc
        · exact ih _ h p hpr

theorem isGoodBoard_parts (g : Grid) (h : isGoodBoard g = true) :
    (∀ y < g.n, isGoodRow g y = true) ∧
    (∀ x < g.n, isGoodColumn g x = true) ∧
    (∀ bx < nRoot g.n, ∀ byy < nRoot g.n,
      isGoodBlock g (bx * nRoot g.n) (byy * nRoot g.n) = true) := by
  unfold isGoodBoard at h
  rw [Bool.and_eq_true, Bool.and_eq_true] at h
  obtain ⟨⟨hr, hc⟩, hb⟩ := h
  rw [List.all_eq_true] at hr hc hb
  refine ⟨fun y hy => hr y (List.mem_range.mpr hy),
    fun x hx => hc x (List.mem_range.mpr hx), fun bx hbx byy hbyy => ?_⟩
  have := hb bx (List.mem_range.mpr hbx)
  rw [List.all_eq_true] at this
  exact this byy (List.mem_range.mpr hbyy)

theorem isGoodBoard_determined (g : Grid) (h : isGoodBoard g = true) :
    DeterminedAll g := by
  intro x hx y hy
  have hrow := (isGoodBoard_parts g h).1 y hy
  unfold isGoodRow at hrow
  have := goodCells_determined g _ _ hrow (x, y) (by
    unfold rowCells
    exact List.mem_map.mpr ⟨x, List.mem_range.mpr hx, rfl⟩)
  exact this

/-! Transitivity-style lemmas for board extension. -/

theorem extendsTo_refl (g : Grid) : ExtendsTo g g :=
  ⟨rfl, fun _ _ _ _ _ => rfl⟩

theorem extendsTo_trans {g h2 b : Grid} (h1 : ExtendsTo g h2) (h3 : ExtendsTo h2 b) :
    ExtendsTo g b := by
  refine ⟨h3.1.trans h1.1, fun x hx y hy hdet => ?_⟩
  have hmid : h2.get x y = g.get x y := h1.2 x hx y hy hdet
  have hx2 : x < h2.n := by rw [h1.1]; exact hx
  have hy2 : y < h2.n := by rw [h1.1]; exact hy
  have hdet2 : h2.get x y ≠ -1 := by rw [hmid]; exact hdet
  rw [h3.2 x hx2 y hy2 hdet2, hmid]

theorem extendsTo_set (g : Grid) (ux uy : Nat) (i : Int)
    (hunk : g.get ux uy = -1) : ExtendsTo g (g.set ux uy i) := by
  refine ⟨rfl, fun x hx y hy hdet => ?_⟩
  apply get_set_other
  rintro ⟨rfl, rfl⟩
  exact hdet hunk

theorem wfCells_set (g : Grid) (ux uy : Nat) (i : Int)
    (hi1 : 1 ≤ i) (hi2 : i ≤ (g.n : Int)) (h : WfCells g) :
    WfCells (g.set ux uy i) := by
  intro x hx y hy
  by_cases hp : x = ux ∧ y = uy
  · right
    obtain ⟨rfl, rfl⟩ := hp
    rw [get_set_same]
    exact ⟨hi1, hi2⟩
  · rw [get_set_other g ux uy x y i hp]
    exact h x hx y hy

/-! Soundness: a successful search extends its input to a board accepted
by the full-validity check, preserving well-formedness. -/

theorem colorNodeF_sound :
    ∀ (fuel : Nat) (g : Grid) (cx cy : Nat) (g2 : Grid),
      colorNodeF fuel g cx cy = (true, g2) →
      g2.n = g.n ∧ ExtendsTo g g2 ∧ isGoodBoard g2 = true ∧
      (WfCells g → WfCells g2) := by
  intro fuel
  induction fuel with
  | zero => intro g cx cy g2 h; simp only [colorNodeF, Prod.mk.injEq] at h; cases h.1
  | succ f ih =>
    intro g cx cy g2 h
    rw [colorNodeF_succ] at h
    cases hf : findUnknown g cx cy with
    | none =>
      simp only [hf, Prod.mk.injEq] at h
      obtain ⟨hgood, hg2⟩ := h
      subst hg2
      exact ⟨rfl, extendsTo_refl g, hgood, fun hw => hw⟩
    | some p =>
      obtain ⟨ux, uy⟩ := p
      rw [hf] at h
      obtain ⟨hunk, hux, huy⟩ := findUnknown_some_unknown g cx cy ux uy hf
      cases ht : colorTry (fun h2 => colorNodeF f h2 ux uy)
          (goodColors g ux uy) ux uy g (valueList g.n) with
      | none => simp [hf, ht] at h
      | some gt =>
        simp only [hf, ht, Prod.mk.injEq, true_and] at h
        subst h
        obtain ⟨i, hi, hcand, hnext⟩ := colorTry_some_elim _
          (fun h2 hh => colorNodeF_fail_frame f h2 ux uy hh) _ g ux uy _ g gt
          (agreesExcept_refl g ux uy) ht
        obtain ⟨hn2, hext, hgood, hwf⟩ := ih (g.set ux uy i) ux uy gt hnext
        obtain ⟨hi1, hi2⟩ := mem_valueList.mp hi
        refine ⟨hn2, extendsTo_trans (extendsTo_set g ux uy i hunk) hext, hgood,
          fun hwfg => hwf (wfCells_set g ux uy i hi1 hi2 hwfg)⟩

theorem bruteNodeF_sound :
    ∀ (fuel : Nat) (g : Grid) (cx cy : Nat) (g2 : Grid),
      bruteNodeF fuel g cx cy = (true, g2) →
      g2.n = g.n ∧ ExtendsTo g g2 ∧ isGoodBoard g2 = true ∧
      (WfCells g → WfCells g2) := by
  intro fuel
  induction fuel with
  | zero => intro g cx cy g2 h; simp only [bruteNodeF, Prod.mk.injEq] at h; cases h.1
  | succ f ih =>
    intro g cx cy g2 h
    rw [bruteNodeF_succ] at h
    cases hf : findUnknown g cx cy with
    | none =>
      simp only [hf, Prod.mk.injEq] at h
      obtain ⟨hgood, hg2⟩ := h
      subst hg2
      exact ⟨rfl, extendsTo_refl g, hgood, fun hw => hw⟩
    | some p =>
      obtain ⟨ux, uy⟩ := p
      rw [hf] at h
      obtain ⟨hunk, hux, huy⟩ := findUnknown_some_unknown g cx cy ux uy hf
      cases ht : bruteTry (fun h2 => bruteNodeF f h2 ux uy) ux uy g (valueList g.n) with
      | none => simp [hf, ht] at h
      | some gt =>
        simp only [hf, ht, Prod.mk.injEq, true_and] at h
        subst h
        obtain ⟨i, hi, hnext⟩ := bruteTry_some_elim _
          (fun h2 hh => bruteNodeF_fail_frame f h2 ux uy hh) g ux uy _ g gt
          (agreesExcept_refl g ux uy) ht
        obtain ⟨hn2, hext, hgood, hwf⟩ := ih (g.set ux uy i) ux uy gt hnext
        obtain ⟨hi1, hi2⟩ := mem_valueList.mp hi
        refine ⟨hn2, extendsTo_trans (extendsTo_set g ux uy i hunk) hext, hgood,
          fun hwfg => hwf (wfCells_set g ux uy i hi1 hi2 hwfg)⟩

/-! The structural square root agrees with Nat.sqrt. -/

theorem sqrtAux_eq (n : Nat) : ∀ k, Nat.sqrt n ≤ k → sqrtAux k n = Nat.sqrt n := by
  intro k
  induction k with
  | zero => intro h; simp only [sqrtAux]; omega
  | succ k2 ih =>
    intro h
    simp only [sqrtAux]
    by_cases hc : (k2 + 1) * (k2 + 1) ≤ n
    · rw [if_pos hc]
      have h1 : k2 + 1 ≤ Nat.sqrt n := Nat.le_sqrt.mpr hc
      omega
    · rw [if_neg hc]
      apply ih
      have h2 : Nat.sqrt n ≠ k2 + 1 := by
        intro he
        exact hc (he ▸ Nat.sqrt_le n)
      omega

theorem nRoot_eq_sqrt (n : Nat) : nRoot n = Nat.sqrt n :=
  sqrtAux_eq n n (Nat.sqrt_le_self n)

theorem nRoot_sq_le (n : Nat) : nRoot n * nRoot n ≤ n := by
  rw [nRoot_eq_sqrt]
  exact Nat.sqrt_le n

theorem nRoot_square {n r : Nat} (h : n = r * r) : nRoot n = r := by
  rw [nRoot_eq_sqrt, h, Nat.sqrt_eq]

/-! Pigeonhole: a unit scan of 33 or more cells can never succeed, because
every 32-bit-int pattern sets a bit among positions 0..31. -/

theorem lowBitCount_le (mask : Nat) : lowBitCount mask ≤ 32 := by
  unfold lowBitCount
  have h := List.length_filter_le (fun i => mask.testBit i) (List.range 32)
  simpa using h

theorem pat64_lowbit (a : Int) : ∃ k < 32, (pat64 a).testBit k = true := by
  show ∃ k < 32, (if ((a - 1).emod 32).toNat = 31 then 2 ^ 64 - 2 ^ 31
    else 2 ^ ((a - 1).emod 32).toNat).testBit k = true
  have h1 : (0 : Int) ≤ (a - 1).emod 32 := Int.emod_nonneg _ (by norm_num)
  have h2 : (a - 1).emod 32 < 32 := Int.emod_lt_of_pos _ (by norm_num)
  by_cases h31 : ((a - 1).emod 32).toNat = 31
  · rw [if_pos h31]
    exact ⟨31, by omega, by decide⟩
  · rw [if_neg h31]
    exact ⟨((a - 1).emod 32).toNat, by omega, Nat.testBit_two_pow_self⟩

theorem filter_length_mono {l : List Nat} (p q : Nat → Bool)
    (himp : ∀ x, q x = true → p x = true) :
    (l.filter q).length ≤ (l.filter p).length := by
  rw [← List.countP_eq_length_filter, ← List.countP_eq_length_filter]
  exact List.countP_mono_left (fun x _ hx => himp x hx)

theorem filter_length_lt_of_imp {l : List Nat} (p q : Nat → Bool) (a : Nat)
    (ha : a ∈ l) (hqa : q a = false) (hpa : p a = true)
    (himp : ∀ x, q x = true → p x = true) :
    (l.filter q).length < (l.filter p).length := by
  induction l with
  | nil => cases ha
  | cons c rest ih =>
    simp only [List.filter_cons]
    rcases List.mem_cons.mp ha with rfl | hmem
    · rw [hqa, hpa]
      simp only [if_true, Bool.false_eq_true, if_false, List.length_cons]
      exact Nat.lt_succ_of_le (filter_length_mono p q himp)
    · cases hq : q c with
      | true =>
        rw [himp c hq, if_pos rfl, if_pos rfl]
        have hih := ih hmem
        simp only [List.length_cons]
        omega
      | false =>
        rw [if_neg (by simp)]
        cases hp : p c with
        | true =>
          rw [if_pos rfl]
          have hih := ih hmem
          simp only [List.length_cons]
          omega
        | false =>
          rw [if_neg (by simp)]
          exact ih hmem

theorem lowBitCount_lt_of_or (mask p : Nat) (k : Nat) (hk : k < 32)
    (hp : p.testBit k = true) (hm : mask &&& p = 0) :
    lowBitCount mask < lowBitCount (mask ||| p) := by
  have hmk : mask.testBit k = false := by
    by_contra hmk
    exact land_ne_zero_of_common k (by simpa using hmk) hp hm
  apply filter_length_lt_of_imp _ _ k (List.mem_range.mpr hk) hmk
    (by simp [Nat.testBit_or, hp])
  intro x hx
  have hx2 : mask.testBit x = true := hx
  show (mask ||| p).testBit x = true
  rw [Nat.testBit_or, hx2]
  rfl

theorem goodCells_false_of_long (g : Grid) :
    ∀ (cells : List (Nat × Nat)) (mask : Nat),
      33 ≤ cells.length + lowBitCount mask → goodCells g cells mask = false := by
  intro cells
  induction cells with
  | nil =>
    intro mask h
    have := lowBitCount_le mask
    simp only [List.length_nil] at h
    omega
  | cons c rest ih =>
    intro mask h
    obtain ⟨cx, cy⟩ := c
    simp only [goodCells]
    by_cases hc : g.get cx cy = -1
    · rw [if_pos hc]
    · rw [if_neg hc]
      by_cases hm : mask &&& pat64 (g.get cx cy) ≠ 0
      · rw [if_pos hm]
      · rw [if_neg hm]
        apply ih
        push_neg at hm
        obtain ⟨k, hk, hbit⟩ := pat64_lowbit (g.get cx cy)
        have := lowBitCount_lt_of_or mask (pat64 (g.get cx cy)) k hk hbit hm
        simp only [List.length_cons] at h
        omega

theorem isGoodBoard_false_of_ge33 (g : Grid) (h : 33 ≤ g.n) :
    isGoodBoard g = false := by
  unfold isGoodBoard
  have hrow : isGoodRow g 0 = false := by
    unfold isGoodRow
    apply goodCells_false_of_long
    have hlen : (rowCells g.n 0).length = g.n := by
      unfold rowCells
      simp
    omega
  have hall : (List.range g.n).all (fun y => isGoodRow g y) = false :=
    List.all_eq_false.mpr ⟨0, List.mem_range.mpr (by omega), by simp [hrow]⟩
  simp [hall]

/-! Exact bit semantics: for values and sides at most 31 the int shifts
do not wrap and every pattern is the single expected bit. -/

theorem pat64_small (a : Int) (h1 : 1 ≤ a) (h2 : a ≤ 31) :
    pat64 a = 2 ^ (a.toNat - 1) := by
  show (if ((a - 1).emod 32).toNat = 31 then 2 ^ 64 - 2 ^ 31
    else 2 ^ ((a - 1).emod 32).toNat) = 2 ^ (a.toNat - 1)
  have hmod : (a - 1).emod 32 = a - 1 := Int.emod_eq_of_lt (by omega) (by omega)
  rw [hmod]
  rw [if_neg (by omega)]
  congr 1
  omega

theorem pat64_testBit_small (a : Int) (h1 : 1 ≤ a) (h2 : a ≤ 31) (k : Nat) :
    ((pat64 a).testBit k = true) ↔ a = (k : Int) + 1 := by
  rw [pat64_small a h1 h2, Nat.testBit_two_pow]
  constructor
  · intro h
    have h3 : a.toNat - 1 = k := of_decide_eq_true h
    omega
  · intro h
    apply decide_eq_true
    omega

theorem pat64_land_same (a : Int) : pat64 a &&& pat64 a ≠ 0 := by
  rw [Nat.and_self]
  exact pat64_ne_zero a

theorem lor_land_zero_split {A B C : Nat} (h : (A ||| B) &&& C = 0) :
    A &&& C = 0 ∧ B &&& C = 0 := by
  constructor
  · by_contra hne
    obtain ⟨i, hA, hC⟩ := exists_common_of_land_ne_zero hne
    exact absurd h (land_ne_zero_of_common i (by simp [Nat.testBit_or, hA]) hC)
  · by_contra hne
    obtain ⟨i, hB, hC⟩ := exists_common_of_land_ne_zero hne
    exact absurd h (land_ne_zero_of_common i (by simp [Nat.testBit_or, hB]) hC)

theorem usedColors_testBit (g : Grid) :
    ∀ (cells : List (Nat × Nat)) (mask : Nat) (k : Nat),
      ((usedColors g cells mask).testBit k = true) ↔
        (mask.testBit k = true ∨
         ∃ p ∈ cells, g.get p.1 p.2 ≠ -1 ∧ (pat64 (g.get p.1 p.2)).testBit k = true) := by
  intro cells
  induction cells with
  | nil =>
    intro mask k
    simp [usedColors]
  | cons c rest ih =>
    intro mask k
    obtain ⟨cx, cy⟩ := c
    simp only [usedColors]
    by_cases hc : g.get cx cy = -1
    · rw [if_pos hc, ih]
      constructor
      · rintro (h | ⟨p, hp, hdet, hbit⟩)
        · exact Or.inl h
        · exact Or.inr ⟨p, List.mem_cons_of_mem _ hp, hdet, hbit⟩
      · rintro (h | ⟨p, hp, hdet, hbit⟩)
        · exact Or.inl h
        · rcases List.mem_cons.mp hp with rfl | hpr
          · exact absurd hc hdet
          · exact Or.inr ⟨p, hpr, hdet, hbit⟩
    · rw [if_neg hc, ih]
      rw [Nat.testBit_or]
      constructor
      · rintro (h | ⟨p, hp, hdet, hbit⟩)
        · rcases Bool.or_eq_true_iff.mp h with hm | hpat
          · exact Or.inl hm
          · exact Or.inr ⟨(cx, cy), List.mem_cons_self _ _, hc, hpat⟩
        · exact Or.inr ⟨p, List.mem_cons_of_mem _ hp, hdet, hbit⟩
      · rintro (h | ⟨p, hp, hdet, hbit⟩)
        · exact Or.inl (Bool.or_eq_true_iff.mpr (Or.inl h))
        · rcases List.mem_cons.mp hp with rfl | hpr
          · exact Or.inl (Bool.or_eq_true_iff.mpr (Or.inr hbit))
          · exact Or.inr ⟨p, hpr, hdet, hbit⟩

theorem goodColors_testBit (g : Grid) (x y k : Nat) (hn : g.n ≤ 31) :
    ((goodColors g x y).testBit k = true) ↔
      (k < g.n ∧
       (rowColors g y).testBit k = false ∧
       (columnColors g x).testBit k = false ∧
       (blockColors g ((x / nRoot g.n) * nRoot g.n)
         ((y / nRoot g.n) * nRoot g.n)).testBit k = false) := by
  unfold goodColors not64
  have hv : validMask64 g.n = 2 ^ g.n - 1 := by
    unfold validMask64
    rw [Nat.mod_eq_of_lt (by omega)]
  rw [Nat.testBit_and, Nat.testBit_xor, Nat.testBit_or, Nat.testBit_or, hv,
    Nat.testBit_two_pow_sub_one, Nat.testBit_two_pow_sub_one]
  by_cases hk : k < g.n
  · have hk64 : k < 64 := by omega
    simp only [decide_eq_true hk, decide_eq_true hk64, Bool.and_true, Bool.xor_true]
    cases hA : (rowColors g y).testBit k <;>
      cases hB : (columnColors g x).testBit k <;>
        cases hC : (blockColors g ((x / nRoot g.n) * nRoot g.n)
          ((y / nRoot g.n) * nRoot g.n)).testBit k <;>
          simp [hk]
  · simp only [decide_eq_false hk, Bool.and_false]
    simp [hk]

theorem goodCells_pairwise (g : Grid) :
    ∀ (cells : List (Nat × Nat)) (mask : Nat), goodCells g cells mask = true →
      (∀ p ∈ cells, mask &&& pat64 (g.get p.1 p.2) = 0) ∧
      List.Pairwise
        (fun p q => pat64 (g.get p.1 p.2) &&& pat64 (g.get q.1 q.2) = 0) cells := by
  intro cells
  induction cells with
  | nil => intro mask _; exact ⟨fun p hp => absurd hp (List.not_mem_nil p), List.Pairwise.nil⟩
  | cons c rest ih =>
    intro mask h
    obtain ⟨cx, cy⟩ := c
    simp only [goodCells] at h
    by_cases hc : g.get cx cy = -1
    · rw [if_pos hc] at h; cases h
    · rw [if_neg hc] at h
      by_cases hm : mask &&& pat64 (g.get cx cy) ≠ 0
      · rw [if_pos hm] at h; cases h
      · rw [if_neg hm] at h
        push_neg at hm
        obtain ⟨hmask, hpw⟩ := ih _ h
        constructor
        · intro p hp
          rcases List.mem_cons.mp hp with rfl | hpr
          · exact hm
          · exact (lor_land_zero_split (hmask p hpr)).1
        · refine List.Pairwise.cons (fun q hq => ?_) hpw
          exact (lor_land_zero_split (hmask q hq)).2

/-! Facts about the unit cell lists. -/

theorem rowCells_length (n y : Nat) : (rowCells n y).length = n := by
  simp [rowCells]

theorem colCells_length (n x : Nat) : (colCells n x).length = n := by
  simp [colCells]

theorem blockCells_length (n x y : Nat) :
    (blockCells n x y).length = nRoot n * nRoot n := by
  unfold blockCells
  rw [List.length_flatMap]
  have hmap : (List.range (nRoot n)).map
      (fun yo => ((List.range (nRoot n)).map (fun xo => (x + xo, y + yo))).length) =
      List.replicate (nRoot n) (nRoot n) := by
    rw [List.eq_replicate_iff]
    constructor
    · simp
    · intro b hb
      obtain ⟨a, _, rfl⟩ := List.mem_map.mp hb
      simp
  rw [show (List.map (List.length ∘ fun yo =>
      List.map (fun xo => (x + xo, y + yo)) (List.range (nRoot n)))
      (List.range (nRoot n))) = (List.range (nRoot n)).map
      (fun yo => ((List.range (nRoot n)).map (fun xo => (x + xo, y + yo))).length)
      from rfl, hmap]
  simp [List.sum_replicate, smul_eq_mul]

theorem mem_rowCells {n y : Nat} {p : Nat × Nat} :
    p ∈ rowCells n y ↔ ∃ x < n, p = (x, y) := by
  unfold rowCells
  simp only [List.mem_map, List.mem_range]
  constructor
  · rintro ⟨x, hx, rfl⟩; exact ⟨x, hx, rfl⟩
  · rintro ⟨x, hx, rfl⟩; exact ⟨x, hx, rfl⟩

theorem mem_colCells {n x : Nat} {p : Nat × Nat} :
    p ∈ colCells n x ↔ ∃ y < n, p = (x, y) := by
  unfold colCells
  simp only [List.mem_map, List.mem_range]
  constructor
  · rintro ⟨y, hy, rfl⟩; exact ⟨y, hy, rfl⟩
  · rintro ⟨y, hy, rfl⟩; exact ⟨y, hy, rfl⟩

theorem mem_blockCells {n x y : Nat} {p : Nat × Nat} :
    p ∈ blockCells n x y ↔ ∃ xo < nRoot n, ∃ yo < nRoot n, p = (x + xo, y + yo) := by
  unfold blockCells
  simp only [List.mem_flatMap, List.mem_map, List.mem_range]
  constructor
  · rintro ⟨yo, hyo, xo, hxo, rfl⟩
    exact ⟨xo, hxo, yo, hyo, rfl⟩
  · rintro ⟨xo, hxo, yo, hyo, rfl⟩
    exact ⟨yo, hyo, xo, hxo, rfl⟩

theorem block_coord_lt {nr a o : Nat} (ha : a < nr) (ho : o < nr) :
    a * nr + o < nr * nr := by
  calc a * nr + o < a * nr + nr := by omega
  _ = (a + 1) * nr := by ring
  _ ≤ nr * nr := Nat.mul_le_mul_right _ (by omega)

theorem valueList_length (n : Nat) : (valueList n).length = n := by
  simp [valueList]

theorem valueList_nodup (n : Nat) : (valueList n).Nodup := by
  unfold valueList
  refine List.Nodup.map ?_ (List.nodup_range n)
  intro a b hab
  have hab2 : Int.ofNat (a + 1) = Int.ofNat (b + 1) := hab
  have hab3 : a + 1 = b + 1 := Int.ofNat.inj hab2
  omega

/-! Every unit accepted by the full-validity scan holds each value in
[1, n] exactly once (the specification counting notion). -/

theorem unit_count_one (g : Grid) (cells : List (Nat × Nat))
    (hlen : cells.length = g.n)
    (hin : ∀ p ∈ cells, p.1 < g.n ∧ p.2 < g.n)
    (_hn31 : g.n ≤ 31) (hwfc : WfCells g)
    (hgood : goodCells g cells 0 = true) :
    ∀ v : Int, 1 ≤ v → v ≤ (g.n : Int) → occCount g cells v = 1 := by
  intro v hv1 hv2
  have hdet := goodCells_determined g cells 0 hgood
  have hrange : ∀ a ∈ cells.map (fun p => g.get p.1 p.2), 1 ≤ a ∧ a ≤ (g.n : Int) := by
    intro a ha
    obtain ⟨p, hp, rfl⟩ := List.mem_map.mp ha
    rcases hwfc p.1 (hin p hp).1 p.2 (hin p hp).2 with hu | hr
    · exact absurd hu (hdet p hp)
    · exact hr
  have hnd : (cells.map (fun p => g.get p.1 p.2)).Nodup := by
    have hpw := (goodCells_pairwise g cells 0 hgood).2
    have hne : List.Pairwise (fun p q => g.get p.1 p.2 ≠ g.get q.1 q.2) cells := by
      refine hpw.imp ?_
      intro p q hdisj heq
      rw [heq] at hdisj
      exact pat64_land_same _ hdisj
    exact List.pairwise_map.mpr hne
  have hsub : cells.map (fun p => g.get p.1 p.2) ⊆ valueList g.n := by
    intro a ha
    exact mem_valueList.mpr (hrange a ha)
  have hperm : List.Perm (cells.map (fun p => g.get p.1 p.2)) (valueList g.n) := by
    apply (List.subperm_of_subset hnd hsub).perm_of_length_le
    rw [valueList_length, List.length_map, hlen]
  have hmemv : v ∈ valueList g.n := mem_valueList.mpr ⟨hv1, hv2⟩
  have hcount : (cells.map (fun p => g.get p.1 p.2)).count v = 1 := by
    rw [hperm.count_eq]
    exact List.count_eq_one_of_mem (valueList_nodup g.n) hmemv
  rw [List.count_eq_countP, List.countP_map] at hcount
  exact hcount

/-- isGoodBoard_spec is the bridge: below the wrap threshold, a
well-formed board accepted by the program's full-validity check satisfies
the specification notion of full validity. -/
theorem isGoodBoard_spec (g : Grid) (hwf : WfCells g) (hn31 : g.n ≤ 31)
    (hsq : nRoot g.n * nRoot g.n = g.n) (h : isGoodBoard g = true) :
    specFullValid g = true := by
  obtain ⟨hrows, hcols, hblks⟩ := isGoodBoard_parts g h
  unfold specFullValid
  rw [Bool.and_eq_true, Bool.and_eq_true]
  refine ⟨⟨?_, ?_⟩, ?_⟩
  · rw [List.all_eq_true]
    intro y hy
    rw [List.all_eq_true]
    intro m hm
    rw [List.mem_range] at hy hm
    have hc := unit_count_one g (rowCells g.n y) (rowCells_length g.n y)
      (fun p hp => by
        obtain ⟨x, hx, rfl⟩ := mem_rowCells.mp hp
        exact ⟨hx, hy⟩) hn31 hwf (hrows y hy) ((m : Int) + 1) (by omega) (by omega)
    simp [hc]
  · rw [List.all_eq_true]
    intro x hx
    rw [List.all_eq_true]
    intro m hm
    rw [List.mem_range] at hx hm
    have hc := unit_count_one g (colCells g.n x) (colCells_length g.n x)
      (fun p hp => by
        obtain ⟨y, hy, rfl⟩ := mem_colCells.mp hp
        exact ⟨hx, hy⟩) hn31 hwf (hcols x hx) ((m : Int) + 1) (by omega) (by omega)
    simp [hc]
  · rw [List.all_eq_true]
    intro bx hbx
    rw [List.all_eq_true]
    intro byy hbyy
    rw [List.mem_range] at hbx hbyy
    rw [List.all_eq_true]
    intro m hm
    rw [List.mem_range] at hm
    have hc := unit_count_one g (blockCells g.n (bx * nRoot g.n) (byy * nRoot g.n))
      (by rw [blockCells_length, hsq])
      (fun p hp => by
        obtain ⟨xo, hxo, yo, hyo, rfl⟩ := mem_blockCells.mp hp
        refine ⟨?_, ?_⟩
        · have hcl := block_coord_lt hbx hxo
          rw [hsq] at hcl
          exact hcl
        · have hcl := block_coord_lt hbyy hyo
          rw [hsq] at hcl
          exact hcl)
      hn31 hwf (hblks bx hbx byy hbyy) ((m : Int) + 1) (by omega) (by omega)
    simp [hc]

/-! Congruence: the validity checks read only in-range cells, so two
boards equal cell-for-cell on the square are interchangeable. -/

theorem list_all_congr {α : Type} {p q : α → Bool} :
    ∀ l : List α, (∀ a ∈ l, p a = q a) → l.all p = l.all q := by
  intro l
  induction l with
  | nil => intro _; rfl
  | cons c rest ih =>
    intro h
    simp only [List.all_cons]
    rw [h c (List.mem_cons_self _ _), ih (fun a ha => h a (List.mem_cons_of_mem _ ha))]

theorem goodCells_congr {g b : Grid} (hsb : SameBoard g b) :
    ∀ (cells : List (Nat × Nat)) (mask : Nat),
      (∀ p ∈ cells, p.1 < g.n ∧ p.2 < g.n) →
      goodCells b cells mask = goodCells g cells mask := by
  intro cells
  induction cells with
  | nil =>
    intro mask _
    show (mask == validMask64 b.n) = (mask == validMask64 g.n)
    rw [hsb.1]
  | cons c rest ih =>
    intro mask hin
    obtain ⟨cx, cy⟩ := c
    have hv : b.get cx cy = g.get cx cy :=
      hsb.2 cx (hin (cx, cy) (List.mem_cons_self _ _)).1
        cy (hin (cx, cy) (List.mem_cons_self _ _)).2
    simp only [goodCells, hv]
    by_cases hc : g.get cx cy = -1
    · rw [if_pos hc, if_pos hc]
    · rw [if_neg hc, if_neg hc]
      by_cases hm : mask &&& pat64 (g.get cx cy) ≠ 0
      · rw [if_pos hm, if_pos hm]
      · rw [if_neg hm, if_neg hm]
        exact ih _ (fun p hp => hin p (List.mem_cons_of_mem _ hp))

theorem isGoodBoard_congr {g b : Grid} (hsb : SameBoard g b) :
    isGoodBoard b = isGoodBoard g := by
  unfold isGoodBoard
  rw [hsb.1]
  have h1 : (List.range g.n).all (fun y => isGoodRow b y) =
      (List.range g.n).all (fun y => isGoodRow g y) := by
    apply list_all_congr
    intro y hy
    rw [List.mem_range] at hy
    unfold isGoodRow
    rw [hsb.1]
    apply goodCells_congr hsb
    intro p hp
    obtain ⟨x, hx, rfl⟩ := mem_rowCells.mp hp
    exact ⟨hx, hy⟩
  have h2 : (List.range g.n).all (fun x => isGoodColumn b x) =
      (List.range g.n).all (fun x => isGoodColumn g x) := by
    apply list_all_congr
    intro x hx
    rw [List.mem_range] at hx
    unfold isGoodColumn
    rw [hsb.1]
    apply goodCells_congr hsb
    intro p hp
    obtain ⟨y, hy, rfl⟩ := mem_colCells.mp hp
    exact ⟨hx, hy⟩
  have h3 : (List.range (nRoot g.n)).all (fun bx =>
      (List.range (nRoot g.n)).all (fun byy =>
        isGoodBlock b (bx * nRoot g.n) (byy * nRoot g.n))) =
      (List.range (nRoot g.n)).all (fun bx =>
      (List.range (nRoot g.n)).all (fun byy =>
        isGoodBlock g (bx * nRoot g.n) (byy * nRoot g.n))) := by
    apply list_all_congr
    intro bx hbx
    rw [List.mem_range] at hbx
    apply list_all_congr
    intro byy hbyy
    rw [List.mem_range] at hbyy
    unfold isGoodBlock
    rw [hsb.1]
    apply goodCells_congr hsb
    intro p hp
    obtain ⟨xo, hxo, yo, hyo, rfl⟩ := mem_blockCells.mp hp
    have hle := nRoot_sq_le g.n
    exact ⟨Nat.lt_of_lt_of_le (block_coord_lt hbx hxo) hle,
      Nat.lt_of_lt_of_le (block_coord_lt hbyy hyo) hle⟩
  rw [h1, h2, h3]

theorem sameBoard_of_completion_determined {g b : Grid}
    (hcomp : CompletionOf g b) (hdall : DeterminedAll g) : SameBoard g b :=
  ⟨hcomp.1.1, fun x hx y hy => hcomp.1.2 x hx y hy (hdall x hx y hy)⟩

/-! A predicate holding at two distinct members counts at least twice. -/

theorem countP_two {α : Type} (l : List α) (p : α → Bool) (a b : α)
    (hab : a ≠ b) (hal : a ∈ l) (hbl : b ∈ l)
    (hpa : p a = true) (hpb : p b = true) : 2 ≤ l.countP p := by
  obtain ⟨s, t, rfl⟩ := List.append_of_mem hal
  have hbst : b ∈ s ∨ b ∈ t := by
    rcases List.mem_append.mp hbl with hs | hat
    · exact Or.inl hs
    · rcases List.mem_cons.mp hat with rfl | ht
      · exact absurd rfl hab
      · exact Or.inr ht
  rw [List.countP_append, List.countP_cons, hpa, if_pos rfl]
  rcases hbst with hs | ht
  · have : 0 < s.countP p := List.countP_pos_iff.mpr ⟨b, hs, hpb⟩
    omega
  · have : 0 < t.countP p := List.countP_pos_iff.mpr ⟨b, ht, hpb⟩
    omega

/-! Completeness of the exhaustive search: whenever an accepted
completion exists, bruteforce_node reports success. -/

theorem bruteNodeF_complete :
    ∀ (fuel : Nat) (g : Grid) (cx cy : Nat),
      unknownCount g < fuel →
      DetBefore g cx cy →
      (∃ b, CompletionOf g b ∧ isGoodBoard b = true) →
      (bruteNodeF fuel g cx cy).1 = true := by
  intro fuel
  induction fuel with
  | zero => intro g cx cy hf; omega
  | succ f ih =>
    rintro g cx cy hf hdb ⟨b, hcomp, hgood⟩
    rw [bruteNodeF_succ]
    cases hfind : findUnknown g cx cy with
    | none =>
      have hdall := findUnknown_none_spec g cx cy hdb hfind
      have hsb : SameBoard g b := sameBoard_of_completion_determined hcomp hdall
      simp only [hfind]
      rw [← isGoodBoard_congr hsb]
      exact hgood
    | some p =>
      obtain ⟨ux, uy⟩ := p
      obtain ⟨hunk, hux, huy, hdb2⟩ := findUnknown_some_spec g cx cy ux uy hdb hfind
      have hbn : b.n = g.n := hcomp.1.1
      have hvr : 1 ≤ b.get ux uy ∧ b.get ux uy ≤ (g.n : Int) := by
        have := hcomp.2 ux (by rw [hbn]; exact hux) uy (by rw [hbn]; exact huy)
        rw [hbn] at this
        exact this
      have hnext : (bruteNodeF f (g.set ux uy (b.get ux uy)) ux uy).1 = true := by
        apply ih
        · have := unknownCount_set_lt g ux uy hux huy hunk (b.get ux uy) (by omega)
          omega
        · intro x hx y hy hbefore
          rw [get_set_other g ux uy x y _ (by
            rintro ⟨rfl, rfl⟩
            rcases hbefore with hlt | ⟨_, hxlt⟩ <;> omega)]
          exact hdb2 x hx y hy hbefore
        · refine ⟨b, ⟨⟨hbn, fun x hx y hy hdet => ?_⟩, hcomp.2⟩, hgood⟩
          by_cases hp : x = ux ∧ y = uy
          · obtain ⟨rfl, rfl⟩ := hp
            rw [get_set_same]
          · rw [get_set_other g ux uy x y _ hp] at hdet ⊢
            exact hcomp.1.2 x hx y hy hdet
      simp only [hfind]
      cases ht : bruteTry (fun h2 => bruteNodeF f h2 ux uy) ux uy g (valueList g.n) with
      | some gt => rfl
      | none =>
        exfalso
        have hall := bruteTry_none_elim _
          (fun h2 hh => bruteNodeF_fail_frame f h2 ux uy hh) g ux uy
          (valueList g.n) g (agreesExcept_refl g ux uy) ht
        have hmem : b.get ux uy ∈ valueList g.n := mem_valueList.mpr hvr
        rw [hall (b.get ux uy) hmem] at hnext
        cases hnext

/-! Accessors for the specification validity predicate. -/

theorem specFullValid_parts (b : Grid) (h : specFullValid b = true) :
    (∀ y < b.n, ∀ v : Int, 1 ≤ v → v ≤ (b.n : Int) →
      occCount b (rowCells b.n y) v = 1) ∧
    (∀ x < b.n, ∀ v : Int, 1 ≤ v → v ≤ (b.n : Int) →
      occCount b (colCells b.n x) v = 1) ∧
    (∀ bx < nRoot b.n, ∀ byy < nRoot b.n, ∀ v : Int, 1 ≤ v → v ≤ (b.n : Int) →
      occCount b (blockCells b.n (bx * nRoot b.n) (byy * nRoot b.n)) v = 1) := by
  unfold specFullValid at h
  rw [Bool.and_eq_true, Bool.and_eq_true] at h
  obtain ⟨⟨hr, hc⟩, hb⟩ := h
  rw [List.all_eq_true] at hr hc hb
  refine ⟨?_, ?_, ?_⟩
  · intro y hy v hv1 hv2
    have h1 := hr y (List.mem_range.mpr hy)
    rw [List.all_eq_true] at h1
    have h2 := h1 (v.toNat - 1) (List.mem_range.mpr (by omega))
    have hcast : ((v.toNat - 1 : Nat) : Int) + 1 = v := by omega
    rw [hcast] at h2
    simp only [beq_iff_eq] at h2
    exact h2
  · intro x hx v hv1 hv2
    have h1 := hc x (List.mem_range.mpr hx)
    rw [List.all_eq_true] at h1
    have h2 := h1 (v.toNat - 1) (List.mem_range.mpr (by omega))
    have hcast : ((v.toNat - 1 : Nat) : Int) + 1 = v := by omega
    rw [hcast] at h2
    simp only [beq_iff_eq] at h2
    exact h2
  · intro bx hbx byy hbyy v hv1 hv2
    have h1 := hb bx (List.mem_range.mpr hbx)
    rw [List.all_eq_true] at h1
    have h2 := h1 byy (List.mem_range.mpr hbyy)
    rw [List.all_eq_true] at h2
    have h3 := h2 (v.toNat - 1) (List.mem_range.mpr (by omega))
    have hcast : ((v.toNat - 1 : Nat) : Int) + 1 = v := by omega
    rw [hcast] at h3
    simp only [beq_iff_eq] at h3
    exact h3

/-! The value an accepted completion puts at the next unknown cell always
has its bit set in good_colors (below the wrap threshold). -/

theorem goodColors_land_of_completion (g b : Grid) (ux uy : Nat)
    (hwf : WfCells g) (hn31 : g.n ≤ 31) (hsq : nRoot g.n * nRoot g.n = g.n)
    (hux : ux < g.n) (huy : uy < g.n) (hunk : g.get ux uy = -1)
    (hcomp : CompletionOf g b) (hgood : isGoodBoard b = true) :
    goodColors g ux uy &&& pat64 (b.get ux uy) ≠ 0 := by
  have hbn : b.n = g.n := hcomp.1.1
  have hwfb : WfCells b := fun x hx y hy => Or.inr (hcomp.2 x hx y hy)
  have hbsq : nRoot b.n * nRoot b.n = b.n := by rw [hbn]; exact hsq
  have hspec := isGoodBoard_spec b hwfb (by rw [hbn]; exact hn31) hbsq hgood
  obtain ⟨hsr, hsc, hsb⟩ := specFullValid_parts b hspec
  rw [hbn] at hsr hsc hsb
  have hvr : 1 ≤ b.get ux uy ∧ b.get ux uy ≤ (g.n : Int) := by
    have hh := hcomp.2 ux (by rw [hbn]; exact hux) uy (by rw [hbn]; exact huy)
    rw [hbn] at hh
    exact hh
  have hnr0 : 0 < nRoot g.n := by
    by_contra hz
    have : nRoot g.n = 0 := by omega
    rw [this] at hsq
    omega
  have hbval : b.get ux uy = ((b.get ux uy).toNat - 1 : Nat) + 1 := by omega
  -- helper: an occurrence of the completion's value among the determined
  -- cells of a unit of g contradicts the unit count of b
  have hocc : ∀ (cells : List (Nat × Nat)),
      (∀ p ∈ cells, p.1 < g.n ∧ p.2 < g.n) →
      (ux, uy) ∈ cells →
      occCount b cells (b.get ux uy) = 1 →
      ∀ p ∈ cells, g.get p.1 p.2 ≠ -1 →
        (pat64 (g.get p.1 p.2)).testBit ((b.get ux uy).toNat - 1) = true → False := by
    intro cells hin hself hcnt p hp hdet hbit
    have hpin := hin p hp
    have harange : 1 ≤ g.get p.1 p.2 ∧ g.get p.1 p.2 ≤ (g.n : Int) := by
      rcases hwf p.1 hpin.1 p.2 hpin.2 with hu | hr2
      · exact absurd hu hdet
      · exact hr2
    have haval : g.get p.1 p.2 = b.get ux uy := by
      have := (pat64_testBit_small (g.get p.1 p.2) harange.1 (by omega)
        ((b.get ux uy).toNat - 1)).mp hbit
      omega
    have hbp : b.get p.1 p.2 = b.get ux uy := by
      rw [hcomp.1.2 p.1 hpin.1 p.2 hpin.2 hdet, haval]
    have hpne : p ≠ (ux, uy) := by
      intro he
      rw [he] at hdet
      exact hdet hunk
    have h2le : 2 ≤ cells.countP (fun q => b.get q.1 q.2 == b.get ux uy) := by
      refine countP_two cells _ p (ux, uy) hpne hp hself ?_ ?_
      · simp [hbp]
      · simp
    unfold occCount at hcnt
    omega
  apply land_ne_zero_of_common ((b.get ux uy).toNat - 1)
  · rw [goodColors_testBit g ux uy _ hn31]
    refine ⟨by omega, ?_, ?_, ?_⟩
    · by_contra hset
      rw [Bool.not_eq_false] at hset
      rw [show rowColors g uy = usedColors g (rowCells g.n uy) 0 from rfl] at hset
      rw [usedColors_testBit] at hset
      rcases hset with hmask | ⟨p, hp, hdet, hbit⟩
      · simp at hmask
      · refine hocc (rowCells g.n uy) ?_ ?_ ?_ p hp hdet hbit
        · intro q hq
          obtain ⟨x, hx, rfl⟩ := mem_rowCells.mp hq
          exact ⟨hx, huy⟩
        · exact mem_rowCells.mpr ⟨ux, hux, rfl⟩
        · exact hsr uy huy (b.get ux uy) hvr.1 hvr.2
    · by_contra hset
      rw [Bool.not_eq_false] at hset
      rw [show columnColors g ux = usedColors g (colCells g.n ux) 0 from rfl] at hset
      rw [usedColors_testBit] at hset
      rcases hset with hmask | ⟨p, hp, hdet, hbit⟩
      · simp at hmask
      · refine hocc (colCells g.n ux) ?_ ?_ ?_ p hp hdet hbit
        · intro q hq
          obtain ⟨y, hy, rfl⟩ := mem_colCells.mp hq
          exact ⟨hux, hy⟩
        · exact mem_colCells.mpr ⟨uy, huy, rfl⟩
        · exact hsc ux hux (b.get ux uy) hvr.1 hvr.2
    · by_contra hset
      rw [Bool.not_eq_false] at hset
      rw [show blockColors g ((ux / nRoot g.n) * nRoot g.n)
        ((uy / nRoot g.n) * nRoot g.n) = usedColors g
        (blockCells g.n ((ux / nRoot g.n) * nRoot g.n)
          ((uy / nRoot g.n) * nRoot g.n)) 0 from rfl] at hset
      rw [usedColors_testBit] at hset
      rcases hset with hmask | ⟨p, hp, hdet, hbit⟩
      · simp at hmask
      · have hdivx : ux / nRoot g.n < nRoot g.n := by
          rw [Nat.div_lt_iff_lt_mul hnr0, hsq]
          exact hux
        have hdivy : uy / nRoot g.n < nRoot g.n := by
          rw [Nat.div_lt_iff_lt_mul hnr0, hsq]
          exact huy
        refine hocc (blockCells g.n ((ux / nRoot g.n) * nRoot g.n)
          ((uy / nRoot g.n) * nRoot g.n)) ?_ ?_ ?_ p hp hdet hbit
        · intro q hq
          obtain ⟨xo, hxo, yo, hyo, rfl⟩ := mem_blockCells.mp hq
          constructor
          · have hcl := block_coord_lt hdivx hxo
            rw [hsq] at hcl
            exact hcl
          · have hcl := block_coord_lt hdivy hyo
            rw [hsq] at hcl
            exact hcl
        · refine mem_blockCells.mpr ⟨ux % nRoot g.n, Nat.mod_lt _ hnr0,
            uy % nRoot g.n, Nat.mod_lt _ hnr0, ?_⟩
          have h1 : ux / nRoot g.n * nRoot g.n + ux % nRoot g.n = ux :=
            Nat.div_add_mod' ux (nRoot g.n)
          have h2 : uy / nRoot g.n * nRoot g.n + uy % nRoot g.n = uy :=
            Nat.div_add_mod' uy (nRoot g.n)
          rw [h1, h2]
        · exact hsb (ux / nRoot g.n) hdivx (uy / nRoot g.n) hdivy
            (b.get ux uy) hvr.1 hvr.2
  · rw [pat64_testBit_small (b.get ux uy) hvr.1 (by omega)]
    omega

/-! Completeness of the constrained (colorability-style) search below the
shift wrap threshold: if the board has an accepted completion, color_node
finds one. -/

theorem colorNodeF_complete :
    ∀ (fuel : Nat) (g : Grid) (cx cy : Nat),
      unknownCount g < fuel →
      WfCells g → g.n ≤ 31 → nRoot g.n * nRoot g.n = g.n →
      DetBefore g cx cy →
      (∃ b, CompletionOf g b ∧ isGoodBoard b = true) →
      (colorNodeF fuel g cx cy).1 = true := by
  intro fuel
  induction fuel with
  | zero => intro g cx cy hf; omega
  | succ f ih =>
    rintro g cx cy hf hwf hn31 hsq hdb ⟨b, hcomp, hgood⟩
    rw [colorNodeF_succ]
    cases hfind : findUnknown g cx cy with
    | none =>
      have hdall := findUnknown_none_spec g cx cy hdb hfind
      have hsb : SameBoard g b := sameBoard_of_completion_determined hcomp hdall
      simp only [hfind]
      rw [← isGoodBoard_congr hsb]
      exact hgood
    | some p =>
      obtain ⟨ux, uy⟩ := p
      obtain ⟨hunk, hux, huy, hdb2⟩ := findUnknown_some_spec g cx cy ux uy hdb hfind
      have hbn : b.n = g.n := hcomp.1.1
      have hvr : 1 ≤ b.get ux uy ∧ b.get ux uy ≤ (g.n : Int) := by
        have := hcomp.2 ux (by rw [hbn]; exact hux) uy (by rw [hbn]; exact huy)
        rw [hbn] at this
        exact this
      have hnext : (colorNodeF f (g.set ux uy (b.get ux uy)) ux uy).1 = true := by
        apply ih
        · have := unknownCount_set_lt g ux uy hux huy hunk (b.get ux uy) (by omega)
          omega
        · exact wfCells_set g ux uy _ hvr.1 hvr.2 hwf
        · exact hn31
        · exact hsq
        · intro x hx y hy hbefore
          rw [get_set_other g ux uy x y _ (by
            rintro ⟨rfl, rfl⟩
            rcases hbefore with hlt | ⟨_, hxlt⟩ <;> omega)]
          exact hdb2 x hx y hy hbefore
        · refine ⟨b, ⟨⟨hbn, fun x hx y hy hdet => ?_⟩, hcomp.2⟩, hgood⟩
          by_cases hp : x = ux ∧ y = uy
          · obtain ⟨rfl, rfl⟩ := hp
            rw [get_set_same]
          · rw [get_set_other g ux uy x y _ hp] at hdet ⊢
            exact hcomp.1.2 x hx y hy hdet
      simp only [hfind]
      cases ht : colorTry (fun h2 => colorNodeF f h2 ux uy)
          (goodColors g ux uy) ux uy g (valueList g.n) with
      | some gt => rfl
      | none =>
        exfalso
        have hall := colorTry_none_elim _
          (fun h2 hh => colorNodeF_fail_frame f h2 ux uy hh)
          (goodColors g ux uy) g ux uy
          (valueList g.n) g (agreesExcept_refl g ux uy) ht
        have hmem : b.get ux uy ∈ valueList g.n := mem_valueList.mpr hvr
        have hcand : goodColors g ux uy &&& pat64 (b.get ux uy) ≠ 0 :=
          goodColors_land_of_completion g b ux uy hwf hn31 hsq hux huy hunk
            hcomp hgood
        rw [hall (b.get ux uy) hmem hcand] at hnext
        cases hnext

/-! Top-level search facts. -/

theorem detBefore_zero (g : Grid) : DetBefore g 0 0 := by
  intro x _ y _ h
  exfalso
  rcases h with h | ⟨_, h⟩ <;> omega

/-- A successful search outcome is a completion of its input that passes
the specification notion of full validity (side restricted to the loadable
perfect squares up to 64). -/

theorem success_gives_completion (g g2 : Grid) ( _hwf : WfCells g)
    (hsq : nRoot g.n * nRoot g.n = g.n) (hn64 : g.n ≤ 64)
    (hn : g2.n = g.n) (hext : ExtendsTo g g2) (hgood : isGoodBoard g2 = true)
    (hwf2 : WfCells g2) :
    CompletionOf g g2 ∧ specFullValid g2 = true := by
  have hn31 : g.n ≤ 31 := by
    by_contra hgt
    have h32 : g.n ≠ 32 := by
      intro he
      rw [he] at hsq
      exact absurd hsq (by decide)
    have hfalse := isGoodBoard_false_of_ge33 g2 (by omega)
    exact absurd (hgood.symm.trans hfalse) (by decide)
  have hdet : DeterminedAll g2 := isGoodBoard_determined g2 hgood
  have hcir : CellsInRange g2 := by
    intro x hx y hy
    rcases hwf2 x hx y hy with hu | hr
    · exact absurd hu (hdet x hx y hy)
    · exact hr
  refine ⟨⟨hext, hcir⟩, ?_⟩
  exact isGoodBoard_spec g2 hwf2 (by omega) (by rw [hn]; exact hsq) hgood

/-- The board with a repeated 1 in its first row has no valid completion:
any completion keeps both determined cells, so the value 1 occurs at least
twice in row 0 while the specification demands exactly one occurrence. -/

theorem g4dup_no_completion :
    ¬ ∃ b, CompletionOf g4dup b ∧ specFullValid b = true := by
  rintro ⟨b, ⟨⟨hbn, hkeep⟩, _⟩, hval⟩
  have hn4 : g4dup.n = 4 := rfl
  obtain ⟨hsr, _, _⟩ := specFullValid_parts b hval
  have h00 : b.get 0 0 = 1 := by
    have := hkeep 0 (by decide) 0 (by decide) (by decide)
    rw [this]
    decide
  have h10 : b.get 1 0 = 1 := by
    have := hkeep 1 (by decide) 0 (by decide) (by decide)
    rw [this]
    decide
  have hcnt := hsr 0 (by rw [hbn]; decide) 1 (by decide)
    (by rw [hbn, hn4]; decide)
  have h2le : 2 ≤ (rowCells b.n 0).countP (fun p => b.get p.1 p.2 == 1) := by
    refine countP_two _ _ (0, 0) (1, 0) (by decide) ?_ ?_ ?_ ?_
    · exact mem_rowCells.mpr ⟨0, by rw [hbn]; decide, rfl⟩
    · exact mem_rowCells.mpr ⟨1, by rw [hbn]; decide, rfl⟩
    · simp [h00]
    · simp [h10]
  unfold occCount at hcnt
  omega

/-- Under the loadable-side assumptions the two searches return the same
boolean, and a successful search output passes full validity. -/

theorem searches_agree (g : Grid) (hwf : WfCells g)
    (hsq : nRoot g.n * nRoot g.n = g.n) (hn64 : g.n ≤ 64) :
    (colorNode g).1 = (bruteNode g).1 ∧
    ((colorNode g).1 = true → specFullValid (colorNode g).2 = true) ∧
    ((bruteNode g).1 = true → specFullValid (bruteNode g).2 = true) := by
  have hcsound : (colorNode g).1 = true →
      CompletionOf g (colorNode g).2 ∧ specFullValid (colorNode g).2 = true := by
    intro htrue
    have hpair : colorNodeF (unknownCount g + 1) g 0 0 =
        (true, (colorNode g).2) := Prod.ext_iff.mpr ⟨htrue, rfl⟩
    obtain ⟨hn, hext, hgood, hwf2⟩ :=
      colorNodeF_sound (unknownCount g + 1) g 0 0 _ hpair
    exact success_gives_completion g _ hwf hsq hn64 hn hext hgood (hwf2 hwf)
  have hbsound : (bruteNode g).1 = true →
      CompletionOf g (bruteNode g).2 ∧ specFullValid (bruteNode g).2 = true := by
    intro htrue
    have hpair : bruteNodeF (unknownCount g + 1) g 0 0 =
        (true, (bruteNode g).2) := Prod.ext_iff.mpr ⟨htrue, rfl⟩
    obtain ⟨hn, hext, hgood, hwf2⟩ :=
      bruteNodeF_sound (unknownCount g + 1) g 0 0 _ hpair
    exact success_gives_completion g _ hwf hsq hn64 hn hext hgood (hwf2 hwf)
  refine ⟨?_, fun h => (hcsound h).2, fun h => (hbsound h).2⟩
  by_cases hex : ∃ b, CompletionOf g b ∧ isGoodBoard b = true
  · obtain ⟨b, hcomp, hgood⟩ := hex
    have hbn : b.n = g.n := hcomp.1.1
    have hn31 : g.n ≤ 31 := by
      by_contra hgt
      have h32 : g.n ≠ 32 := by
        intro he
        rw [he] at hsq
        exact absurd hsq (by decide)
      have hfalse := isGoodBoard_false_of_ge33 b (by omega)
      exact absurd (hgood.symm.trans hfalse) (by decide)
    have hc := colorNodeF_complete (unknownCount g + 1) g 0 0 (by omega)
      hwf hn31 hsq (detBefore_zero g) ⟨b, hcomp, hgood⟩
    have hb := bruteNodeF_complete (unknownCount g + 1) g 0 0 (by omega)
      (detBefore_zero g) ⟨b, hcomp, hgood⟩
    show (colorNodeF (unknownCount g + 1) g 0 0).1 =
      (bruteNodeF (unknownCount g + 1) g 0 0).1
    rw [hc, hb]
  · have hcf : (colorNode g).1 = false := by
      by_contra hct
      rw [Bool.not_eq_false] at hct
      have hpair : colorNodeF (unknownCount g + 1) g 0 0 =
          (true, (colorNode g).2) := Prod.ext_iff.mpr ⟨hct, rfl⟩
      obtain ⟨hn, hext, hgood, hwf2⟩ :=
        colorNodeF_sound (unknownCount g + 1) g 0 0 _ hpair
      have hdet : DeterminedAll (colorNode g).2 := isGoodBoard_determined _ hgood
      refine hex ⟨(colorNode g).2, ⟨⟨hext, ?_⟩, hgood⟩⟩
      intro x hx y hy
      rcases hwf2 hwf x hx y hy with hu | hr
      · exact absurd hu (hdet x hx y hy)
      · exact hr
    have hbf : (bruteNode g).1 = false := by
      by_contra hbt
      rw [Bool.not_eq_false] at hbt
      have hpair : bruteNodeF (unknownCount g + 1) g 0 0 =
          (true, (bruteNode g).2) := Prod.ext_iff.mpr ⟨hbt, rfl⟩
      obtain ⟨hn, hext, hgood, hwf2⟩ :=
        bruteNodeF_sound (unknownCount g + 1) g 0 0 _ hpair
      have hdet : DeterminedAll (bruteNode g).2 := isGoodBoard_determined _ hgood
      refine hex ⟨(bruteNode g).2, ⟨⟨hext, ?_⟩, hgood⟩⟩
      intro x hx y hy
      rcases hwf2 hwf x hx y hy with hu | hr
      · exact absurd hu (hdet x hx y hy)
      · exact hr
    rw [hcf, hbf]

/-- C3: for every board that passes partial validity and has at least one
undetermined cell (side a loadable perfect square at most 64, cells
well-formed), the constrained search color_node and the exhaustive search
bruteforce_node return the same success/failure boolean, and whenever
either succeeds the board it produces passes full validity (each value
exactly once in every row, column and block); the two produced boards need
not be identical. -/
theorem C3_searches_equivalent (g : Grid) (hwf : WfCells g)
    (hsq : nRoot g.n * nRoot g.n = g.n) (hn64 : g.n ≤ 64)
    ( _hpartial : isGoodPartialBoard g = true)
    ( _hinc : ∃ x < g.n, ∃ y < g.n, g.get x y = -1) :
    (colorNode g).1 = (bruteNode g).1 ∧
    ((colorNode g).1 = true → specFullValid (colorNode g).2 = true) ∧
    ((bruteNode g).1 = true → specFullValid (bruteNode g).2 = true) :=
  searches_agree g hwf hsq hn64

theorem C3_witness :
    (colorNode g4hole).1 = (bruteNode g4hole).1 ∧
    ((colorNode g4hole).1 = true → specFullValid (colorNode g4hole).2 = true) ∧
    ((bruteNode g4hole).1 = true → specFullValid (bruteNode g4hole).2 = true) :=
  C3_searches_equivalent g4hole (by unfold WfCells; decide) (by decide)
    (by decide) (by decide) ⟨0, by decide, 0, by decide, by decide⟩

/-- C4: whenever a recursive search call (color_node or bruteforce_node)
reports failure, the by-reference board it was handed is returned exactly
as it was before the call — mutation happens only on the success path;
consequently solve_colorability_style and solve_bruteforce_style leave the
stored grid (and the whole Sudoku state) unchanged when the puzzle has no
valid completion. -/
theorem C4_failure_frame :
    (∀ (fuel : Nat) (g : Grid) (cx cy : Nat),
      ((colorNodeF fuel g cx cy).1 = false → (colorNodeF fuel g cx cy).2 = g) ∧
      ((bruteNodeF fuel g cx cy).1 = false → (bruteNodeF fuel g cx cy).2 = g)) ∧
    ∀ (s : SudokuState), s.statusOk = true →
      WfCells s.grid → nRoot s.grid.n * nRoot s.grid.n = s.grid.n →
      s.grid.n ≤ 64 →
      (¬ ∃ b, CompletionOf s.grid b ∧ specFullValid b = true) →
      solveColorabilityStyle s = .ok s ∧ solveBruteforceStyle s = .ok s := by
  constructor
  · intro fuel g cx cy
    exact ⟨colorNodeF_fail_frame fuel g cx cy, bruteNodeF_fail_frame fuel g cx cy⟩
  · rintro ⟨g0, ok0⟩ hok hwf hsq hn64 hno
    have hok2 : ok0 = true := hok
    subst hok2
    have hcf : (colorNode g0).1 = false := by
      by_contra hct
      rw [Bool.not_eq_false] at hct
      have hpair : colorNodeF (unknownCount g0 + 1) g0 0 0 =
          (true, (colorNode g0).2) := Prod.ext_iff.mpr ⟨hct, rfl⟩
      obtain ⟨hn, hext, hgood, hwf2⟩ :=
        colorNodeF_sound (unknownCount g0 + 1) g0 0 0 _ hpair
      exact hno ⟨(colorNode g0).2,
        success_gives_completion g0 _ hwf hsq hn64 hn hext hgood (hwf2 hwf)⟩
    have hbf : (bruteNode g0).1 = false := by
      by_contra hbt
      rw [Bool.not_eq_false] at hbt
      have hpair : bruteNodeF (unknownCount g0 + 1) g0 0 0 =
          (true, (bruteNode g0).2) := Prod.ext_iff.mpr ⟨hbt, rfl⟩
      obtain ⟨hn, hext, hgood, hwf2⟩ :=
        bruteNodeF_sound (unknownCount g0 + 1) g0 0 0 _ hpair
      exact hno ⟨(bruteNode g0).2,
        success_gives_completion g0 _ hwf hsq hn64 hn hext hgood (hwf2 hwf)⟩
    constructor
    · show (Except.ok { grid := (colorNode g0).2, statusOk := true } :
          Except SudokuErr SudokuState) =
        Except.ok { grid := g0, statusOk := true }
      have h2 : (colorNode g0).2 = g0 :=
        colorNodeF_fail_frame (unknownCount g0 + 1) g0 0 0 hcf
      rw [h2]
    · show (Except.ok { grid := (bruteNode g0).2, statusOk := true } :
          Except SudokuErr SudokuState) =
        Except.ok { grid := g0, statusOk := true }
      have h2 : (bruteNode g0).2 = g0 :=
        bruteNodeF_fail_frame (unknownCount g0 + 1) g0 0 0 hbf
      rw [h2]

theorem C4_witness :
    (colorNodeF 0 g4dup 0 0).2 = g4dup ∧
    solveColorabilityStyle { grid := g4dup, statusOk := true } =
      .ok { grid := g4dup, statusOk := true } ∧
    solveBruteforceStyle { grid := g4dup, statusOk := true } =
      .ok { grid := g4dup, statusOk := true } := by
  have h := C4_failure_frame
  have h2 := h.2 { grid := g4dup, statusOk := true } rfl
    (by show WfCells g4dup; unfold WfCells; decide) (by decide)
    (by decide) g4dup_no_completion
  exact ⟨(h.1 0 g4dup 0 0).1 rfl, h2.1, h2.2⟩

/-! Board equality as a relation. -/

theorem sameBoard_symm {g b : Grid} (h : SameBoard g b) : SameBoard b g := by
  refine ⟨h.1.symm, fun x hx y hy => ?_⟩
  rw [h.1] at hx hy
  exact (h.2 x hx y hy).symm

theorem sameBoard_trans {g b c : Grid} (h1 : SameBoard g b) (h2 : SameBoard b c) :
    SameBoard g c := by
  refine ⟨h2.1.trans h1.1, fun x hx y hy => ?_⟩
  have hx2 : x < b.n := by rw [h1.1]; exact hx
  have hy2 : y < b.n := by rw [h1.1]; exact hy
  rw [h2.2 x hx2 y hy2, h1.2 x hx y hy]

theorem two_le_length_of_ne {α : Type} {l : List α} {a b : α}
    (ha : a ∈ l) (hb : b ∈ l) (hab : a ≠ b) : 2 ≤ l.length := by
  obtain ⟨s, t, rfl⟩ := List.append_of_mem ha
  rcases List.mem_append.mp hb with hs | hat
  · have := List.length_pos.mpr (List.ne_nil_of_mem hs)
    simp only [List.length_append, List.length_cons]
    omega
  · rcases List.mem_cons.mp hat with rfl | ht
    · exact absurd rfl hab
    · have := List.length_pos.mpr (List.ne_nil_of_mem ht)
      simp only [List.length_append, List.length_cons]
      omega

/-! Unfolding equations for the decider embedding. -/

theorem solsF_succ (f : Nat) (g : Grid) (cx cy : Nat) :
    solsF (f + 1) g cx cy =
      match findUnknown g cx cy with
      | some (ux, uy) =>
        ((valueList g.n).filter
          (fun i => goodColors g ux uy &&& pat64 i ≠ 0)).flatMap
          (fun i => solsF f (g.set ux uy i) ux uy)
      | none => if isGoodBoard g then [g] else [] := rfl

theorem deciderTry_nil (next : Grid → Bool → Int × Grid) (colors ux uy : Nat)
    (ng : Grid) (found : Bool) :
    deciderTry next colors ux uy ng found [] = if found then 1 else 0 := rfl

theorem deciderTry_cons (next : Grid → Bool → Int × Grid) (colors ux uy : Nat)
    (ng : Grid) (found : Bool) (c : Int) (rest : List Int) :
    deciderTry next colors ux uy ng found (c :: rest) =
      if colors &&& pat64 c ≠ 0 then
        (if (next (ng.set ux uy c) found).1 = 2 then 2
         else if (next (ng.set ux uy c) found).1 = 1 then
           deciderTry next colors ux uy (next (ng.set ux uy c) found).2 true rest
         else deciderTry next colors ux uy (next (ng.set ux uy c) found).2 found rest)
      else deciderTry next colors ux uy ng found rest := rfl

/-! Arithmetic facts about the reported code. -/

theorem deciderCode_two (found : Bool) (c : Nat) (h : 2 ≤ c) :
    deciderCode found c = 2 := by
  cases found
  · show (if c = 0 then 0 else if c = 1 then 1 else 2 : Int) = 2
    rw [if_neg (by omega), if_neg (by omega)]
  · show (if c = 0 then 1 else 2 : Int) = 2
    rw [if_neg (by omega)]

theorem deciderCode_true_pos (c : Nat) (h : c ≠ 0) : deciderCode true c = 2 := by
  show (if c = 0 then 1 else 2 : Int) = 2
  rw [if_neg h]

theorem deciderCode_one_add (s : Nat) :
    deciderCode false (1 + s) = deciderCode true s := by
  by_cases hs : s = 0
  · subst hs
    rfl
  · show (if 1 + s = 0 then 0 else if 1 + s = 1 then 1 else 2 : Int) =
      (if s = 0 then 1 else 2)
    rw [if_neg (by omega), if_neg (by omega), if_neg hs]

/-- The value loop of singular_decider reports, for the candidate values
still to scan, exactly the code determined by the inherited flag and the
number of accepted leaves below those candidates. -/

theorem deciderTry_count (f : Nat) (g : Grid) (ux uy : Nat) :
    ∀ (vals : List Int) (ng : Grid) (found : Bool),
      AgreesExcept g ng ux uy →
      (∀ i ∈ vals, ∀ fl, DeciderSpec fl (solsF f (g.set ux uy i) ux uy).length
        ((deciderF f (g.set ux uy i) fl ux uy).1)) →
      deciderTry (fun h fl => deciderF f h fl ux uy) (goodColors g ux uy) ux uy
          ng found vals =
        deciderCode found
          ((vals.filter (fun i => goodColors g ux uy &&& pat64 i ≠ 0)).flatMap
            (fun i => solsF f (g.set ux uy i) ux uy)).length := by
  intro vals
  induction vals with
  | nil =>
    intro ng found _ _
    rw [deciderTry_nil]
    cases found <;> simp [deciderCode]
  | cons c rest ih =>
    intro ng found hag hchild
    rw [deciderTry_cons]
    have hrest : ∀ i ∈ rest, ∀ fl, DeciderSpec fl
        (solsF f (g.set ux uy i) ux uy).length
        ((deciderF f (g.set ux uy i) fl ux uy).1) :=
      fun i hi fl => hchild i (List.mem_cons_of_mem c hi) fl
    by_cases hc : goodColors g ux uy &&& pat64 c ≠ 0
    · rw [if_pos hc]
      have hset : ng.set ux uy c = g.set ux uy c := agreesExcept_set_eq g ng ux uy c hag
      rw [hset]
      have hr2 : (deciderF f (g.set ux uy c) found ux uy).2 = g.set ux uy c :=
        deciderF_frame f (g.set ux uy c) found ux uy
      have hagnext : AgreesExcept g (g.set ux uy c) ux uy :=
        agreesExcept_set g g ux uy c (agreesExcept_refl g ux uy)
      have hfc : (c :: rest).filter
          (fun i => goodColors g ux uy &&& pat64 i ≠ 0) =
          c :: rest.filter (fun i => goodColors g ux uy &&& pat64 i ≠ 0) :=
        List.filter_cons_of_pos (by simpa using hc)
      rw [hfc, List.flatMap_cons, List.length_append]
      rw [hr2]
      have hcspec := hchild c (List.mem_cons_self c rest) found
      cases found with
      | false =>
        have hr1 : (deciderF f (g.set ux uy c) false ux uy).1 =
            deciderCode false (solsF f (g.set ux uy c) ux uy).length := hcspec
        rw [hr1]
        by_cases hL0 : (solsF f (g.set ux uy c) ux uy).length = 0
        · rw [hL0]
          rw [if_neg (by simp [deciderCode]), if_neg (by simp [deciderCode])]
          rw [ih (g.set ux uy c) false hagnext hrest, Nat.zero_add]
        · by_cases hL1 : (solsF f (g.set ux uy c) ux uy).length = 1
          · rw [hL1]
            rw [if_neg (by simp [deciderCode]), if_pos (by simp [deciderCode])]
            rw [ih (g.set ux uy c) true hagnext hrest, deciderCode_one_add]
          · rw [if_pos (deciderCode_two false _ (by omega))]
            rw [deciderCode_two false _ (by omega)]
      | true =>
        by_cases hL0 : (solsF f (g.set ux uy c) ux uy).length = 0
        · have hr01 : (deciderF f (g.set ux uy c) true ux uy).1 = 0 ∨
              (deciderF f (g.set ux uy c) true ux uy).1 = 1 := by
            unfold DeciderSpec at hcspec
            rw [if_pos rfl, if_pos hL0] at hcspec
            exact hcspec
          rw [hL0]
          rcases hr01 with h0 | h1
          · rw [h0]
            rw [if_neg (by decide), if_neg (by decide)]
            rw [ih (g.set ux uy c) true hagnext hrest, Nat.zero_add]
          · rw [h1]
            rw [if_neg (by decide), if_pos rfl]
            rw [ih (g.set ux uy c) true hagnext hrest, Nat.zero_add]
        · have hr2' : (deciderF f (g.set ux uy c) true ux uy).1 = 2 := by
            unfold DeciderSpec at hcspec
            rw [if_pos rfl, if_neg hL0] at hcspec
            exact hcspec
          rw [hr2', if_pos rfl]
          rw [deciderCode_true_pos _ (by omega)]
    · rw [if_neg hc]
      have hfc : (c :: rest).filter
          (fun i => goodColors g ux uy &&& pat64 i ≠ 0) =
          rest.filter (fun i => goodColors g ux uy &&& pat64 i ≠ 0) :=
        List.filter_cons_of_neg (by simpa using hc)
      rw [hfc]
      exact ih ng found hag hrest

/-- Any over-approximated node code of the exact form is an admissible
report. -/

theorem deciderSpec_code (found : Bool) (c : Nat) :
    DeciderSpec found c (deciderCode found c) := by
  cases found with
  | false => exact rfl
  | true =>
    by_cases hc : c = 0
    · subst hc
      exact Or.inr rfl
    · unfold DeciderSpec
      rw [if_pos rfl, if_neg hc]
      unfold deciderCode
      rw [if_pos rfl, if_neg hc]

/-- singular_decider reports exactly the code determined by its inherited
flag and the number of accepted leaves of its search tree. -/

theorem deciderF_code :
    ∀ (fuel : Nat) (g : Grid) (found : Bool) (cx cy : Nat),
      unknownCount g < fuel → DetBefore g cx cy →
      DeciderSpec found (solsF fuel g cx cy).length
        ((deciderF fuel g found cx cy).1) := by
  intro fuel
  induction fuel with
  | zero => intro g found cx cy hf; omega
  | succ f ih =>
    intro g found cx cy hf hdb
    rw [deciderF_succ, solsF_succ]
    cases hfind : findUnknown g cx cy with
    | none =>
      simp only [hfind]
      by_cases hg : isGoodBoard g = true
      · rw [if_pos hg, if_pos hg]
        cases found <;> exact rfl
      · rw [if_neg hg, if_neg hg]
        cases found with
        | false => exact rfl
        | true => exact Or.inl rfl
    | some p =>
      obtain ⟨ux, uy⟩ := p
      obtain ⟨hunk, hux, huy, hdb2⟩ := findUnknown_some_spec g cx cy ux uy hdb hfind
      simp only [hfind]
      have hloop := deciderTry_count f g ux uy (valueList g.n) g found
        (agreesExcept_refl g ux uy)
        (by
          intro i hi fl
          have hir := mem_valueList.mp hi
          apply ih
          · have := unknownCount_set_lt g ux uy hux huy hunk i (by omega)
            omega
          · intro x hx y hy hbefore
            rw [get_set_other g ux uy x y _ (by
              rintro ⟨rfl, rfl⟩
              rcases hbefore with hlt | ⟨_, hxlt⟩ <;> omega)]
            exact hdb2 x hx y hy hbefore)
      show DeciderSpec found
        (((valueList g.n).filter
          (fun i => goodColors g ux uy &&& pat64 i ≠ 0)).flatMap
          (fun i => solsF f (g.set ux uy i) ux uy)).length
        (deciderTry (fun h fl => deciderF f h fl ux uy) (goodColors g ux uy)
          ux uy g found (valueList g.n))
      rw [hloop]
      exact deciderSpec_code found _

/-- The top-level decider call reports exactly the capped count of
accepted leaves of the whole search tree. -/

theorem decider_code_eq (g : Grid) :
    (decider g).1 =
      deciderCode false (solsF (unknownCount g + 1) g 0 0).length :=
  deciderF_code (unknownCount g + 1) g false 0 0 (by omega) (detBefore_zero g)

/-- Every enumerated leaf passes the full-board check and keeps the
side. -/

theorem sols_good :
    ∀ (fuel : Nat) (g : Grid) (cx cy : Nat), ∀ b ∈ solsF fuel g cx cy,
      isGoodBoard b = true ∧ b.n = g.n := by
  intro fuel
  induction fuel with
  | zero => intro g cx cy b hb; cases hb
  | succ f ih =>
    intro g cx cy b hb
    rw [solsF_succ] at hb
    cases hfind : findUnknown g cx cy with
    | none =>
      rw [hfind] at hb
      by_cases hg : isGoodBoard g = true
      · rw [if_pos hg] at hb
        rcases List.mem_singleton.mp hb with rfl
        exact ⟨hg, rfl⟩
      · rw [if_neg hg] at hb
        cases hb
    | some p =>
      obtain ⟨ux, uy⟩ := p
      rw [hfind] at hb
      obtain ⟨i, hi, hmem⟩ := List.mem_flatMap.mp hb
      exact ih (g.set ux uy i) ux uy b hmem

/-- Every enumerated leaf is a completion of the node board (soundness of
the enumeration, on well-formed boards). -/

theorem sols_sound :
    ∀ (fuel : Nat) (g : Grid) (cx cy : Nat),
      unknownCount g < fuel → DetBefore g cx cy → WfCells g →
      ∀ b ∈ solsF fuel g cx cy,
        CompletionOf g b ∧ isGoodBoard b = true := by
  intro fuel
  induction fuel with
  | zero => intro g cx cy hf; omega
  | succ f ih =>
    intro g cx cy hf hdb hwf b hb
    rw [solsF_succ] at hb
    cases hfind : findUnknown g cx cy with
    | none =>
      rw [hfind] at hb
      by_cases hg : isGoodBoard g = true
      · rw [if_pos hg] at hb
        rcases List.mem_singleton.mp hb with rfl
        have hdet : DeterminedAll b := isGoodBoard_determined b hg
        refine ⟨⟨extendsTo_refl b, ?_⟩, hg⟩
        intro x hx y hy
        rcases hwf x hx y hy with hu | hr
        · exact absurd hu (hdet x hx y hy)
        · exact hr
      · rw [if_neg hg] at hb
        cases hb
    | some p =>
      obtain ⟨ux, uy⟩ := p
      rw [hfind] at hb
      obtain ⟨hunk, hux, huy, hdb2⟩ := findUnknown_some_spec g cx cy ux uy hdb hfind
      obtain ⟨i, hi, hmem⟩ := List.mem_flatMap.mp hb
      have hir := mem_valueList.mp (List.mem_filter.mp hi).1
      have hchild := ih (g.set ux uy i) ux uy
        (by
          have := unknownCount_set_lt g ux uy hux huy hunk i (by omega)
          omega)
        (by
          intro x hx y hy hbefore
          rw [get_set_other g ux uy x y _ (by
            rintro ⟨rfl, rfl⟩
            rcases hbefore with hlt | ⟨_, hxlt⟩ <;> omega)]
          exact hdb2 x hx y hy hbefore)
        (wfCells_set g ux uy i hir.1 hir.2 hwf) b hmem
      exact ⟨⟨extendsTo_trans (extendsTo_set g ux uy i hunk) hchild.1.1, hchild.1.2⟩,
        hchild.2⟩

/-- Every accepted completion appears in the enumeration, up to cell-wise
equality (completeness, below the wrap threshold). -/

theorem sols_complete :
    ∀ (fuel : Nat) (g : Grid) (cx cy : Nat),
      unknownCount g < fuel → DetBefore g cx cy → WfCells g →
      g.n ≤ 31 → nRoot g.n * nRoot g.n = g.n →
      ∀ b, CompletionOf g b → isGoodBoard b = true →
        ∃ r ∈ solsF fuel g cx cy, SameBoard b r := by
  intro fuel
  induction fuel with
  | zero => intro g cx cy hf; omega
  | succ f ih =>
    intro g cx cy hf hdb hwf hn31 hsq b hcomp hgood
    rw [solsF_succ]
    cases hfind : findUnknown g cx cy with
    | none =>
      have hdall := findUnknown_none_spec g cx cy hdb hfind
      have hsb : SameBoard g b := sameBoard_of_completion_determined hcomp hdall
      have hg : isGoodBoard g = true := by
        rw [← isGoodBoard_congr hsb]
        exact hgood
      simp only [hfind]
      rw [if_pos hg]
      exact ⟨g, List.mem_singleton.mpr rfl, sameBoard_symm hsb⟩
    | some p =>
      obtain ⟨ux, uy⟩ := p
      obtain ⟨hunk, hux, huy, hdb2⟩ := findUnknown_some_spec g cx cy ux uy hdb hfind
      have hbn : b.n = g.n := hcomp.1.1
      have hvr : 1 ≤ b.get ux uy ∧ b.get ux uy ≤ (g.n : Int) := by
        have := hcomp.2 ux (by rw [hbn]; exact hux) uy (by rw [hbn]; exact huy)
        rw [hbn] at this
        exact this
      have hcand : goodColors g ux uy &&& pat64 (b.get ux uy) ≠ 0 :=
        goodColors_land_of_completion g b ux uy hwf hn31 hsq hux huy hunk
          hcomp hgood
      have hcompset : CompletionOf (g.set ux uy (b.get ux uy)) b := by
        refine ⟨⟨hbn, fun x hx y hy hdet => ?_⟩, hcomp.2⟩
        by_cases hp : x = ux ∧ y = uy
        · obtain ⟨rfl, rfl⟩ := hp
          rw [get_set_same]
        · rw [get_set_other g ux uy x y _ hp] at hdet ⊢
          exact hcomp.1.2 x hx y hy hdet
      obtain ⟨r, hr, hsbr⟩ := ih (g.set ux uy (b.get ux uy)) ux uy
        (by
          have := unknownCount_set_lt g ux uy hux huy hunk (b.get ux uy) (by omega)
          omega)
        (by
          intro x hx y hy hbefore
          rw [get_set_other g ux uy x y _ (by
            rintro ⟨rfl, rfl⟩
            rcases hbefore with hlt | ⟨_, hxlt⟩ <;> omega)]
          exact hdb2 x hx y hy hbefore)
        (wfCells_set g ux uy _ hvr.1 hvr.2 hwf) hn31 hsq b hcompset hgood
      simp only [hfind]
      refine ⟨r, List.mem_flatMap.mpr ⟨b.get ux uy, ?_, hr⟩, hsbr⟩
      exact List.mem_filter.mpr ⟨mem_valueList.mpr hvr, by simpa using hcand⟩

/-! No two enumerated leaves agree on every cell. -/

theorem pairwise_flatMap_of {α β : Type} (R : β → β → Prop) (f : α → List β) :
    ∀ (l : List α), (∀ a ∈ l, (f a).Pairwise R) →
      l.Pairwise (fun a b => ∀ x ∈ f a, ∀ y ∈ f b, R x y) →
      (l.flatMap f).Pairwise R := by
  intro l
  induction l with
  | nil => intro _ _; exact List.Pairwise.nil
  | cons a t ih =>
    intro h1 h2
    rw [List.flatMap_cons]
    apply List.pairwise_append.mpr
    obtain ⟨hcross, htail⟩ := List.pairwise_cons.mp h2
    refine ⟨h1 a (List.mem_cons_self a t),
      ih (fun b hb => h1 b (List.mem_cons_of_mem a hb)) htail, ?_⟩
    intro x hx y hy
    obtain ⟨b, hb, hyb⟩ := List.mem_flatMap.mp hy
    exact hcross b hb x hx y hyb

theorem sols_pairwise :
    ∀ (fuel : Nat) (g : Grid) (cx cy : Nat),
      unknownCount g < fuel → DetBefore g cx cy → WfCells g →
      (solsF fuel g cx cy).Pairwise (fun a b => ¬ SameBoard a b) := by
  intro fuel
  induction fuel with
  | zero => intro g cx cy hf; omega
  | succ f ih =>
    intro g cx cy hf hdb hwf
    rw [solsF_succ]
    cases hfind : findUnknown g cx cy with
    | none =>
      simp only [hfind]
      by_cases hg : isGoodBoard g = true
      · rw [if_pos hg]
        exact List.pairwise_singleton _ _
      · rw [if_neg hg]
        exact List.Pairwise.nil
    | some p =>
      obtain ⟨ux, uy⟩ := p
      obtain ⟨hunk, hux, huy, hdb2⟩ := findUnknown_some_spec g cx cy ux uy hdb hfind
      simp only [hfind]
      have hfuel : ∀ i : Int, 1 ≤ i →
          unknownCount (g.set ux uy i) < f := by
        intro i hi
        have := unknownCount_set_lt g ux uy hux huy hunk i (by omega)
        omega
      have hdbset : ∀ i : Int, DetBefore (g.set ux uy i) ux uy := by
        intro i x hx y hy hbefore
        rw [get_set_other g ux uy x y _ (by
          rintro ⟨rfl, rfl⟩
          rcases hbefore with hlt | ⟨_, hxlt⟩ <;> omega)]
        exact hdb2 x hx y hy hbefore
      apply pairwise_flatMap_of
      · intro i hi
        have hir := mem_valueList.mp (List.mem_filter.mp hi).1
        exact ih (g.set ux uy i) ux uy (hfuel i hir.1) (hdbset i)
          (wfCells_set g ux uy i hir.1 hir.2 hwf)
      · have hnd : ((valueList g.n).filter
            (fun i => goodColors g ux uy &&& pat64 i ≠ 0)).Nodup :=
          (valueList_nodup g.n).filter _
        refine List.Pairwise.imp_of_mem ?_ hnd
        intro i j hi hj hij x hx y hy
        have hir := mem_valueList.mp (List.mem_filter.mp hi).1
        have hjr := mem_valueList.mp (List.mem_filter.mp hj).1
        have hxs := sols_sound f (g.set ux uy i) ux uy (hfuel i hir.1)
          (hdbset i) (wfCells_set g ux uy i hir.1 hir.2 hwf) x hx
        have hys := sols_sound f (g.set ux uy j) ux uy (hfuel j hjr.1)
          (hdbset j) (wfCells_set g ux uy j hjr.1 hjr.2 hwf) y hy
        have hxn : x.n = g.n := hxs.1.1.1
        have hxi : x.get ux uy = i := by
          have := hxs.1.1.2 ux hux uy huy (by
            rw [get_set_same]
            omega)
          rw [get_set_same] at this
          exact this
        have hyj : y.get ux uy = j := by
          have := hys.1.1.2 ux hux uy huy (by
            rw [get_set_same]
            omega)
          rw [get_set_same] at this
          exact this
        intro hsb
        have := hsb.2 ux (by rw [hxn]; exact hux) uy (by rw [hxn]; exact huy)
        rw [hxi, hyj] at this
        exact hij this.symm

/-- The enumeration has exactly one entry iff the puzzle has exactly one
accepted completion. -/

theorem sols_length_one_iff (g : Grid) (hwf : WfCells g)
    (hn31 : g.n ≤ 31) (hsq : nRoot g.n * nRoot g.n = g.n) :
    (solsF (unknownCount g + 1) g 0 0).length = 1 ↔ UniqueCompletion g := by
  have hf : unknownCount g < unknownCount g + 1 := by omega
  have hdb := detBefore_zero g
  constructor
  · intro hlen
    cases hsols : solsF (unknownCount g + 1) g 0 0 with
    | nil =>
      rw [hsols] at hlen
      cases hlen
    | cons r t =>
      rw [hsols] at hlen
      have ht : t = [] := by
        cases t with
        | nil => rfl
        | cons _ _ => simp at hlen
      subst ht
      have hr := sols_sound _ g 0 0 hf hdb hwf r
        (by rw [hsols]; exact List.mem_singleton.mpr rfl)
      refine ⟨r, hr.1, hr.2, ?_⟩
      intro b2 hcomp2 hgood2
      obtain ⟨r2, hr2mem, hsb2⟩ := sols_complete _ g 0 0 hf hdb hwf hn31 hsq
        b2 hcomp2 hgood2
      rw [hsols] at hr2mem
      rcases List.mem_singleton.mp hr2mem with rfl
      exact sameBoard_symm hsb2
  · rintro ⟨b, hcomp, hgood, huniq⟩
    obtain ⟨r, hrmem, hsbr⟩ := sols_complete _ g 0 0 hf hdb hwf hn31 hsq
      b hcomp hgood
    cases hsols : solsF (unknownCount g + 1) g 0 0 with
    | nil =>
      rw [hsols] at hrmem
      cases hrmem
    | cons a t =>
      cases t with
      | nil => rfl
      | cons a2 t2 =>
        exfalso
        have hpw := sols_pairwise _ g 0 0 hf hdb hwf
        rw [hsols] at hpw
        have hnsb : ¬ SameBoard a a2 :=
          (List.pairwise_cons.mp hpw).1 a2 (List.mem_cons_self a2 t2)
        have ha := sols_sound _ g 0 0 hf hdb hwf a
          (by rw [hsols]; exact List.mem_cons_self _ _)
        have ha2 := sols_sound _ g 0 0 hf hdb hwf a2
          (by rw [hsols]; exact List.mem_cons_of_mem _ (List.mem_cons_self _ _))
        have h1 := huniq a ha.1 ha.2
        have h2 := huniq a2 ha2.1 ha2.2
        exact hnsb (sameBoard_trans (sameBoard_symm h1) h2)

theorem deciderCode_false_eq_one (c : Nat) :
    deciderCode false c = 1 ↔ c = 1 := by
  constructor
  · intro h
    by_cases h0 : c = 0
    · rw [show deciderCode false c = (if c = 0 then 0 else if c = 1 then 1 else 2 : Int)
        from rfl, if_pos h0] at h
      exact absurd h (by decide)
    · by_cases h1 : c = 1
      · exact h1
      · rw [show deciderCode false c = (if c = 0 then 0 else if c = 1 then 1 else 2 : Int)
          from rfl, if_neg h0, if_neg h1] at h
        exact absurd h (by decide)
  · intro h
    subst h
    rfl

/-- C1: on every successfully loaded board (loaded boards are ready, have
well-formed cells on a perfect-square side of at most 64, and pass the
partial-validity check), singular returns true exactly when there is one
and only one assignment of values in [1, N] to the undetermined cells
whose result passes the full-validity check; moreover the value loop of
singular_decider returns MULTIPLE the moment a child call reports it,
without examining any further sibling value. -/
theorem C1_singular_iff_unique :
    (∀ (s : SudokuState) (b : Bool) (s2 : SudokuState),
      s.statusOk = true → WfCells s.grid →
      nRoot s.grid.n * nRoot s.grid.n = s.grid.n → s.grid.n ≤ 64 →
      validate s.grid = true →
      singular s = .ok (b, s2) →
      (b = true ↔ UniqueCompletion s.grid)) ∧
    (∀ (next : Grid → Bool → Int × Grid) (colors ux uy : Nat) (ng : Grid)
      (found : Bool) (c : Int) (rest : List Int),
      colors &&& pat64 c ≠ 0 → (next (ng.set ux uy c) found).1 = 2 →
      deciderTry next colors ux uy ng found (c :: rest) = 2) := by
  constructor
  · rintro ⟨g0, ok0⟩ b s2 hok hwf hsq hn64 hval hsing
    have hok2 : ok0 = true := hok
    subst hok2
    have hwf0 : WfCells g0 := hwf
    have hsq0 : nRoot g0.n * nRoot g0.n = g0.n := hsq
    have hn640 : g0.n ≤ 64 := hn64
    unfold singular at hsing
    rw [if_neg (by simp), if_pos hval] at hsing
    have hsing2 : Except.ok ((decider g0).1 == 1,
        ({ grid := (decider g0).2, statusOk := true } : SudokuState)) =
        Except.ok (b, s2) := hsing
    have hpair := Except.ok.inj hsing2
    have hb : ((decider g0).1 == 1) = b := congrArg Prod.fst hpair
    show b = true ↔ UniqueCompletion g0
    rw [← hb, beq_iff_eq, decider_code_eq g0, deciderCode_false_eq_one]
    by_cases hn31 : g0.n ≤ 31
    · exact sols_length_one_iff g0 hwf0 hn31 hsq0
    · have h33 : 33 ≤ g0.n := by
        rcases Nat.lt_or_ge g0.n 33 with hlt | hge
        · have h32 : g0.n = 32 := by omega
          rw [h32] at hsq0
          exact absurd hsq0 (by decide)
        · exact hge
      have hempty : solsF (unknownCount g0 + 1) g0 0 0 = [] := by
        rw [List.eq_nil_iff_forall_not_mem]
        intro r hr
        have hrg := sols_good _ g0 0 0 r hr
        have := isGoodBoard_false_of_ge33 r (by omega)
        exact absurd (hrg.1.symm.trans this) (by decide)
      rw [hempty]
      refine iff_of_false (by decide) ?_
      rintro ⟨r, hcomp, hgood, _⟩
      have hrn : r.n = g0.n := hcomp.1.1
      have := isGoodBoard_false_of_ge33 r (by omega)
      exact absurd (hgood.symm.trans this) (by decide)
  · intro next colors ux uy ng found c rest hc h2
    rw [deciderTry_cons, if_pos hc, h2, if_pos rfl]

theorem C1_witness :
    (((decider g4hole).1 == 1) = true ↔ UniqueCompletion g4hole) ∧
    deciderTry (fun _ _ => ((2 : Int), g4hole)) 1 0 0 g4hole false [1, 5] = 2 := by
  have h := C1_singular_iff_unique
  constructor
  · exact h.1 { grid := g4hole, statusOk := true } ((decider g4hole).1 == 1)
      { grid := (decider g4hole).2, statusOk := true } rfl
      (by show WfCells g4hole; unfold WfCells; decide) (by decide) (by decide)
      (by decide) rfl
  · exact h.2 (fun _ _ => ((2 : Int), g4hole)) 1 0 0 g4hole false 1 [5]
      (by decide) rfl

/-! String-level lemmas for the render / parse round trip. -/

theorem repl_cons_safe (c : Char) (rest : List Char) (h : c ≠ '-') :
    replaceAllNeg1 (c :: rest) = c :: replaceAllNeg1 rest := by
  rw [replaceAllNeg1.eq_def]
  split
  · next heq =>
    injection heq with h1 _
    exact absurd h1 h
  · next heq =>
    injection heq with h1 h2
    rw [h1, h2]
  · next heq => cases heq

theorem repl_neg1 (rest : List Char) :
    replaceAllNeg1 ('-' :: '1' :: rest) = '?' :: replaceAllNeg1 rest := rfl

theorem repl_append_safe (a b : List Char) (h : ∀ c ∈ a, c ≠ '-') :
    replaceAllNeg1 (a ++ b) = a ++ replaceAllNeg1 b := by
  induction a with
  | nil => rfl
  | cons c a' ih =>
    rw [List.cons_append,
      repl_cons_safe c _ (h c (List.mem_cons_self c a')),
      ih (fun d hd => h d (List.mem_cons_of_mem c hd))]
    rfl

theorem splitSp_spacefree (t : List Char) (h : ∀ c ∈ t, c ≠ ' ') :
    splitSp t = [t] := by
  induction t with
  | nil => rfl
  | cons c rest ih =>
    have hc : c ≠ ' ' := h c (List.mem_cons_self c rest)
    have hr := ih (fun d hd => h d (List.mem_cons_of_mem c hd))
    simp only [splitSp, hr]
    rw [if_neg hc]

theorem splitSp_append (t rest : List Char) (h : ∀ c ∈ t, c ≠ ' ') :
    splitSp (t ++ ' ' :: rest) = t :: splitSp rest := by
  induction t with
  | nil =>
    simp [splitSp]
  | cons c t' ih =>
    have hc : c ≠ ' ' := h c (List.mem_cons_self c t')
    have hr := ih (fun d hd => h d (List.mem_cons_of_mem c hd))
    simp only [List.cons_append, splitSp, List.append_eq, hr]
    rw [if_neg hc]

theorem intercalate_cons_two (sep a b : List Char) (l : List (List Char)) :
    List.intercalate sep (a :: b :: l) =
      a ++ sep ++ List.intercalate sep (b :: l) := by
  simp [List.intercalate, List.intersperse]

theorem splitSp_intercalate :
    ∀ (ts : List (List Char)), ts ≠ [] →
      (∀ t ∈ ts, ∀ c ∈ t, c ≠ ' ') →
      splitSp (List.intercalate [' '] ts) = ts := by
  intro ts
  induction ts with
  | nil => intro h; exact absurd rfl h
  | cons t ts' ih =>
    intro _ hfree
    cases ts' with
    | nil =>
      rw [show List.intercalate [' '] [t] = t by simp [List.intercalate]]
      exact splitSp_spacefree t (hfree t (List.mem_cons_self t []))
    | cons t2 ts'' =>
      rw [intercalate_cons_two]
      rw [List.append_assoc]
      rw [show [' '] ++ List.intercalate [' '] (t2 :: ts'') =
        ' ' :: List.intercalate [' '] (t2 :: ts'') from rfl]
      rw [splitSp_append t _ (hfree t (List.mem_cons_self t (t2 :: ts'')))]
      rw [ih (by simp) (fun u hu => hfree u (List.mem_cons_of_mem t hu))]

theorem getline_append (line rest : List Char) (h : ∀ c ∈ line, c ≠ '\n') :
    getline (line ++ '\n' :: rest) = (line, rest) := by
  induction line with
  | nil =>
    simp [getline]
  | cons c l ih =>
    have hc : c ≠ '\n' := h c (List.mem_cons_self c l)
    simp only [List.cons_append, getline, List.append_eq,
      ih (fun d hd => h d (List.mem_cons_of_mem c hd))]
    rw [if_neg hc]

theorem getline_nonl (line : List Char) (h : ∀ c ∈ line, c ≠ '\n') :
    getline line = (line, []) := by
  induction line with
  | nil => rfl
  | cons c l ih =>
    have hc : c ≠ '\n' := h c (List.mem_cons_self c l)
    simp only [getline, ih (fun d hd => h d (List.mem_cons_of_mem c hd))]
    rw [if_neg hc]

/-! Facts about the decimal rendering of the loadable values, settled by
computation. -/

theorem natToChars_chars : ∀ v : Nat, v < 65 →
    natToChars v ≠ [] ∧
    ∀ c ∈ natToChars v, c ≠ ' ' ∧ c ≠ '\n' ∧ c ≠ '-' := by decide

theorem stoi_natToChars_opt : ∀ v : Nat, v < 65 → 1 ≤ v →
    (stoiCore (natToChars v)).toOption = some (v : Int) := by decide

theorem except_eq_ok_of_toOption {ε α : Type} (e : Except ε α) (x : α)
    (h : e.toOption = some x) : e = .ok x := by
  cases e with
  | error e2 => simp [Except.toOption] at h
  | ok y =>
    simp only [Except.toOption, Option.some.injEq] at h
    rw [h]

theorem stoi_natToChars (v : Nat) (h65 : v < 65) (h1 : 1 ≤ v) :
    stoiCore (natToChars v) = .ok (v : Int) :=
  except_eq_ok_of_toOption _ _ (stoi_natToChars_opt v h65 h1)

/-! The minus-one replacement turns the raw grid text into the question
mark rendering, cell by cell. -/

theorem repl_token (g : Grid) (x y : Nat)
    (hc : g.get x y = -1 ∨ (1 ≤ g.get x y ∧ g.get x y ≤ 64)) (X : List Char) :
    replaceAllNeg1 (intToChars (g.get x y) ++ X) =
      renderCell g x y ++ replaceAllNeg1 X := by
  rcases hc with hneg | hpos
  · rw [hneg]
    rw [show intToChars (-1) = ['-', '1'] from rfl]
    rw [show renderCell g x y = ['?'] by unfold renderCell; rw [hneg, if_pos rfl]]
    exact repl_neg1 X
  · have hv : (g.get x y).toNat < 65 := by omega
    have htok := natToChars_chars (g.get x y).toNat hv
    rw [show intToChars (g.get x y) = natToChars (g.get x y).toNat by
      unfold intToChars; rw [if_neg (by omega)]]
    rw [show renderCell g x y = natToChars (g.get x y).toNat by
      unfold renderCell; rw [if_neg (by omega)]]
    exact repl_append_safe _ X (fun c hcm => ((htok.2 c hcm).2.2))

theorem repl_row (g : Grid) (y : Nat) :
    ∀ (xs : List Nat) (cont : List Char),
      (∀ x ∈ xs, g.get x y = -1 ∨ (1 ≤ g.get x y ∧ g.get x y ≤ 64)) →
      replaceAllNeg1
          (List.intercalate [' ']
            (xs.map (fun x => intToChars (g.get x y))) ++ cont) =
        List.intercalate [' '] (xs.map (fun x => renderCell g x y)) ++
          replaceAllNeg1 cont := by
  intro xs
  induction xs with
  | nil => intro cont _; rfl
  | cons x xs' ih =>
    intro cont hcells
    have hx := hcells x (List.mem_cons_self x xs')
    cases xs' with
    | nil =>
      simp only [List.map_cons, List.map_nil]
      rw [show List.intercalate [' '] [intToChars (g.get x y)] =
        intToChars (g.get x y) by simp [List.intercalate]]
      rw [show List.intercalate [' '] [renderCell g x y] =
        renderCell g x y by simp [List.intercalate]]
      exact repl_token g x y hx cont
    | cons x2 xs'' =>
      simp only [List.map_cons] at ih ⊢
      rw [intercalate_cons_two, intercalate_cons_two]
      rw [List.append_assoc, List.append_assoc, List.append_assoc]
      rw [show ([' '] : List Char) ++
        (List.intercalate [' ']
          (intToChars (g.get x2 y) :: xs''.map (fun x => intToChars (g.get x y))) ++ cont) =
        ' ' :: (List.intercalate [' ']
          (intToChars (g.get x2 y) :: xs''.map (fun x => intToChars (g.get x y))) ++ cont)
        from rfl]
      rw [repl_token g x y hx]
      rw [repl_cons_safe ' ' _ (by decide)]
      rw [ih _ (fun x3 hx3 => hcells x3 (List.mem_cons_of_mem x hx3))]
      simp [List.append_assoc]

theorem repl_gridAux (g : Grid)
    (hwf : ∀ y < g.n, ∀ x ∈ List.range g.n,
      g.get x y = -1 ∨ (1 ≤ g.get x y ∧ g.get x y ≤ 64)) :
    ∀ (ys : List Nat) (cont : List Char), (∀ y2 ∈ ys, y2 < g.n) →
      replaceAllNeg1
          (List.intercalate ['\n'] (ys.map (fun y => rowToChars g y)) ++ cont) =
        List.intercalate ['\n'] (ys.map (fun y => renderRow g y)) ++
          replaceAllNeg1 cont := by
  intro ys
  induction ys with
  | nil => intro cont _; rfl
  | cons y ys' ih =>
    intro cont hys
    have hy := hys y (List.mem_cons_self y ys')
    cases ys' with
    | nil =>
      simp only [List.map_cons, List.map_nil]
      rw [show List.intercalate ['\n'] [rowToChars g y] = rowToChars g y by
        simp [List.intercalate]]
      rw [show List.intercalate ['\n'] [renderRow g y] = renderRow g y by
        simp [List.intercalate]]
      exact repl_row g y (List.range g.n) cont (hwf y hy)
    | cons y2 ys'' =>
      simp only [List.map_cons] at ih ⊢
      rw [intercalate_cons_two, intercalate_cons_two]
      rw [List.append_assoc, List.append_assoc, List.append_assoc]
      rw [show (['\n'] : List Char) ++
        (List.intercalate ['\n']
          (rowToChars g y2 :: ys''.map (fun y3 => rowToChars g y3)) ++ cont) =
        '\n' :: (List.intercalate ['\n']
          (rowToChars g y2 :: ys''.map (fun y3 => rowToChars g y3)) ++ cont)
        from rfl]
      rw [show rowToChars g y = List.intercalate [' ']
        ((List.range g.n).map (fun x => intToChars (g.get x y))) from rfl]
      rw [show renderRow g y = List.intercalate [' ']
        ((List.range g.n).map (fun x => renderCell g x y)) from rfl]
      rw [repl_row g y (List.range g.n) _ (hwf y hy)]
      rw [repl_cons_safe '\n' _ (by decide)]
      rw [ih _ (fun y3 hy3 => hys y3 (List.mem_cons_of_mem y hy3))]
      simp [List.append_assoc]

/-- On a well-formed board of loadable side, to_s renders every
undetermined cell as a question mark and every determined cell in
decimal. -/

theorem sudokuToS_eq_renderGrid (s : SudokuState) (hwf : WfCells s.grid)
    (hn64 : s.grid.n ≤ 64) :
    sudokuToS s = renderGrid s.grid := by
  unfold sudokuToS renderGrid Grid.toS
  have h := repl_gridAux s.grid
    (by
      intro y hy x hx
      rcases hwf x (List.mem_range.mp hx) y hy with hu | hr
      · exact Or.inl hu
      · right
        refine ⟨hr.1, ?_⟩
        have : (s.grid.n : Int) ≤ 64 := by exact_mod_cast hn64
        omega)
    (List.range s.grid.n) [] (fun y2 hy2 => List.mem_range.mp hy2)
  rw [List.append_nil] at h
  rw [show replaceAllNeg1 [] = ([] : List Char) from rfl, List.append_nil] at h
  exact h

/-! Character facts about the rendered cells and rows. -/

theorem renderCell_chars (g : Grid) (x y : Nat)
    (hc : g.get x y = -1 ∨ (1 ≤ g.get x y ∧ g.get x y ≤ 64)) :
    renderCell g x y ≠ [] ∧ ∀ c ∈ renderCell g x y, c ≠ ' ' ∧ c ≠ '\n' := by
  rcases hc with hneg | hpos
  · rw [show renderCell g x y = ['?'] by unfold renderCell; rw [hneg, if_pos rfl]]
    refine ⟨by decide, ?_⟩
    intro c hc2
    rcases List.mem_singleton.mp hc2 with rfl
    exact ⟨by decide, by decide⟩
  · rw [show renderCell g x y = natToChars (g.get x y).toNat by
      unfold renderCell; rw [if_neg (by omega)]]
    have h := natToChars_chars (g.get x y).toNat (by omega)
    exact ⟨h.1, fun c hc2 => ⟨(h.2 c hc2).1, (h.2 c hc2).2.1⟩⟩

theorem stoi_renderCell_det (g : Grid) (x y : Nat)
    (h1 : 1 ≤ g.get x y) (h64 : g.get x y ≤ 64) :
    stoiCore (renderCell g x y) = .ok (g.get x y) := by
  rw [show renderCell g x y = natToChars (g.get x y).toNat by
    unfold renderCell; rw [if_neg (by omega)]]
  rw [stoi_natToChars (g.get x y).toNat (by omega) (by omega)]
  congr 1
  omega

theorem stoi_renderCell_unk (g : Grid) (x y : Nat) (h : g.get x y = -1) :
    stoiCore (renderCell g x y) = .error .invalidArgument ∧
    renderCell g x y = ['?'] := by
  rw [show renderCell g x y = ['?'] by unfold renderCell; rw [h, if_pos rfl]]
  exact ⟨rfl, rfl⟩

theorem mem_intercalate {sep : List Char} {ts : List (List Char)} {c : Char} :
    c ∈ List.intercalate sep ts → (∃ t ∈ ts, c ∈ t) ∨ c ∈ sep := by
  induction ts with
  | nil => intro h; cases h
  | cons t ts' ih =>
    cases ts' with
    | nil =>
      intro h
      rw [show List.intercalate sep [t] = t by simp [List.intercalate]] at h
      exact Or.inl ⟨t, List.mem_cons_self t [], h⟩
    | cons t2 ts'' =>
      intro h
      rw [intercalate_cons_two, List.append_assoc] at h
      rcases List.mem_append.mp h with h1 | h2
      · exact Or.inl ⟨t, List.mem_cons_self _ _, h1⟩
      · rcases List.mem_append.mp h2 with h3 | h4
        · exact Or.inr h3
        · rcases ih h4 with ⟨u, hu, hcu⟩ | hs
          · exact Or.inl ⟨u, List.mem_cons_of_mem t hu, hcu⟩
          · exact Or.inr hs

theorem renderRow_nonl (g : Grid) (y : Nat)
    (hcells : ∀ x < g.n, g.get x y = -1 ∨ (1 ≤ g.get x y ∧ g.get x y ≤ 64)) :
    ∀ c ∈ renderRow g y, c ≠ '\n' := by
  intro c hc
  rcases mem_intercalate hc with ⟨t, ht, hct⟩ | hs
  · obtain ⟨x, hx, rfl⟩ := List.mem_map.mp ht
    exact ((renderCell_chars g x y (hcells x (List.mem_range.mp hx))).2 c hct).2
  · rcases List.mem_singleton.mp hs with rfl
    decide

theorem renderRow_ne_nil (g : Grid) (y : Nat) (hn : 1 ≤ g.n)
    (hcells : ∀ x < g.n, g.get x y = -1 ∨ (1 ≤ g.get x y ∧ g.get x y ≤ 64)) :
    renderRow g y ≠ [] := by
  unfold renderRow
  obtain ⟨m, hm⟩ : ∃ m, g.n = m + 1 := ⟨g.n - 1, by omega⟩
  rw [hm, List.range_succ_eq_map, List.map_cons]
  have h0 := (renderCell_chars g 0 y (hcells 0 (by omega))).1
  cases ts : (List.map Nat.succ (List.range m)).map (fun x => renderCell g x y) with
  | nil =>
    rw [show List.intercalate [' '] [renderCell g 0 y] = renderCell g 0 y by
      simp [List.intercalate]]
    exact h0
  | cons t2 ts'' =>
    rw [intercalate_cons_two]
    intro hemp
    rcases List.append_eq_nil.mp (List.append_eq_nil.mp hemp).1 with ⟨he, _⟩
    exact h0 he

theorem splitSp_renderRow (g : Grid) (y : Nat) (hn : 1 ≤ g.n)
    (hcells : ∀ x < g.n, g.get x y = -1 ∨ (1 ≤ g.get x y ∧ g.get x y ≤ 64)) :
    splitSp (renderRow g y) =
      (List.range g.n).map (fun x => renderCell g x y) := by
  unfold renderRow
  apply splitSp_intercalate
  · intro hemp
    rw [List.map_eq_nil_iff, List.range_eq_nil] at hemp
    omega
  · intro t ht c hct
    obtain ⟨x, hx, rfl⟩ := List.mem_map.mp ht
    exact ((renderCell_chars g x y (hcells x (List.mem_range.mp hx))).2 c hct).1

/-! Stream decomposition for the row loop. -/

theorem intercalate_cons_ne (sep a : List Char) (l : List (List Char))
    (h : l ≠ []) :
    List.intercalate sep (a :: l) = a ++ sep ++ List.intercalate sep l := by
  cases l with
  | nil => exact absurd rfl h
  | cons b l' => exact intercalate_cons_two sep a b l'

theorem rowsFrom_one (g : Grid) (y : Nat) : rowsFrom g y 1 = renderRow g y := by
  unfold rowsFrom
  rw [show List.range 1 = [0] from rfl, List.map_cons, List.map_nil]
  rw [show List.intercalate ['\n'] [renderRow g (y + 0)] = renderRow g (y + 0) by
    simp [List.intercalate]]
  rw [Nat.add_zero]

theorem rowsFrom_decomp (g : Grid) (y k : Nat) (h : 1 ≤ k) :
    rowsFrom g y (k + 1) = renderRow g y ++ '\n' :: rowsFrom g (y + 1) k := by
  unfold rowsFrom
  rw [List.range_succ_eq_map, List.map_cons, List.map_map]
  rw [show ((fun j => renderRow g (y + j)) ∘ Nat.succ) =
    (fun j => renderRow g (y + 1 + j)) from funext (fun j => by
      show renderRow g (y + (j + 1)) = renderRow g (y + 1 + j)
      rw [show y + (j + 1) = y + 1 + j by omega])]
  rw [intercalate_cons_ne _ _ _ (by
    intro hemp
    rw [List.map_eq_nil_iff, List.range_eq_nil] at hemp
    omega)]
  rw [List.append_assoc]
  rfl

theorem getline_rowsFrom (g : Grid) (y k : Nat)
    (hnl : ∀ c ∈ renderRow g y, c ≠ '\n') :
    getline (rowsFrom g y (k + 1)) = (renderRow g y, rowsFrom g (y + 1) k) := by
  cases k with
  | zero =>
    rw [rowsFrom_one]
    exact getline_nonl _ hnl
  | succ m =>
    rw [rowsFrom_decomp g y (m + 1) (by omega)]
    exact getline_append _ _ hnl

theorem getD_map_range {α : Type} (f : Nat → α) (n x : Nat) (d : α)
    (hx : x < n) : ((List.range n).map f).getD x d = f x := by
  rw [List.getD_eq_getElem?_getD, List.getElem?_map, List.getElem?_range hx]
  rfl

/-! insert_row writes the rendered row back unchanged. -/

theorem insertRowAux_render (g0 : Grid) (y : Nat) (tokens : List (List Char))
    (hwf : WfCells g0) (hn64 : g0.n ≤ 64) (hy : y < g0.n) :
    ∀ (k x : Nat) (g : Grid), x + k = g0.n →
      (∀ j < k, tokens.getD (x + j) [] = renderCell g0 (x + j) y) →
      ∃ g3, insertRowAux tokens y g0.n k g x = .ok (true, g3) ∧
        g3.n = g.n ∧
        (∀ a b, b = y → x ≤ a → a < g0.n → g3.get a b = g0.get a b) ∧
        (∀ a b, ¬(b = y ∧ x ≤ a ∧ a < g0.n) → g3.get a b = g.get a b) := by
  intro k
  induction k with
  | zero =>
    intro x g hx _
    refine ⟨g, rfl, rfl, ?_, fun a b _ => rfl⟩
    intro a b _ hxa han
    omega
  | succ k ih =>
    intro x g hx htok
    have htok0 : tokens.getD x [] = renderCell g0 x y := by
      have h := htok 0 (by omega)
      rw [Nat.add_zero] at h
      exact h
    have hxlt : x < g0.n := by omega
    have htok' : ∀ j < k, tokens.getD (x + 1 + j) [] =
        renderCell g0 (x + 1 + j) y := by
      intro j hj
      have h := htok (j + 1) (by omega)
      rw [show x + (j + 1) = x + 1 + j by omega] at h
      exact h
    rcases hwf x hxlt y hy with hunk | hdet
    · obtain ⟨hstoi, hq⟩ := stoi_renderCell_unk g0 x y hunk
      have hstep : insertRowAux tokens y g0.n (k + 1) g x =
          insertRowAux tokens y g0.n k (g.set x y (-1)) (x + 1) := by
        simp only [insertRowAux, htok0, hstoi]
        rw [if_pos hq]
      obtain ⟨g3, hrun, hn3, hin, hout⟩ := ih (x + 1) (g.set x y (-1))
        (by omega) htok'
      refine ⟨g3, by rw [hstep]; exact hrun, hn3, ?_, ?_⟩
      · intro a b hb hxa han
        by_cases hax : a = x
        · rw [hout a b (by rintro ⟨_, h2, _⟩; omega)]
          rw [hax, hb, get_set_same]
          exact hunk.symm
        · exact hin a b hb (by omega) han
      · intro a b hnr
        rw [hout a b (by rintro ⟨hb2, hxa2, han2⟩; exact hnr ⟨hb2, by omega, han2⟩)]
        exact get_set_other g x y a b _
          (by rintro ⟨h1, h2⟩; exact hnr ⟨h2, by omega, by omega⟩)
    · have h64 : g0.get x y ≤ 64 := by
        have hcast : (g0.n : Int) ≤ 64 := by exact_mod_cast hn64
        omega
      have hstoi := stoi_renderCell_det g0 x y hdet.1 h64
      have hstep : insertRowAux tokens y g0.n (k + 1) g x =
          insertRowAux tokens y g0.n k (g.set x y (g0.get x y)) (x + 1) := by
        simp only [insertRowAux, htok0, hstoi]
        rw [if_neg (by
          rintro (hlt | hgt)
          · omega
          · have := hdet.2
            omega)]
      obtain ⟨g3, hrun, hn3, hin, hout⟩ := ih (x + 1) (g.set x y (g0.get x y))
        (by omega) htok'
      refine ⟨g3, by rw [hstep]; exact hrun, hn3, ?_, ?_⟩
      · intro a b hb hxa han
        by_cases hax : a = x
        · rw [hout a b (by rintro ⟨_, h2, _⟩; omega)]
          rw [hax, hb, get_set_same]
        · exact hin a b hb (by omega) han
      · intro a b hnr
        rw [hout a b (by rintro ⟨hb2, hxa2, han2⟩; exact hnr ⟨hb2, by omega, han2⟩)]
        exact get_set_other g x y a b _
          (by rintro ⟨h1, h2⟩; exact hnr ⟨h2, by omega, by omega⟩)

/-! The row loop of parse_puzzle reads the remaining rendered rows back
unchanged. -/

theorem parseRowsAux_render (g0 : Grid) (hwf : WfCells g0) (hn64 : g0.n ≤ 64) :
    ∀ (k y : Nat) (g : Grid), y + k = g0.n →
      ∃ g3, parseRowsAux g0.n k (rowsFrom g0 y k) g y = .ok (true, g3) ∧
        g3.n = g.n ∧
        (∀ a b, a < g0.n → y ≤ b → b < g0.n → g3.get a b = g0.get a b) ∧
        (∀ a b, ¬(a < g0.n ∧ y ≤ b ∧ b < g0.n) → g3.get a b = g.get a b) := by
  intro k
  induction k with
  | zero =>
    intro y g hy
    refine ⟨g, rfl, rfl, ?_, fun a b _ => rfl⟩
    intro a b ha hyb hbn
    omega
  | succ k ih =>
    intro y g hy
    have hylt : y < g0.n := by omega
    have hcells : ∀ x < g0.n,
        g0.get x y = -1 ∨ (1 ≤ g0.get x y ∧ g0.get x y ≤ 64) := by
      intro x hx
      rcases hwf x hx y hylt with hu | hr
      · exact Or.inl hu
      · right
        refine ⟨hr.1, ?_⟩
        have hcast : (g0.n : Int) ≤ 64 := by exact_mod_cast hn64
        omega
    have hnl := renderRow_nonl g0 y hcells
    have hgl := getline_rowsFrom g0 y k hnl
    have hsplit := splitSp_renderRow g0 y (by omega) hcells
    have htoklen : ((List.range g0.n).map
        (fun x => renderCell g0 x y)).length = g0.n := by
      simp
    obtain ⟨g1, hins, hn1, hin1, hout1⟩ := insertRowAux_render g0 y
      ((List.range g0.n).map (fun x => renderCell g0 x y)) hwf hn64 hylt
      g0.n 0 g (by omega)
      (by
        intro j hj
        rw [Nat.zero_add]
        exact getD_map_range _ g0.n j [] hj)
    have hstep : parseRowsAux g0.n (k + 1) (rowsFrom g0 y (k + 1)) g y =
        parseRowsAux g0.n k (rowsFrom g0 (y + 1) k) g1 (y + 1) := by
      simp only [parseRowsAux, hgl, hsplit, htoklen]
      rw [if_neg (fun h => h rfl)]
      simp only [hins]
    obtain ⟨g3, hrun, hn3, hin, hout⟩ := ih (y + 1) g1 (by omega)
    refine ⟨g3, by rw [hstep]; exact hrun, by rw [hn3, hn1], ?_, ?_⟩
    · intro a b ha hyb hbn
      by_cases hby : b = y
      · rw [hout a b (by rintro ⟨_, h2, _⟩; omega)]
        exact hin1 a b hby (by omega) ha
      · exact hin a b ha (by omega) hbn
    · intro a b hnr
      rw [hout a b (by rintro ⟨ha2, hy2, hb2⟩; exact hnr ⟨ha2, by omega, hb2⟩)]
      exact hout1 a b (by rintro ⟨hb2, _, ha2⟩; exact hnr ⟨ha2, by omega, by omega⟩)

theorem renderGrid_eq_rowsFrom (g : Grid) : renderGrid g = rowsFrom g 0 g.n := by
  unfold renderGrid rowsFrom
  congr 1
  apply List.map_congr_left
  intro j _
  rw [Nat.zero_add]

/-- parse_puzzle reads the rendered board back: it accepts and the
resulting grid agrees with the original on the whole square. -/

theorem parsePuzzle_render (g0 gstart : Grid) (hwf : WfCells g0)
    (hn1 : 1 ≤ g0.n) (hn64 : g0.n ≤ 64)
    (hsq : nRoot g0.n * nRoot g0.n = g0.n) :
    ∃ g3, parsePuzzle gstart (renderGrid g0) = .ok (true, g3) ∧
      g3.n = g0.n ∧ ∀ a < g0.n, ∀ b < g0.n, g3.get a b = g0.get a b := by
  obtain ⟨m, hm⟩ : ∃ m, g0.n = m + 1 := ⟨g0.n - 1, by omega⟩
  have hcells : ∀ x < g0.n,
      g0.get x 0 = -1 ∨ (1 ≤ g0.get x 0 ∧ g0.get x 0 ≤ 64) := by
    intro x hx
    rcases hwf x hx 0 (by omega) with hu | hr
    · exact Or.inl hu
    · right
      refine ⟨hr.1, ?_⟩
      have hcast : (g0.n : Int) ≤ 64 := by exact_mod_cast hn64
      omega
  have hnl := renderRow_nonl g0 0 hcells
  have hgl : getline (rowsFrom g0 0 g0.n) = (renderRow g0 0, rowsFrom g0 1 m) := by
    rw [hm]
    exact getline_rowsFrom g0 0 m hnl
  have hsplit := splitSp_renderRow g0 0 hn1 hcells
  have htoklen : ((List.range g0.n).map
      (fun x => renderCell g0 x 0)).length = g0.n := by
    simp
  obtain ⟨g2, hins, hn2, hin2, hout2⟩ := insertRowAux_render g0 0
    ((List.range g0.n).map (fun x => renderCell g0 x 0)) hwf hn64 (by omega)
    g0.n 0 (gstart.reset g0.n) (by omega)
    (by
      intro j hj
      rw [Nat.zero_add]
      exact getD_map_range _ g0.n j [] hj)
  obtain ⟨g3, hrun, hn3, hin3, hout3⟩ := parseRowsAux_render g0 hwf hn64 m 1 g2
    (by omega)
  refine ⟨g3, ?_, ?_, ?_⟩
  · rw [renderGrid_eq_rowsFrom]
    simp only [parsePuzzle, hgl, hsplit, htoklen]
    rw [if_neg (by
      rintro (h0 | hL)
      · omega
      · exact renderRow_ne_nil g0 0 hn1 hcells hL)]
    rw [if_neg (fun h => h.1 hsq)]
    rw [if_neg (by omega)]
    simp only [hins, parseRows]
    rw [show g0.n - 1 = m by omega]
    exact hrun
  · rw [hn3, hn2]
    rfl
  · intro a ha b hb
    by_cases hb0 : b = 0
    · rw [hout3 a b (by rintro ⟨_, h1, _⟩; omega)]
      exact hin2 a b hb0 (by omega) ha
    · exact hin3 a b ha (by omega) hb

/-! The partial-validity check only reads in-range cells, so it transfers
along cell-wise equal boards. -/

theorem goodPartialCells_congr {g b : Grid} (hsb : SameBoard g b) :
    ∀ (cells : List (Nat × Nat)) (mask : Nat),
      (∀ p ∈ cells, p.1 < g.n ∧ p.2 < g.n) →
      goodPartialCells b cells mask = goodPartialCells g cells mask := by
  intro cells
  induction cells with
  | nil => intro mask _; rfl
  | cons c rest ih =>
    intro mask hin
    obtain ⟨cx, cy⟩ := c
    have hv : b.get cx cy = g.get cx cy :=
      hsb.2 cx (hin (cx, cy) (List.mem_cons_self _ _)).1
        cy (hin (cx, cy) (List.mem_cons_self _ _)).2
    simp only [goodPartialCells, hv]
    by_cases hc : g.get cx cy = -1
    · rw [if_pos hc, if_pos hc]
      exact ih _ (fun p hp => hin p (List.mem_cons_of_mem _ hp))
    · rw [if_neg hc, if_neg hc]
      by_cases hm : mask &&& pat64 (g.get cx cy) ≠ 0
      · rw [if_pos hm, if_pos hm]
      · rw [if_neg hm, if_neg hm]
        exact ih _ (fun p hp => hin p (List.mem_cons_of_mem _ hp))

theorem isGoodPartialBoard_congr {g b : Grid} (hsb : SameBoard g b) :
    isGoodPartialBoard b = isGoodPartialBoard g := by
  unfold isGoodPartialBoard
  rw [hsb.1]
  have h1 : (List.range g.n).all (fun y => isGoodPartialRow b y) =
      (List.range g.n).all (fun y => isGoodPartialRow g y) := by
    apply list_all_congr
    intro y hy
    rw [List.mem_range] at hy
    unfold isGoodPartialRow
    rw [hsb.1]
    apply goodPartialCells_congr hsb
    intro p hp
    obtain ⟨x, hx, rfl⟩ := mem_rowCells.mp hp
    exact ⟨hx, hy⟩
  have h2 : (List.range g.n).all (fun x => isGoodPartialColumn b x) =
      (List.range g.n).all (fun x => isGoodPartialColumn g x) := by
    apply list_all_congr
    intro x hx
    rw [List.mem_range] at hx
    unfold isGoodPartialColumn
    rw [hsb.1]
    apply goodPartialCells_congr hsb
    intro p hp
    obtain ⟨y, hy, rfl⟩ := mem_colCells.mp hp
    exact ⟨hx, hy⟩
  have h3 : (List.range (nRoot g.n)).all (fun bx =>
      (List.range (nRoot g.n)).all (fun byy =>
        isGoodPartialBlock b (bx * nRoot g.n) (byy * nRoot g.n))) =
      (List.range (nRoot g.n)).all (fun bx =>
      (List.range (nRoot g.n)).all (fun byy =>
        isGoodPartialBlock g (bx * nRoot g.n) (byy * nRoot g.n))) := by
    apply list_all_congr
    intro bx hbx
    rw [List.mem_range] at hbx
    apply list_all_congr
    intro byy hbyy
    rw [List.mem_range] at hbyy
    unfold isGoodPartialBlock
    rw [hsb.1]
    apply goodPartialCells_congr hsb
    intro p hp
    obtain ⟨xo, hxo, yo, hyo, rfl⟩ := mem_blockCells.mp hp
    have hle := nRoot_sq_le g.n
    exact ⟨Nat.lt_of_lt_of_le (block_coord_lt hbx hxo) hle,
      Nat.lt_of_lt_of_le (block_coord_lt hbyy hyo) hle⟩
  rw [h1, h2, h3]

/-! Inversion of the load path: whatever the input text, a successful
parse leaves a well-formed board of loadable side. -/

theorem nRoot_lt_succ_sq (n : Nat) : n < (nRoot n + 1) * (nRoot n + 1) := by
  rw [nRoot_eq_sqrt]
  exact Nat.lt_succ_sqrt n

theorem insertRowAux_inv (tokens : List (List Char)) (y n : Nat) :
    ∀ (k x : Nat) (g g2 : Grid),
      insertRowAux tokens y n k g x = .ok (true, g2) →
      g2.n = g.n ∧
      (∀ a b, b = y → x ≤ a → a < x + k →
        g2.get a b = -1 ∨ (1 ≤ g2.get a b ∧ g2.get a b ≤ (n : Int))) ∧
      (∀ a b, ¬(b = y ∧ x ≤ a ∧ a < x + k) → g2.get a b = g.get a b) := by
  intro k
  induction k with
  | zero =>
    intro x g g2 h
    have h2 : (Except.ok (true, g) : Except CxxExn (Bool × Grid)) =
      .ok (true, g2) := h
    have hg : g = g2 := congrArg Prod.snd (Except.ok.inj h2)
    subst hg
    refine ⟨rfl, ?_, fun a b _ => rfl⟩
    intro a b _ _ han
    omega
  | succ k ih =>
    intro x g g2 h
    cases hst : stoiCore (tokens.getD x []) with
    | ok value =>
      by_cases hrange : value < 1 ∨ value > (n : Int)
      · simp only [insertRowAux, hst] at h
        rw [if_pos hrange] at h
        exact absurd (congrArg Prod.fst (Except.ok.inj h)) Bool.false_ne_true
      · simp only [insertRowAux, hst] at h
        rw [if_neg hrange] at h
        obtain ⟨hn2, hreg, hfr⟩ := ih (x + 1) (g.set x y value) g2 h
        refine ⟨by rw [hn2]; rfl, ?_, ?_⟩
        · intro a b hb hxa han
          by_cases hax : a = x
          · rw [hfr a b (by rintro ⟨_, h2, _⟩; omega), hax, hb, get_set_same]
            right
            constructor <;> omega
          · exact hreg a b hb (by omega) (by omega)
        · intro a b hnr
          rw [hfr a b (by rintro ⟨hb2, hx2, ha2⟩; exact hnr ⟨hb2, by omega, by omega⟩)]
          exact get_set_other g x y a b _
            (by rintro ⟨h1, h2⟩; exact hnr ⟨h2, by omega, by omega⟩)
    | error e =>
      cases e with
      | invalidArgument =>
        by_cases hq : tokens.getD x [] = ['?']
        · simp only [insertRowAux, hst] at h
          rw [if_pos hq] at h
          obtain ⟨hn2, hreg, hfr⟩ := ih (x + 1) (g.set x y (-1)) g2 h
          refine ⟨by rw [hn2]; rfl, ?_, ?_⟩
          · intro a b hb hxa han
            by_cases hax : a = x
            · rw [hfr a b (by rintro ⟨_, h2, _⟩; omega), hax, hb, get_set_same]
              exact Or.inl rfl
            · exact hreg a b hb (by omega) (by omega)
          · intro a b hnr
            rw [hfr a b (by rintro ⟨hb2, hx2, ha2⟩; exact hnr ⟨hb2, by omega, by omega⟩)]
            exact get_set_other g x y a b _
              (by rintro ⟨h1, h2⟩; exact hnr ⟨h2, by omega, by omega⟩)
        · simp only [insertRowAux, hst] at h
          rw [if_neg hq] at h
          exact absurd (congrArg Prod.fst (Except.ok.inj h)) Bool.false_ne_true
      | outOfRange =>
        simp only [insertRowAux, hst] at h
        cases h

theorem parseRowsAux_inv (n : Nat) :
    ∀ (k : Nat) (stream : List Char) (g : Grid) (y : Nat) (g2 : Grid),
      parseRowsAux n k stream g y = .ok (true, g2) →
      g2.n = g.n ∧
      (∀ a b, a < n → y ≤ b → b < y + k →
        g2.get a b = -1 ∨ (1 ≤ g2.get a b ∧ g2.get a b ≤ (n : Int))) ∧
      (∀ a b, ¬(a < n ∧ y ≤ b ∧ b < y + k) → g2.get a b = g.get a b) := by
  intro k
  induction k with
  | zero =>
    intro stream g y g2 h
    have h2 : (Except.ok (true, g) : Except CxxExn (Bool × Grid)) =
      .ok (true, g2) := h
    have hg : g = g2 := congrArg Prod.snd (Except.ok.inj h2)
    subst hg
    refine ⟨rfl, ?_, fun a b _ => rfl⟩
    intro a b _ _ hbk
    omega
  | succ k ih =>
    intro stream g y g2 h
    by_cases hlen : (splitSp (getline stream).1).length ≠ n
    · simp only [parseRowsAux] at h
      rw [if_pos hlen] at h
      exact absurd (congrArg Prod.fst (Except.ok.inj h)) Bool.false_ne_true
    · simp only [parseRowsAux] at h
      rw [if_neg hlen] at h
      cases hins : insertRowAux (splitSp (getline stream).1) y n n g 0 with
      | error e =>
        rw [hins] at h
        cases h
      | ok p =>
        obtain ⟨ok1, g1⟩ := p
        simp only [hins] at h
        cases ok1 with
        | false => exact absurd (congrArg Prod.fst (Except.ok.inj h)) Bool.false_ne_true
        | true =>
          obtain ⟨hn1, hreg1, hfr1⟩ := insertRowAux_inv _ y n n 0 g g1 hins
          obtain ⟨hn2, hreg2, hfr2⟩ := ih _ g1 (y + 1) g2 h
          refine ⟨hn2.trans hn1, ?_, ?_⟩
          · intro a b ha hyb hbk
            by_cases hby : b = y
            · rw [hfr2 a b (by rintro ⟨_, h2, _⟩; omega)]
              exact hreg1 a b hby (by omega) (by omega)
            · exact hreg2 a b ha (by omega) (by omega)
          · intro a b hnr
            rw [hfr2 a b (by rintro ⟨ha2, hy2, hb2⟩; exact hnr ⟨ha2, by omega, by omega⟩)]
            exact hfr1 a b (by rintro ⟨hb2, _, ha2⟩; exact hnr ⟨by omega, by omega, by omega⟩)

theorem parsePuzzle_inv (gstart : Grid) (input : List Char) (g1 : Grid)
    (h : parsePuzzle gstart input = .ok (true, g1)) :
    1 ≤ g1.n ∧ g1.n ≤ 64 ∧ nRoot g1.n * nRoot g1.n = g1.n ∧ WfCells g1 := by
  simp only [parsePuzzle] at h
  by_cases h0 : (splitSp (getline input).1).length = 0 ∨ (getline input).1 = []
  · rw [if_pos h0] at h
    exact absurd (congrArg Prod.fst (Except.ok.inj h)) Bool.false_ne_true
  · rw [if_neg h0] at h
    by_cases h2 : nRoot (splitSp (getline input).1).length *
        nRoot (splitSp (getline input).1).length ≠
          (splitSp (getline input).1).length ∧
        (nRoot (splitSp (getline input).1).length + 1) *
        (nRoot (splitSp (getline input).1).length + 1) ≠
          (splitSp (getline input).1).length
    · rw [if_pos h2] at h
      exact absurd (congrArg Prod.fst (Except.ok.inj h)) Bool.false_ne_true
    · rw [if_neg h2] at h
      have hsqn : nRoot (splitSp (getline input).1).length *
          nRoot (splitSp (getline input).1).length =
          (splitSp (getline input).1).length := by
        rcases not_and_or.mp h2 with hA | hB
        · exact not_not.mp hA
        · exfalso
          have hlt := nRoot_lt_succ_sq (splitSp (getline input).1).length
          have hBe := not_not.mp hB
          omega
      by_cases h3 : (splitSp (getline input).1).length > 64
      · rw [if_pos h3] at h
        exact absurd (congrArg Prod.fst (Except.ok.inj h)) Bool.false_ne_true
      · rw [if_neg h3] at h
        cases hins : insertRowAux (splitSp (getline input).1) 0
            (splitSp (getline input).1).length
            (splitSp (getline input).1).length
            (gstart.reset (splitSp (getline input).1).length) 0 with
        | error e =>
          rw [hins] at h
          cases h
        | ok p =>
          obtain ⟨ok1, g2⟩ := p
          simp only [hins] at h
          cases ok1 with
          | false => exact absurd (congrArg Prod.fst (Except.ok.inj h)) Bool.false_ne_true
          | true =>
            simp only [parseRows] at h
            obtain ⟨hn1, hreg1, hfr1⟩ := insertRowAux_inv _ 0
              (splitSp (getline input).1).length
              (splitSp (getline input).1).length 0 _ g2 hins
            obtain ⟨hn2, hreg2, hfr2⟩ := parseRowsAux_inv
              (splitSp (getline input).1).length
              ((splitSp (getline input).1).length - 1) _ g2 1 g1 h
            have hlen1 : 1 ≤ (splitSp (getline input).1).length := by
              rcases Nat.eq_zero_or_pos (splitSp (getline input).1).length with hz | hp
              · exact absurd (Or.inl hz) h0
              · exact hp
            have hgn : g1.n = (splitSp (getline input).1).length := by
              rw [hn2, hn1]
              rfl
            refine ⟨by omega, by omega, by rw [hgn]; exact hsqn, ?_⟩
            intro a ha b hb
            rw [hgn] at ha hb
            by_cases hb0 : b = 0
            · have := hfr2 a b (by rintro ⟨_, h4, _⟩; omega)
              rw [this]
              have hcell := hreg1 a b hb0 (by omega) (by omega)
              rw [hgn]
              exact hcell
            · have hcell := hreg2 a b ha (by omega) (by omega)
              rw [hgn]
              exact hcell

theorem readPuzzle_inv (s0 : SudokuState) (input : List Char) (s1 : SudokuState)
    (h : readPuzzleFromString s0 input = .ok (true, s1)) :
    s1.statusOk = true ∧ validate s1.grid = true ∧ WfCells s1.grid ∧
    1 ≤ s1.grid.n ∧ s1.grid.n ≤ 64 ∧
    nRoot s1.grid.n * nRoot s1.grid.n = s1.grid.n := by
  unfold readPuzzleFromString at h
  cases hp : parsePuzzle s0.grid input with
  | error e =>
    rw [hp] at h
    cases h
  | ok p =>
    obtain ⟨ok2, g1⟩ := p
    simp only [hp] at h
    cases ok2 with
    | false => exact absurd (congrArg Prod.fst (Except.ok.inj h)) Bool.false_ne_true
    | true =>
      have h2 : (if validate g1 = true then
          Except.ok (true, ({ grid := g1, statusOk := true } : SudokuState))
        else Except.ok (false, { grid := g1, statusOk := s0.statusOk })) =
        Except.ok (true, s1) := h
      by_cases hv : validate g1 = true
      · rw [if_pos hv] at h2
        have hs1 : ({ grid := g1, statusOk := true } : SudokuState) = s1 :=
          congrArg Prod.snd (Except.ok.inj h2)
        obtain ⟨hn1, hn64, hsq, hwf⟩ := parsePuzzle_inv s0.grid input g1 hp
        rw [← hs1]
        exact ⟨rfl, hv, hwf, hn1, hn64, hsq⟩
      · rw [if_neg hv] at h2
        exact absurd (congrArg Prod.fst (Except.ok.inj h2)) Bool.false_ne_true

/-- C6: rendering any successfully loaded board with to_s (determined
cells in decimal, undetermined cells as a question mark, cells
space-separated, rows newline-separated) and re-parsing the rendered text
with read_puzzle_from_string succeeds and reproduces a board whose every
cell equals the original's. -/
theorem C6_render_reparse (input : List Char) (s1 : SudokuState)
    (hload : readPuzzleFromString initSudoku input = .ok (true, s1)) :
    ∀ s0 : SudokuState, ∃ s2 : SudokuState,
      readPuzzleFromString s0 (sudokuToS s1) = .ok (true, s2) ∧
      s2.statusOk = true ∧ SameBoard s1.grid s2.grid := by
  obtain ⟨hok, hval, hwf, hn1, hn64, hsq⟩ := readPuzzle_inv initSudoku input s1 hload
  intro s0
  obtain ⟨g3, hparse, hn3, hcells⟩ :=
    parsePuzzle_render s1.grid s0.grid hwf hn1 hn64 hsq
  have hsb : SameBoard s1.grid g3 := ⟨hn3, fun x hx y hy => hcells x hx y hy⟩
  have hval3 : validate g3 = true := by
    show isGoodPartialBoard g3 = true
    rw [isGoodPartialBoard_congr hsb]
    exact hval
  refine ⟨{ grid := g3, statusOk := true }, ?_, rfl, hsb⟩
  rw [sudokuToS_eq_renderGrid s1 hwf hn64]
  have hrd : readPuzzleFromString s0 (renderGrid s1.grid) =
      (if validate g3 = true then
        Except.ok (true, ({ grid := g3, statusOk := true } : SudokuState))
      else Except.ok (false, { grid := g3, statusOk := s0.statusOk })) := by
    unfold readPuzzleFromString
    rw [hparse]
  rw [hrd, if_pos hval3]

theorem C6_witness :
    ∃ s2 : SudokuState,
      readPuzzleFromString initSudoku
        (sudokuToS { grid := parsedGrid initSudoku val4Input,
                     statusOk := true }) = .ok (true, s2) ∧
      s2.statusOk = true ∧
      SameBoard (parsedGrid initSudoku val4Input) s2.grid :=
  C6_render_reparse val4Input
    { grid := parsedGrid initSudoku val4Input, statusOk := true }
    rfl initSudoku

end SudokuGem
